import Mathlib

/-!
Verification development for the ScrAPEM-App extraction engine.

Shallow embedding of the deterministic extraction and merge code
(src/extract_data_deterministic.py, src/extract_python.py, src/merge_results.py)
together with theorems settling the frozen claims about it.

Modelling conventions:
* Python strings are modelled as Lean `String` / `List Char`; the case
  mappings and character predicates (`isdigit`, `isalpha`, `\s`, `\d`)
  are modelled at the ASCII level, which is exact for the inputs the
  program manipulates.
* Python `None`-or-string values are `Option String`; Python dicts (which
  preserve insertion order) are association lists with
  insert-or-overwrite-in-place semantics.
* Fallible Python code is modelled with `Except PyErr`.
* Regular-expression operations (`re.findall`, `re.sub`, `re.search`,
  `re.match`) are modelled by bespoke scanners that implement the exact
  leftmost, non-overlapping semantics of the concrete patterns appearing
  in the source, including the case-insensitivity flags used there.
-/

namespace ScrAPEM

/-! ## Python string primitives -/

/-- Python regex class % \s (ASCII part). -/
def pyWs (c : Char) : Bool :=
  c = ' ' || c = '\t' || c = '\n' || c = '\x0b' || c = '\x0c' || c = '\r'

/-- Python str.lower, ASCII case mapping. -/
def lowC (c : Char) : Char := c.toLower

/-- Python str.upper, ASCII case mapping. -/
def uppC (c : Char) : Char := c.toUpper

def lowL (s : List Char) : List Char := s.map lowC

def uppL (s : List Char) : List Char := s.map uppC

/-- Python str.strip() on a char list. -/
def stripL (s : List Char) : List Char :=
  ((s.dropWhile pyWs).reverse.dropWhile pyWs).reverse

/-- Python str.lower() on strings. -/
def pyLower (s : String) : String := ⟨lowL s.data⟩

/-- Python str.upper() on strings. -/
def pyUpper (s : String) : String := ⟨uppL s.data⟩

/-- Python str.strip() on strings. -/
def pyStrip (s : String) : String := ⟨stripL s.data⟩

/-- Python sub in other: substring containment test. -/
def containsSubL (hay needle : List Char) : Bool :=
  match hay with
  | [] => needle.isEmpty
  | _ :: t => needle.isPrefixOf hay || containsSubL t needle

/-- Python needle in hay for strings. -/
def pyContains (hay needle : String) : Bool := containsSubL hay.data needle.data

/-- Python s.split(sep) for a single separator character: no run collapsing,
empty string gives one empty field. -/
def splitOnCharL (sep : Char) : List Char → List (List Char)
  | [] => [[]]
  | c :: t =>
    let r := splitOnCharL sep t
    if c = sep then [] :: r
    else
      match r with
      | [] => [[c]]
      | h :: rs => (c :: h) :: rs

/-- Python s.split() with no argument: split on whitespace runs, dropping
empty fields. -/
def splitWsL (s : List Char) : List (List Char) :=
  match s with
  | [] => []
  | c :: t =>
    if pyWs c then splitWsL t
    else
      match splitWsL t with
      | [] => [[c]]
      | h :: rs =>
        match t with
        | [] => [[c]]
        | d :: _ => if pyWs d then [c] :: h :: rs else (c :: h) :: rs

/-- Python sep.join(items) on char lists. -/
def joinL (sep : List Char) : List (List Char) → List Char
  | [] => []
  | [x] => x
  | x :: y :: r => x ++ sep ++ joinL sep (y :: r)

/-! ## Python-dict association lists -/

/-- Python dict lookup distinguishing a missing key from a stored value
(`some v` means the key is present with value `v`). -/
def dfind {α : Type} (m : List (String × α)) (k : String) : Option α :=
  (m.find? (fun p => p.1 = k)).map (·.2)

/-- Python dict.get(k): missing key and stored None collapse to none. -/
def dget (m : List (String × Option String)) (k : String) : Option String :=
  match dfind m k with
  | some v => v
  | none => none

/-- Python dict.get(k, d) for a string default. -/
def dgetD (m : List (String × Option String)) (k : String) (d : String) : Option String :=
  match dfind m k with
  | some v => v
  | none => some d

/-- Python dict assignment d[k] = v: overwrite in place, else append. -/
def dset {α : Type} (m : List (String × α)) (k : String) (v : α) : List (String × α) :=
  match m with
  | [] => [(k, v)]
  | (k', v') :: t => if k' = k then (k, v) :: t else (k', v') :: dset t k v

/-- Python truthiness of a None-or-string value. -/
def pyTruthy (v : Option String) : Bool :=
  match v with
  | none => false
  | some s => s ≠ ""

/-- Python membership in the sentinel list [None, "", "null", "N/A"]. -/
def isSentinel (v : Option String) : Bool :=
  v = none || v = some "" || v = some "null" || v = some "N/A"

/-- Python or-chain on two None-or-string values: first if truthy, else second. -/
def pyOr (a b : Option String) : Option String :=
  if pyTruthy a then a else b

/-! ## merge_results.py -/

/-- One AI candidate record: a JSON-like object with string-or-null fields. -/
abbrev AIProd := List (String × Option String)

/-- The heuristic spec record passed to the merge engine. -/
abbrev SpecRec := List (String × Option String)

/-- One output product row. -/
abbrev Product := List (String × Option String)

/-- The `ai_products` argument, which in Python is duck-typed: it may be a
list of candidate dicts, or None, or some other scalar that the code only
ever checks for truthiness before iterating. -/
inductive AIPayload where
  | pynone
  | pyint (n : Int)
  | pystr (s : String)
  | pylist (l : List AIProd)
deriving DecidableEq

/-- Python exceptions the merge path can raise. -/
inductive PyErr where
  | attributeError
  | typeError
  | indexError
deriving DecidableEq

/-- merge_results.validate_model_code: permissive validation used for
AI-proposed codes. -/
def validate_model_code (code : Option String) (series_name : Option String) : Bool :=
  match code with
  | none => false
  | some s =>
    let c := pyUpper (pyStrip s)
    let _series := match series_name with
      | some sn => pyUpper sn
      | none => ""
    if c.length < 5 || c.length > 30 then false
    else if c.data.any (fun ch => ch = ' ') then false
    else if ["CIRCUIT", "EXAMPLE", "NOTE", "FIGURE", "TABLE", "PAGE",
             "DIMENSION", "SPECIFICATION", "MOUNTING", "TERMINAL"].any
              (fun g => pyContains c g) then false
    else
      let hasLetter := c.data.any Char.isAlpha
      let hasDigit := c.data.any Char.isDigit
      hasLetter && hasDigit

/-- The fixed output column order of merge_ai_with_python_filter. -/
def targetColumns : List String :=
  ["SERIES", "MODEL_CODE", "MOUNTING HOLE", "BEZEL STYLE", "TERMINALS",
   "BEZEL FINISH", "TYPE OF ILLUMINATION", "LED COLOR", "VOLTAGE", "SEALING"]

/-- Build one product from an accepted AI candidate plus the heuristic specs
(the inner loop body of merge_ai_with_python_filter). -/
def buildProduct (specs : SpecRec) (ai_prod : AIProd) (model_code : String)
    (series_name : Option String) : Product :=
  targetColumns.map (fun col =>
    (col,
      if col = "MODEL_CODE" then some model_code
      else if col = "SERIES" then
        pyOr (dget specs "SERIES") (pyOr (dget ai_prod "SERIES") series_name)
      else
        let py_val := dget specs col
        let ai_val := dget ai_prod col
        if pyTruthy py_val && !isSentinel py_val then py_val
        else if pyTruthy ai_val && !isSentinel ai_val then ai_val
        else none))

/-- One step of the candidate loop: state is (seen_codes, products). -/
def considerCand (specs : SpecRec) (series_name : Option String)
    (st : List String × List Product) (ai_prod : AIProd) :
    List String × List Product :=
  let (seen, prods) := st
  match dget ai_prod "MODEL_CODE" with
  | none => st
  | some mc =>
    if mc = "" then st
    else if (pyUpper mc) ∈ seen then st
    else if !validate_model_code (some mc) series_name then st
    else (seen ++ [pyUpper mc], prods ++ [buildProduct specs ai_prod mc series_name])

/-- The products accepted from the AI candidate list. -/
def acceptedProducts (l : List AIProd) (specs : SpecRec)
    (series_name : Option String) : List Product :=
  (l.foldl (considerCand specs series_name) ([], [])).2

/-- The fallback row before the MODEL_CODE default is applied: each target
column takes the heuristic value with sentinels normalized to None. -/
def fallbackBase (specs : SpecRec) : Product :=
  targetColumns.map (fun col =>
    (col, if isSentinel (dget specs col) then none else dget specs col))

/-- The fallback product synthesized from the heuristic record alone. -/
def fallbackProduct (specs : SpecRec) : Product :=
  if pyTruthy (dget (fallbackBase specs) "MODEL_CODE") then fallbackBase specs
  else dset (fallbackBase specs) "MODEL_CODE" (dgetD specs "SERIES" "Unknown")

/-- merge_results.merge_ai_with_python_filter, after the python_specs format
shim has selected the specs dict (the wrapped form only chooses which dict is
read; the merge body consumes `specs` directly). A truthy non-list payload
raises when the loop body calls .get on its elements (str) or when iteration
itself fails (int). -/
def merge_ai_with_python_filter (ai_products : AIPayload) (specs : SpecRec)
    (series_name : Option String) : Except PyErr (List Product) :=
  let finish := fun (prods : List Product) =>
    if prods.isEmpty then [fallbackProduct specs] else prods
  match ai_products with
  | .pynone => .ok (finish [])
  | .pyint n => if n = 0 then .ok (finish []) else .error .typeError
  | .pystr s => if s = "" then .ok (finish []) else .error .attributeError
  | .pylist l => .ok (finish (acceptedProducts l specs series_name))

/-- A candidate whose MODEL_CODE is missing or one of the explicit sentinels
null / "null" / "" / "N/A". -/
def absentMC (p : AIProd) : Bool :=
  isSentinel (dget p "MODEL_CODE")

/-! ## extract_data_deterministic.py: extract_model_codes -/

/-- Python regex word character (ASCII part of \w). -/
def isWordC (c : Char) : Bool := c.isAlphanum || c = '_'

/-- Split off the maximal run of characters satisfying p. -/
def takeRun (p : Char → Bool) : List Char → List Char × List Char
  | [] => ([], [])
  | c :: t =>
    if p c then
      let (r, rest) := takeRun p t
      (c :: r, rest)
    else ([], c :: t)

/-- Case-insensitive literal match: returns the rest of the input when it
starts with the literal (compared via ASCII lowercasing, as re.IGNORECASE
does on this program's inputs). -/
def matchCI : List Char → List Char → Option (List Char)
  | [], s => some s
  | _, [] => none
  | l :: lt, c :: ct => if lowC c = lowC l then matchCI lt ct else none

/-- Greedy consumption of the (?:[-][A-Z0-9]+)* tail of the strict
model-code pattern: returns the list of segment lengths (each counts the
hyphen plus its alphanumeric run) and the remaining input. -/
def strictSegs : Nat → List Char → List Nat × List Char
  | 0, s => ([], s)
  | fuel + 1, s =>
    match s with
    | '-' :: t =>
      let (r, rest) := takeRun Char.isAlphanum t
      if r.isEmpty then ([], s)
      else
        let (segs, rest') := strictSegs fuel rest
        ((1 + r.length) :: segs, rest')
    | _ => ([], s)

/-- Attempt to match the strict pattern
SERIES[-][A-Z0-9]\x7b2,\x7d(?:[-][A-Z0-9]+)* with word boundaries at both
ends, at the current position. prevWord says whether the character before
the position is a word character. Returns the match length. The only
backtracking the pattern admits is dropping the final starred segment when
the trailing boundary fails (the next character being an underscore). -/
def strictMatchAt (series : List Char) (prevWord : Bool) (s : List Char) : Option Nat :=
  let curWord := match s with
    | c :: _ => isWordC c
    | [] => false
  if prevWord = curWord then none
  else
    match matchCI series s with
    | none => none
    | some rest0 =>
      match rest0 with
      | '-' :: rest1 =>
        let (r1, rest2) := takeRun Char.isAlphanum rest1
        if r1.length < 2 then none
        else
          let (segs, rest3) := strictSegs rest2.length rest2
          let base := series.length + 1 + r1.length
          match rest3 with
          | [] => some (base + segs.sum)
          | c :: _ =>
            if !isWordC c then some (base + segs.sum)
            else
              match segs with
              | [] => none
              | _ => some (base + segs.sum - segs.getLast!)
      | _ => none

/-- re.findall of the strict model-code pattern: leftmost, non-overlapping
scan. After a match the scan resumes right after it (the last matched
character is always alphanumeric, hence a word character). -/
def strictScan (fuel : Nat) (series : List Char) (prevWord : Bool) (s : List Char) :
    List (List Char) :=
  match fuel with
  | 0 => []
  | fuel + 1 =>
    match s with
    | [] => []
    | c :: t =>
      match strictMatchAt series prevWord (c :: t) with
      | some len => (c :: t).take len :: strictScan fuel series true ((c :: t).drop len)
      | none => strictScan fuel series (isWordC c) t

/-- All strict-pattern matches in a string. -/
def strictFindAll (series : String) (s : String) : List String :=
  (strictScan (s.length + 1) series.data false s.data).map (fun l => ⟨l⟩)

/-- The garbage word list of extract_model_codes. -/
def garbageWords : List String :=
  ["CIRCUIT", "EXAMPLE", "CONDITIONAL", "SHORT", "CURRENT",
   "NOTE", "FIGURE", "TABLE", "PAGE", "SPECIFICATION",
   "DIMENSION", "MOUNTING", "TERMINAL", "VOLTAGE", "SEALING"]

/-- The check chain of is_valid_model_code on the stripped, uppercased code. -/
def is_valid_core (series_name : String) (c : String) : Bool :=
  if c.length < 8 || c.length > 25 then false
  else if !((pyUpper series_name).data.isPrefixOf c.data) then false
  else if c.length ≤ series_name.length then false
  else if c.data.get? series_name.length ≠ some '-' then false
  else if c.data.any (fun ch => ch = ' ') then false
  else if garbageWords.any (fun g => pyContains c g) then false
  else if !((c.data.drop (series_name.length + 1)).any Char.isDigit) then false
  else if !(c.data.all (fun ch => ch.isAlphanum || ch = '-')) then false
  else true

/-- Strict validation of model codes (the inner is_valid_model_code of
extract_model_codes): strip and uppercase, then run the check chain. -/
def is_valid_model_code (series_name : String) (code : String) : Bool :=
  if code = "" then false
  else is_valid_core series_name (pyUpper (pyStrip code))

/-- add_code: strip, uppercase, validate, and append when unseen. The Python
code keeps a seen set in lockstep with the output list; membership in the
output list is an equivalent state. -/
def addCode (series_name : String) (codes : List String) (code : String) : List String :=
  if is_valid_model_code series_name (pyUpper (pyStrip code))
      && !(codes.contains (pyUpper (pyStrip code))) then
    codes ++ [pyUpper (pyStrip code)]
  else codes

/-- A table as produced by pdfplumber: rows of optional cell strings. -/
abbrev Table := List (List (Option String))

/-- Candidate strings contributed by one table cell: every strict-pattern
match in the stripped cell text, plus the whole cell when it validates. -/
def cellCandidates (series_name : String) (cell : Option String) : List String :=
  match cell with
  | none => []
  | some s =>
    if s = "" then []
    else
      let cs := pyStrip s
      strictFindAll series_name cs
        ++ (if is_valid_model_code series_name cs then [cs] else [])

/-- All candidate strings of extract_model_codes in encounter order:
the text pass, then every table cell. -/
def modelCodeCandidates (text : String) (tables : List Table) (series_name : String) :
    List String :=
  strictFindAll series_name text
    ++ tables.flatMap (fun tb => tb.flatMap (fun row => row.flatMap (cellCandidates series_name)))

/-- extract_data_deterministic.extract_model_codes. -/
def extract_model_codes (text : String) (tables : List Table) (series_name : String) :
    List String :=
  List.insertionSort (· ≤ ·)
    ((modelCodeCandidates text tables series_name).foldl (addCode series_name) [])


/-! ## Regex-substitution and findall machinery -/

/-- One global-substitution pass in the style of re.sub. The matcher, when a
match starts at the current position, returns the match length (always at
least 1 for the patterns modelled here) and the replacement text; scanning
resumes right after the match, and the replacement is not rescanned. The
fuel argument is an upper bound on the number of scan steps; one unit is
spent per position advanced, so length + 1 always suffices. -/
def scanSub (m : List Char → Option (Nat × List Char)) : Nat → List Char → List Char
  | 0, s => s
  | _ + 1, [] => []
  | fuel + 1, c :: t =>
    match m (c :: t) with
    | some (k, rep) => rep ++ scanSub m fuel (List.drop (k - 1) t)
    | none => c :: scanSub m fuel t

/-- re.sub with the canonical fuel. -/
def runSub (m : List Char → Option (Nat × List Char)) (s : List Char) : List Char :=
  scanSub m (s.length + 1) s

/-- re.findall in the same style: the matcher returns the match length and
the text the findall call reports (the whole match, or the first capture
group for the one grouped pattern modelled here). -/
def scanFind (m : List Char → Option (Nat × List Char)) : Nat → List Char → List (List Char)
  | 0, _ => []
  | _ + 1, [] => []
  | fuel + 1, c :: t =>
    match m (c :: t) with
    | some (k, txt) => txt :: scanFind m fuel (List.drop (k - 1) t)
    | none => scanFind m fuel t

/-- re.findall with the canonical fuel. -/
def runFind (m : List Char → Option (Nat × List Char)) (s : List Char) : List (List Char) :=
  scanFind m (s.length + 1) s

/-- Maximal match of the number group \d+\.?\d* : the digit run, an
optional dot, and a following digit run. Fails without a leading digit.
Returns the group text and the rest. (The pattern admits no useful
backtracking: shrinking a maximal run or refusing the dot always leaves the
scanner on a character the next pattern element rejects.) -/
def numGroup (s : List Char) : Option (List Char × List Char) :=
  match takeRun Char.isDigit s with
  | ([], _) => none
  | (d1, rest) =>
    match rest with
    | '.' :: rest2 =>
      let (d2, rest3) := takeRun Char.isDigit rest2
      some (d1 ++ '.' :: d2, rest3)
    | _ => some (d1, rest)

/-! ## standardize_voltage (extract_data_deterministic.py lines 35-45) -/

/-- Matcher for (\d+\.?\d*)\s*V<x>C with re.IGNORECASE (x is d for VDC,
a for VAC); replacement is the number group followed by "V DC" / "V AC". -/
def mNum (x : Char) (s : List Char) : Option (Nat × List Char) :=
  match numGroup s with
  | none => none
  | some (g, rest) =>
    let (w, rest2) := takeRun pyWs rest
    match rest2 with
    | a :: b :: c2 :: _ =>
      if lowC a = 'v' ∧ lowC b = lowC x ∧ lowC c2 = 'c' then
        some (g.length + w.length + 3, g ++ ['V', ' ', uppC x, 'C'])
      else none
    | _ => none

/-- Matcher for V\s+<x>C (case-sensitive, x is D or A); replacement
"V DC" / "V AC". -/
def mVws (x : Char) (s : List Char) : Option (Nat × List Char) :=
  match s with
  | 'V' :: rest =>
    let (w, rest2) := takeRun pyWs rest
    if w.isEmpty then none
    else
      match rest2 with
      | a :: b :: _ =>
        if a = x ∧ b = 'C' then some (1 + w.length + 2, ['V', ' ', x, 'C'])
        else none
      | _ => none
  | _ => none

/-- Matcher for (\d+)\s*/\s*(\d+); replacement joins the two digit runs
with a bare slash. -/
def mSlash (s : List Char) : Option (Nat × List Char) :=
  match takeRun Char.isDigit s with
  | ([], _) => none
  | (d1, rest) =>
    let (w1, rest2) := takeRun pyWs rest
    match rest2 with
    | '/' :: rest3 =>
      let (w2, rest4) := takeRun pyWs rest3
      match takeRun Char.isDigit rest4 with
      | ([], _) => none
      | (d2, _) =>
        some (d1.length + w1.length + 1 + w2.length + d2.length, d1 ++ '/' :: d2)
    | _ => none

/-- standardize_voltage: strip, then the five substitution passes. -/
def standardize_voltage (s : String) : String :=
  if s = "" then s
  else
    ⟨runSub mSlash (runSub (mVws 'A') (runSub (mVws 'D')
      (runSub (mNum 'a') (runSub (mNum 'd') (stripL s.data)))))⟩

/-! ## clean_dimension (extract_data_deterministic.py lines 48-55) -/

/-- Matcher for a one-character class followed by \\s*, with empty
replacement (the [cls]\\s* removal of clean_dimension; the deterministic
file stores the genuine ø and Ø, while extract_python.py is double-encoded
on disk and stores the mojibake characters instead). -/
def mDiaCls (cls : List Char) (s : List Char) : Option (Nat × List Char) :=
  match s with
  | c :: t =>
    if cls.contains c then
      let (w, _) := takeRun pyWs t
      some (1 + w.length, [])
    else none
  | [] => none

/-- Matcher for \s*mm\b with re.IGNORECASE; replacement empty. The
boundary after mm holds exactly when the next character is not a word
character (the previous one is always the word character m). -/
def mMm (s : List Char) : Option (Nat × List Char) :=
  let (w, rest) := takeRun pyWs s
  match rest with
  | a :: b :: rest2 =>
    if lowC a = 'm' ∧ lowC b = 'm' then
      match rest2 with
      | [] => some (w.length + 2, [])
      | c :: _ => if isWordC c then none else some (w.length + 2, [])
    else none
  | _ => none

/-- clean_dimension over a given diameter class. -/
def clean_dimension_core (cls : List Char) (s : String) : String :=
  if s = "" then s
  else ⟨stripL (runSub mMm (runSub (mDiaCls cls) (stripL s.data)))⟩

/-- clean_dimension (deterministic variant, real ø/Ø characters). -/
def clean_dimension (s : String) : String := clean_dimension_core ['ø', 'Ø'] s

/-! ## clean_and_dedupe_values (extract_data_deterministic.py lines 75-121) -/

/-- Index of the last occurrence of a character. -/
def lastIdxOf (c : Char) : List Char → Option Nat
  | [] => none
  | a :: t =>
    match lastIdxOf c t with
    | some j => some (j + 1)
    | none => if a = c then some 0 else none

/-- re.match(r'\x7b(.+)\x7d', s): the group runs from just after the
leading brace to the last closing brace inside the maximal newline-free
region, and must be nonempty ('.' does not cross newlines, and the greedy
group reaches the last reachable closing brace). -/
def braceGroup (s : List Char) : Option (List Char) :=
  match s with
  | '\x7b' :: t =>
    let p := t.takeWhile (fun c => c ≠ '\n')
    match lastIdxOf '\x7d' p with
    | some j => if 1 ≤ j then some (p.take j) else none
    | none => none
  | _ => none

/-- Python item.split(':', 1): the part before the first colon and the part
after it. Only called when the item contains a colon. -/
def splitFirstColon : List Char → List Char × List Char
  | [] => ([], [])
  | c :: t =>
    if c = ':' then ([], t)
    else
      let (a, b) := splitFirstColon t
      (c :: a, b)

/-- The per-item transform selected by value_type. -/
def cadvTransform (value_type : String) (v : List Char) : List Char :=
  if value_type = "voltage" then (standardize_voltage ⟨v⟩).data
  else if value_type = "dimension" then (clean_dimension ⟨v⟩).data
  else v

/-- The loop body of clean_and_dedupe_values: state is
(cleaned_items, seen lowered values). -/
def cadvStep (value_type : String) (st : List (List Char) × List (List Char))
    (item0 : List Char) : List (List Char) × List (List Char) :=
  let item := stripL item0
  if item.isEmpty then st
  else
    let code : Option (List Char) :=
      if item.contains ':' then some (stripL (splitFirstColon item).1) else none
    let value0 : List Char :=
      if item.contains ':' then stripL (splitFirstColon item).2 else item
    let value := cadvTransform value_type value0
    let value_lower := lowL value
    if st.2.contains value_lower then st
    else
      match code with
      | some cd =>
        if cd.isEmpty then (st.1 ++ [value], st.2 ++ [value_lower])
        else (st.1 ++ [cd ++ ':' :: value], st.2 ++ [value_lower])
      | none => (st.1 ++ [value], st.2 ++ [value_lower])

/-- clean_and_dedupe_values. -/
def clean_and_dedupe_values (values_str : String) (value_type : String) : String :=
  if values_str = "" then values_str
  else if values_str = "N/A" then values_str
  else
    match braceGroup values_str.data with
    | none => values_str
    | some content =>
      let items := splitOnCharL '|' content
      let folded := items.foldl (cadvStep value_type) ([], [])
      match folded.1 with
      | [] => "N/A"
      | cleaned => ⟨'\x7b' :: (joinL ['|'] cleaned ++ ['\x7d'])⟩

/-! ## extract_sealing (extract_data_deterministic.py lines 366-409) -/

/-- Matcher for IP\s*\d\x7b2\x7d[A-Z]? with re.IGNORECASE (the optional
trailing letter is taken greedily; with the flag it also matches a
lowercase letter). Reports the whole match. -/
def mIPA (s : List Char) : Option (Nat × List Char) :=
  match s with
  | a :: b :: rest =>
    if lowC a = 'i' ∧ lowC b = 'p' then
      let (w, rest2) := takeRun pyWs rest
      match rest2 with
      | d1 :: d2 :: rest3 =>
        if d1.isDigit ∧ d2.isDigit then
          match rest3 with
          | c :: _ =>
            if c.isAlpha then some (2 + w.length + 3, a :: b :: (w ++ [d1, d2, c]))
            else some (2 + w.length + 2, a :: b :: (w ++ [d1, d2]))
          | [] => some (2 + w.length + 2, a :: b :: (w ++ [d1, d2]))
        else none
      | _ => none
    else none
  | _ => none

/-- Matcher for IP\s*\d\x7b2\x7d with re.IGNORECASE. -/
def mIPB (s : List Char) : Option (Nat × List Char) :=
  match s with
  | a :: b :: rest =>
    if lowC a = 'i' ∧ lowC b = 'p' then
      let (w, rest2) := takeRun pyWs rest
      match rest2 with
      | d1 :: d2 :: _ =>
        if d1.isDigit ∧ d2.isDigit then some (2 + w.length + 2, a :: b :: (w ++ [d1, d2]))
        else none
      | _ => none
    else none
  | _ => none

/-- exhaustive_text_search: run every pattern over the whole text, strip
each reported match, and collect first occurrences (exact-match dedup). -/
def exhaustive_text_search (matchers : List (List Char → Option (Nat × List Char)))
    (text : List Char) : List (List Char) :=
  matchers.foldl
    (fun acc m =>
      (runFind m text).foldl
        (fun acc2 mt =>
          let mc := stripL mt
          if mc.isEmpty then acc2
          else if acc2.contains mc then acc2
          else acc2 ++ [mc])
        acc)
    []

/-- Python match.replace(' ', '').upper() used on IP ratings. -/
def ratingOf (mt : List Char) : List Char := uppL (mt.filter (fun c => c ≠ ' '))

/-- The text pass of extract_sealing: collect distinct ratings. -/
def sealingTextRatings (text : List Char) : List (List Char) :=
  (exhaustive_text_search [mIPA, mIPB] text).foldl
    (fun fr mt =>
      let r := ratingOf mt
      if r.isEmpty then fr
      else if fr.contains r then fr
      else fr ++ [r])
    []

/-- The table pass of extract_sealing: walk every cell, run both patterns,
collect new ratings and capture a 1-2 letter alphabetic code from the
previous cell for every match. State is (found_ratings, rating_codes). -/
def sealingCellStep (prev : Option (Option String))
    (st : List (List Char) × List (String × String)) (cellText : List Char) :
    List (List Char) × List (String × String) :=
  [mIPA, mIPB].foldl
    (fun st1 m =>
      (runFind m cellText).foldl
        (fun st2 mt =>
          let r := ratingOf mt
          let found := if r.isEmpty then st2.1
            else if st2.1.contains r then st2.1 else st2.1 ++ [r]
          let codes :=
            match prev with
            | some (some pc) =>
              if pc = "" then st2.2
              else
                let cd := stripL pc.data
                if cd.length ≤ 2 ∧ cd.length ≥ 1 ∧ cd.all Char.isAlpha then
                  dset st2.2 ⟨uppL cd⟩ ⟨r⟩
                else st2.2
            | _ => st2.2
          (found, codes))
        st1)
    st

/-- Walk a row of cells with the previous-cell reference for code capture. -/
def sealingRowWalk (row : List (Option String))
    (st : List (List Char) × List (String × String)) :
    List (List Char) × List (String × String) :=
  (row.enum.foldl
    (fun st2 ic =>
      match ic.2 with
      | none => st2
      | some s =>
        if s = "" then st2
        else
          sealingCellStep (if 1 ≤ ic.1 then row.get? (ic.1 - 1) else none) st2 s.data)
    st)

/-- extract_sealing (deterministic variant; returns None when nothing is
found). -/
def extract_sealing (text : String) (tables : List Table) : Option String :=
  let found0 := sealingTextRatings text.data
  let final := tables.foldl
    (fun st tb => tb.foldl (fun st2 row => sealingRowWalk row st2) st)
    (found0, ([] : List (String × String)))
  if !final.2.isEmpty then
    some ⟨'\x7b' :: (joinL ['|'] (final.2.map (fun p => p.1.data ++ ':' :: p.2.data)) ++ ['\x7d'])⟩
  else if !final.1.isEmpty then
    some ⟨'\x7b' :: (joinL ['|'] (final.1.map (fun r => 'E' :: ':' :: r)) ++ ['\x7d'])⟩
  else none



/-! ## extract_voltage (extract_data_deterministic.py lines 306-363 and the
near-identical copy in extract_python.py lines 402-463, which differ only in
the dash class of the range pattern: the deterministic file stores a genuine
en dash, while extract_python.py is double-encoded on disk and stores the
three characters of the mojibake sequence instead) -/

/-- Matcher for the trailing \s*V\s*(?:DC|AC) of the voltage patterns,
with re.IGNORECASE. -/
def vTail (s : List Char) : Option (Nat × List Char) :=
  let (w1, r1) := takeRun pyWs s
  match r1 with
  | v :: r2 =>
    if lowC v = 'v' then
      let (w2, r3) := takeRun pyWs r2
      match r3 with
      | a :: b :: _ =>
        if (lowC a = 'd' ∨ lowC a = 'a') ∧ lowC b = 'c' then
          some (w1.length + 1 + w2.length + 2, w1 ++ v :: (w2 ++ [a, b]))
        else none
      | _ => none
    else none
  | _ => none

/-- Voltage pattern 1: \d+\.?\d*\s*/\s*\d+\.?\d*\s*V\s*(?:DC|AC). -/
def mVolt1 (s : List Char) : Option (Nat × List Char) :=
  match numGroup s with
  | none => none
  | some (g1, r1) =>
    let (w1, r2) := takeRun pyWs r1
    match r2 with
    | '/' :: r3 =>
      let (w2, r4) := takeRun pyWs r3
      match numGroup r4 with
      | none => none
      | some (g2, r5) =>
        match vTail r5 with
        | none => none
        | some (tl, ttxt) =>
          some (g1.length + w1.length + 1 + w2.length + g2.length + tl,
                g1 ++ w1 ++ '/' :: (w2 ++ g2 ++ ttxt))
    | _ => none

/-- Voltage pattern 2: \d+\.?\d*\s*V\s*(?:DC|AC). -/
def mVolt2 (s : List Char) : Option (Nat × List Char) :=
  match numGroup s with
  | none => none
  | some (g, r) =>
    match vTail r with
    | none => none
    | some (tl, ttxt) => some (g.length + tl, g ++ ttxt)

/-- Voltage pattern 3: \d+\.?\d*\s*(?:VDC|VAC). -/
def mVolt3 (s : List Char) : Option (Nat × List Char) :=
  match numGroup s with
  | none => none
  | some (g, r) =>
    let (w, r2) := takeRun pyWs r
    match r2 with
    | v :: a :: b :: _ =>
      if lowC v = 'v' ∧ (lowC a = 'd' ∨ lowC a = 'a') ∧ lowC b = 'c' then
        some (g.length + w.length + 3, g ++ w ++ [v, a, b])
      else none
    | _ => none

/-- Voltage pattern 4: \d+\.?\d*\s*to\s*\d+\.?\d*\s*V\s*(?:DC|AC). -/
def mVolt4 (s : List Char) : Option (Nat × List Char) :=
  match numGroup s with
  | none => none
  | some (g1, r1) =>
    let (w1, r2) := takeRun pyWs r1
    match r2 with
    | t1 :: o1 :: r3 =>
      if lowC t1 = 't' ∧ lowC o1 = 'o' then
        let (w2, r4) := takeRun pyWs r3
        match numGroup r4 with
        | none => none
        | some (g2, r5) =>
          match vTail r5 with
          | none => none
          | some (tl, ttxt) =>
            some (g1.length + w1.length + 2 + w2.length + g2.length + tl,
                  g1 ++ w1 ++ t1 :: o1 :: (w2 ++ g2 ++ ttxt))
      else none
    | _ => none

/-- Voltage pattern 5: \d+\.?\d*[dash class]\d+\.?\d*\s*V\s*(?:DC|AC),
parameterized by the stored dash character class. -/
def mVolt5 (dashSet : List Char) (s : List Char) : Option (Nat × List Char) :=
  match numGroup s with
  | none => none
  | some (g1, r1) =>
    match r1 with
    | d :: r2 =>
      if dashSet.contains d then
        match numGroup r2 with
        | none => none
        | some (g2, r3) =>
          match vTail r3 with
          | none => none
          | some (tl, ttxt) =>
            some (g1.length + 1 + g2.length + tl, g1 ++ d :: (g2 ++ ttxt))
      else none
    | _ => none

/-- The voltage pattern list for a given dash class. -/
def voltMatchers (dashSet : List Char) : List (List Char → Option (Nat × List Char)) :=
  [mVolt1, mVolt2, mVolt3, mVolt4, mVolt5 dashSet]

/-- Append a standardized voltage match to found_voltages when non-empty,
not zero-padded, and new under case-insensitive comparison. -/
def addVoltage (fv : List (List Char)) (mc : List Char) : List (List Char) :=
  if mc.isEmpty then fv
  else if mc.take 3 = ['0', '0', '0'] then fv
  else if fv.any (fun v => lowL v = lowL mc) then fv
  else fv ++ [mc]

/-- Capture a code from an adjacent cell: stripped, at most 3 characters,
alphanumeric and non-empty. -/
def voltCodeCapture (adj : Option (Option String)) (mc : List Char)
    (codes : List (String × String)) : List (String × String) :=
  match adj with
  | some (some pc) =>
    if pc = "" then codes
    else
      let cd := stripL pc.data
      if cd.length ≤ 3 ∧ 1 ≤ cd.length ∧ cd.all Char.isAlphanum then
        dset codes ⟨uppL cd⟩ ⟨mc⟩
      else codes
  | _ => codes

/-- The per-cell voltage pass: run every pattern, fold each match through
standardize_voltage, the zero-pad filter, the found list, and code capture
from the previous and next cells. -/
def voltCellStep (dashSet : List Char) (prev next : Option (Option String))
    (st : List (List Char) × List (String × String)) (cellText : List Char) :
    List (List Char) × List (String × String) :=
  (voltMatchers dashSet).foldl
    (fun st1 m =>
      (runFind m cellText).foldl
        (fun st2 mt =>
          let mc := (standardize_voltage ⟨stripL mt⟩).data
          if mc.isEmpty then st2
          else if mc.take 3 = ['0', '0', '0'] then st2
          else
            let found := if st2.1.any (fun v => lowL v = lowL mc) then st2.1
              else st2.1 ++ [mc]
            let codes := voltCodeCapture next mc (voltCodeCapture prev mc st2.2)
            (found, codes))
        st1)
    st

/-- Walk one table row for the voltage pass. -/
def voltRowWalk (dashSet : List Char) (row : List (Option String))
    (st : List (List Char) × List (String × String)) :
    List (List Char) × List (String × String) :=
  row.enum.foldl
    (fun st2 ic =>
      match ic.2 with
      | none => st2
      | some s =>
        if s = "" then st2
        else
          voltCellStep dashSet
            (if 1 ≤ ic.1 then row.get? (ic.1 - 1) else none)
            (if ic.1 + 1 < row.length then row.get? (ic.1 + 1) else none)
            st2 s.data)
    st

/-- extract_voltage, parameterized by the dash class of pattern 5. -/
def extract_voltage_core (dashSet : List Char) (text : String) (tables : List Table) :
    Option String :=
  let all := exhaustive_text_search (voltMatchers dashSet) text.data
  let found0 := all.foldl (fun fv mt => addVoltage fv (standardize_voltage ⟨mt⟩).data) []
  let final := tables.foldl
    (fun st tb => tb.foldl (fun st2 row => voltRowWalk dashSet row st2) st)
    (found0, ([] : List (String × String)))
  if !final.2.isEmpty then
    some (clean_and_dedupe_values
      ⟨'\x7b' :: (joinL ['|'] (final.2.map (fun p => p.1.data ++ ':' :: p.2.data)) ++ ['\x7d'])⟩
      "voltage")
  else if !final.1.isEmpty then
    some (clean_and_dedupe_values
      ⟨'\x7b' :: (joinL ['|'] (final.1.take 12) ++ ['\x7d'])⟩ "voltage")
  else none

/-- extract_voltage of extract_data_deterministic.py (genuine en dash). -/
def extract_voltage (text : String) (tables : List Table) : Option String :=
  extract_voltage_core ['-', '–'] text tables

/-! ## The dedup invariant of claim C2 (spec-side reading) -/

/-- The value part of one pipe-separated segment, as the claim reads it: the
part after the code and colon, or the whole segment when there is no code. -/
def segValue (seg : List Char) : List Char :=
  if seg.contains ':' then (splitFirstColon seg).2 else seg

/-- The pipe-separated segments of a rendered field string of the canonical
brace form. -/
def fieldSegments (s : String) : List (List Char) :=
  match s.data with
  | '\x7b' :: t =>
    if t.getLast? = some '\x7d' then splitOnCharL '|' t.dropLast else []
  | _ => []

/-- Claim C2's dedup invariant: no two segments of the rendered string have
value parts that are equal under case-insensitive comparison. -/
def dedupInvariant (s : String) : Prop :=
  List.Pairwise (fun a b => lowL (segValue a) ≠ lowL (segValue b)) (fieldSegments s)

/-- A character that cannot disturb the segment parse of a rendered field
string: not the code separator, not the segment separator, not the closing
brace. -/
def vgoodChar (c : Char) : Prop := c ≠ ':' ∧ c ≠ '|' ∧ c ≠ '\x7d'

/-- A well-shaped candidate segment: non-empty, and either wholly made of
parse-neutral characters, or a non-empty alphanumeric code joined by a colon
to a parse-neutral value. -/
def goodSeg (it : List Char) : Prop :=
  it ≠ [] ∧
  ((∀ c ∈ it, vgoodChar c) ∨
   ∃ cd val, it = cd ++ ':' :: val ∧ cd ≠ [] ∧
     (∀ c ∈ cd, c.isAlphanum = true) ∧ ∀ c ∈ val, vgoodChar c)

/-- The relation tying each cleaned item to its recorded lowered value. -/
def cadvJ (st : List (List Char) × List (List Char)) : Prop :=
  List.Forall₂ (fun seg vl => lowL (segValue seg) = vl ∧ '|' ∉ seg) st.1 st.2

/-- The well-formedness carried through the extract_voltage folds: found
values are non-empty and parse-neutral, captured codes are non-empty
alphanumerics with parse-neutral values. -/
def VInv (st : List (List Char) × List (String × String)) : Prop :=
  (∀ v ∈ st.1, v ≠ [] ∧ ∀ c ∈ v, vgoodChar c) ∧
  (∀ p ∈ st.2, p.1.data ≠ [] ∧ (∀ c ∈ p.1.data, c.isAlphanum = true) ∧
    ∀ c ∈ p.2.data, vgoodChar c)

/-- The shape of the items produced by one clean_and_dedupe_values pass on a
well-formed braced input: non-empty, free of newline, closing brace and pipe,
and either a colon-free strip-stable value or an alphanumeric code joined to
a strip-stable value. -/
def cadvItemShape (it : List Char) : Prop :=
  it ≠ [] ∧ '\n' ∉ it ∧ '\x7d' ∉ it ∧ '|' ∉ it ∧
  ((it.contains ':' = false ∧ stripL it = it) ∨
   ∃ cd v, it = cd ++ ':' :: v ∧ cd ≠ [] ∧ (∀ c ∈ cd, c.isAlphanum = true) ∧ stripL v = v)



/-! ## extract_mounting_hole (extract_python.py lines 333-399; its regex
classes are stored double-encoded on disk, so the diameter class matches the
mojibake characters U+00C3, U+02DC, U+00B8 and the separator class of the
third pattern matches X, x, U+00C3, U+2014 rather than ø/Ø and ×) -/

/-- The diameter class as stored in extract_python.py. -/
def diaClsPy : List Char := ['Ã', '˜', '¸']

/-- The X-separator class of the third mounting pattern as stored in
extract_python.py. -/
def xClsPy : List Char := ['X', 'x', 'Ã', '—']

/-- Mounting pattern 1: [class]\\s*\\d+\\.?\\d*\\s*mm (IGNORECASE). -/
def mMnt1 (cls : List Char) (s : List Char) : Option (Nat × List Char) :=
  match s with
  | c :: t =>
    if cls.contains c then
      let (w1, r1) := takeRun pyWs t
      match numGroup r1 with
      | none => none
      | some (g, r2) =>
        let (w2, r3) := takeRun pyWs r2
        match r3 with
        | a :: b :: _ =>
          if lowC a = 'm' ∧ lowC b = 'm' then
            some (1 + w1.length + g.length + w2.length + 2, c :: (w1 ++ g ++ w2 ++ [a, b]))
          else none
        | _ => none
    else none
  | [] => none

/-- Mounting pattern 2: [class]\\s*\\d+\\.?\\d*. -/
def mMnt2 (cls : List Char) (s : List Char) : Option (Nat × List Char) :=
  match s with
  | c :: t =>
    if cls.contains c then
      let (w1, r1) := takeRun pyWs t
      match numGroup r1 with
      | none => none
      | some (g, _) => some (1 + w1.length + g.length, c :: (w1 ++ g))
    else none
  | [] => none

/-- Literal mm with IGNORECASE. -/
def matchMM (s : List Char) : Option (List Char × List Char) :=
  match s with
  | a :: b :: r => if lowC a = 'm' ∧ lowC b = 'm' then some ([a, b], r) else none
  | _ => none

/-- Mounting pattern 3:
\\d+\\.?\\d*\\s*mm\\s*[sep]\\s*\\d+\\.?\\d*\\s*mm. -/
def mMnt3 (xcls : List Char) (s : List Char) : Option (Nat × List Char) :=
  match numGroup s with
  | none => none
  | some (g1, r1) =>
    let (w1, r2) := takeRun pyWs r1
    match matchMM r2 with
    | none => none
    | some (mm1, r3) =>
      let (w2, r4) := takeRun pyWs r3
      match r4 with
      | x :: r5 =>
        if xcls.contains x then
          let (w3, r6) := takeRun pyWs r5
          match numGroup r6 with
          | none => none
          | some (g2, r7) =>
            let (w4, r8) := takeRun pyWs r7
            match matchMM r8 with
            | none => none
            | some (mm2, _) =>
              some (g1.length + w1.length + 2 + w2.length + 1 + w3.length
                      + g2.length + w4.length + 2,
                    g1 ++ w1 ++ mm1 ++ w2 ++ x :: (w3 ++ g2 ++ w4 ++ mm2))
        else none
      | [] => none

/-- Literal to with IGNORECASE. -/
def matchTO (s : List Char) : Option (List Char × List Char) :=
  match s with
  | a :: b :: r => if lowC a = 't' ∧ lowC b = 'o' then some ([a, b], r) else none
  | _ => none

/-- Mounting pattern 4: \\d+\\.?\\d*\\s*to\\s*\\d+\\.?\\d*\\s*mm. -/
def mMnt4 (s : List Char) : Option (Nat × List Char) :=
  match numGroup s with
  | none => none
  | some (g1, r1) =>
    let (w1, r2) := takeRun pyWs r1
    match matchTO r2 with
    | none => none
    | some (to1, r3) =>
      let (w2, r4) := takeRun pyWs r3
      match numGroup r4 with
      | none => none
      | some (g2, r5) =>
        let (w3, r6) := takeRun pyWs r5
        match matchMM r6 with
        | none => none
        | some (mm1, _) =>
          some (g1.length + w1.length + 2 + w2.length + g2.length + w3.length + 2,
                g1 ++ w1 ++ to1 ++ w2 ++ g2 ++ w3 ++ mm1)

/-- Mounting pattern 5: \\d+\\.?\\d*\\s*to\\s*\\d+\\.?\\d*. -/
def mMnt5 (s : List Char) : Option (Nat × List Char) :=
  match numGroup s with
  | none => none
  | some (g1, r1) =>
    let (w1, r2) := takeRun pyWs r1
    match matchTO r2 with
    | none => none
    | some (to1, r3) =>
      let (w2, r4) := takeRun pyWs r3
      match numGroup r4 with
      | none => none
      | some (g2, _) =>
        some (g1.length + w1.length + 2 + w2.length + g2.length,
              g1 ++ w1 ++ to1 ++ w2 ++ g2)

/-- Mounting pattern 6: panel\\s*cut[- ]?out[:\\s]*([class]?\\s*\\d+\\.?\\d*)
with IGNORECASE; findall reports the capture group. -/
def mMnt6 (cls : List Char) (s : List Char) : Option (Nat × List Char) :=
  match matchCI ['p', 'a', 'n', 'e', 'l'] s with
  | none => none
  | some r1 =>
    let (w1, r2) := takeRun pyWs r1
    match matchCI ['c', 'u', 't'] r2 with
    | none => none
    | some r3 =>
      let step : Option (Nat × List Char) :=
        match r3 with
        | c :: r3' =>
          if c = '-' ∨ c = ' ' then
            match matchCI ['o', 'u', 't'] r3' with
            | some r4 => some (4, r4)
            | none =>
              match matchCI ['o', 'u', 't'] r3 with
              | some r4 => some (3, r4)
              | none => none
          else
            match matchCI ['o', 'u', 't'] r3 with
            | some r4 => some (3, r4)
            | none => none
        | [] => none
      match step with
      | none => none
      | some (k1, r4) =>
        let (w2, r5) := takeRun (fun c => c = ':' || pyWs c) r4
        let split6 : List Char × List Char :=
          match r5 with
          | c :: r5' => if cls.contains c then ([c], r5') else ([], r5)
          | [] => ([], r5)
        let (w3, r7) := takeRun pyWs split6.2
        match numGroup r7 with
        | none => none
        | some (g, _) =>
          some (5 + w1.length + 3 + k1 + w2.length + split6.1.length
                  + w3.length + g.length,
                split6.1 ++ w3 ++ g)

/-- The mounting pattern list of extract_python.py. -/
def mntMatchersPy : List (List Char → Option (Nat × List Char)) :=
  [mMnt1 diaClsPy, mMnt2 diaClsPy, mMnt3 xClsPy, mMnt4, mMnt5, mMnt6 diaClsPy]

/-- First match of (\\d+\\.?\\d*) anywhere in a string (re.search). -/
def firstNum : List Char → Option (List Char)
  | [] => none
  | c :: t =>
    if c.isDigit then (numGroup (c :: t)).map (fun p => p.1)
    else firstNum t

/-- Numeric value of a digit run. -/
def digitsToNat (ds : List Char) : Nat :=
  ds.foldl (fun n c => n * 10 + (c.toNat - 48)) 0

/-- Decide lo <= float(g) <= hi for a \\d+\\.?\\d* group (exact rational
comparison; float rounding cannot flip these bands on the short decimals
the program meets). -/
def numBand (lo hi : Nat) (g : List Char) : Bool :=
  let ip := digitsToNat (g.takeWhile Char.isDigit)
  let frac := (g.dropWhile Char.isDigit).drop 1
  lo ≤ ip ∧ (ip < hi ∨ (ip = hi ∧ frac.all (fun c => c = '0')))

/-- Python str.replace of the two-character needle mm by the empty string:
non-overlapping, left to right (values are lowercased first, so only the
lowercase form occurs). -/
def removeMM : Nat → List Char → List Char
  | 0, s => s
  | _ + 1, [] => []
  | fuel + 1, c :: t =>
    if c = 'm' then
      match t with
      | 'm' :: t2 => removeMM fuel t2
      | _ => c :: removeMM fuel t
    else c :: removeMM fuel t

/-- The dedup key of add_value: lowercase, remove class characters and
whitespace, then remove every mm. -/
def mountNorm (cls : List Char) (val : List Char) : List Char :=
  let base := (lowL val).filter (fun c => !(cls.contains c || pyWs c))
  removeMM (base.length + 1) base

/-- add_value: record a discovered dimension when its key is new. State is
(found_values, seen_normalized). -/
def mountAdd (cls : List Char) (st : List (List Char) × List (List Char))
    (val : List Char) : List (List Char) × List (List Char) :=
  let norm := mountNorm cls val
  if norm.isEmpty then st
  else if st.2.contains norm then st
  else (st.1 ++ [val], st.2 ++ [norm])

/-- The mounting keyword list. -/
def mountingKeywords : List String :=
  ["panel cut-out", "panel cutout", "panel cut out",
   "mounting hole", "mounting", "cut-out", "cutout",
   "panel hole", "hole diameter", "hole size"]

/-- One text-pass step of extract_mounting_hole over the matches of one
pattern. -/
def mountTextFold (cls : List Char) (st : List (List Char) × List (List Char))
    (ms : List (List Char)) : List (List Char) × List (List Char) :=
  ms.foldl
    (fun st2 mt =>
      match firstNum mt with
      | none => st2
      | some g => if numBand 5 50 g then mountAdd cls st2 mt else st2)
    st

/-- One table-cell step: matches pass when the row has a mounting keyword or
the number lies in the 8-35 band. -/
def mountCellFold (cls : List Char) (hasKw : Bool)
    (st : List (List Char) × List (List Char)) (ms : List (List Char)) :
    List (List Char) × List (List Char) :=
  ms.foldl
    (fun st2 mt =>
      match firstNum mt with
      | none => st2
      | some g => if hasKw || numBand 8 35 g then mountAdd cls st2 mt else st2)
    st

/-- The lowercased, space-joined text of one row. -/
def rowTextOf (row : List (Option String)) : List Char :=
  joinL [' '] (row.map (fun c =>
    match c with
    | some s => if s = "" then [] else lowL s.data
    | none => []))

/-- clean_mounting_hole over a given diameter class. -/
def clean_mounting_hole_core (cls : List Char) (value : String) : String :=
  if value = "" then value
  else if value = "N/A" then value
  else
    let parts := splitOnCharL '|' value.data
    let cleaned := parts.foldl
      (fun (st : List (List Char) × List (List Char)) part =>
        let cp := (clean_dimension_core cls ⟨stripL part⟩).data
        if cp.isEmpty then st
        else if st.2.contains (lowL cp) then st
        else (st.1 ++ [cp], st.2 ++ [lowL cp]))
      ([], [])
    match cleaned.1 with
    | [] => "N/A"
    | parts' => ⟨joinL ['|'] parts'⟩

/-- extract_python.extract_mounting_hole. -/
def extract_mounting_hole (text : String) (tables : List Table) : String :=
  let st1 := mntMatchersPy.foldl
    (fun st m => mountTextFold diaClsPy st (runFind m text.data)) ([], [])
  let st2 := tables.foldl
    (fun st tb => tb.foldl
      (fun st2 row =>
        let hasKw := mountingKeywords.any (fun kw => containsSubL (rowTextOf row) kw.data)
        row.foldl
          (fun st3 cell =>
            match cell with
            | none => st3
            | some s =>
              if s = "" then st3
              else mntMatchersPy.foldl
                (fun st4 m => mountCellFold diaClsPy hasKw st4 (runFind m s.data)) st3)
          st2)
      st)
    st1
  match st2.1 with
  | [] => "N/A"
  | found => clean_mounting_hole_core diaClsPy ⟨joinL ['|'] (found.take 8)⟩

/-! ## analyze_extraction_confidence (extract_python.py lines 1205-1305) -/

/-- One field's validation entry: confidence level, status icon (the
mojibake emoji exactly as stored in the source), reason, source and page. -/
structure FieldConf where
  confidence : String
  icon : String
  reason : String
  source : Option String
  page : Option Nat
deriving DecidableEq

/-- Python str(value) on a None-or-string value. -/
def pyStrv (v : Option String) : String :=
  match v with
  | some s => s
  | none => "None"

/-- The search terms find_value_page derives from a field value. -/
def fvpTerms (value : Option String) : List (List Char) :=
  let s := pyStrv value
  if s.data.contains '\x7b' then
    let clean := (s.data.filter (fun c => !(c = '\x7b' || c = '\x7d'))).map
      (fun c => if c = '\n' then ' ' else c)
    ((splitOnCharL '|' clean).take 2).map (fun p =>
      if p.contains ':' then stripL ((splitOnCharL ':' p).getLastD [])
      else stripL p)
  else [s.data]

/-- The page walk of find_value_page: first page (1-based) containing any
search term, case-insensitively. -/
def fvpScan (terms : List (List Char)) : Nat → List String → Option Nat
  | _, [] => none
  | i, p :: rest =>
    if terms.any (fun t => containsSubL (lowL p.data) (lowL t)) then some i
    else fvpScan terms (i + 1) rest

/-- extract_python.find_value_page. -/
def find_value_page (value : Option String) (pages_text : List String) : Option Nat :=
  if pages_text.isEmpty || !(pyTruthy value) then none
  else fvpScan (fvpTerms value) 1 pages_text

/-- The validation entry analyze_extraction_confidence assigns to one
field (branch order as in the source: the N/A test precedes the SERIES
test). -/
def analyze_field_conf (field : String) (value : Option String)
    (pages_text : Option (List String)) : FieldConf :=
  if value = some "N/A" then
    ⟨"low", "\u00F0\u0178\u201D\u00B4", "Value not found in PDF", none, none⟩
  else if field = "SERIES" then
    ⟨"high", "\u00F0\u0178\u0178\u00A2", "Extracted from filename", some "Filename", none⟩
  else
    let s := pyStrv value
    let pg : Option Nat :=
      match pages_text with
      | some ps => if ps.isEmpty then none else find_value_page value ps
      | none => none
    if s.data.contains '\x7b' && s.data.contains ':' then
      if (if s.data.contains '|' then s.data.count '|' + 1 else 1) ≥ 2 then
        ⟨"high", "\u00F0\u0178\u0178\u00A2",
          "Found " ++ toString (if s.data.contains '|' then s.data.count '|' + 1 else 1)
            ++ " options with code format",
          some "Table/Ordering Info", pg⟩
      else
        ⟨"medium", "\u00F0\u0178\u0178\u00A1", "Single option found", some "Table/Text", pg⟩
    else if s.data.contains '\x7b' then
      ⟨"medium", "\u00F0\u0178\u0178\u00A1", "Value found but no code mapping",
        some "Text search", pg⟩
    else
      ⟨"medium", "\u00F0\u0178\u0178\u00A1", "Basic value extracted", some "Text", none⟩

/-- extract_python.analyze_extraction_confidence: walk the record in
insertion order, skip underscore-prefixed metadata fields, and assign
each remaining field its validation entry. -/
def analyze_extraction_confidence (result : List (String × Option String))
    (pages_text : Option (List String)) : List (String × FieldConf) :=
  result.foldl
    (fun acc fv =>
      if ['_'].isPrefixOf fv.1.data then acc
      else dset acc fv.1 (analyze_field_conf fv.1 fv.2 pages_text))
    []


/-! ## extract_led_color (extract_python.py lines 516-626) and its helpers -/

/-- The acronym list UPPERCASE_ACRONYMS. -/
def UPPERCASE_ACRONYMS : List String := ["LED", "RGB", "SMD", "PCB", "AC", "DC", "IP"]

/-- The LED_COLOR_CODES mapping, in source order. -/
def LED_COLOR_CODES : List (String × String) :=
  [("red", "R"), ("green", "G"), ("blue", "B"), ("white", "W"), ("amber", "A"),
   ("yellow", "Y"), ("orange", "O"), ("clear", "C"), ("warm white", "WW"),
   ("cool white", "CW"), ("pink", "P"), ("purple", "PR"), ("bi-color", "BC"),
   ("rgb", "RGB"), ("multicolor", "MC")]

/-- extract_python.proper_capitalize: acronyms go fully upper, anything else
gets str.capitalize (first char upper, rest lower). -/
def proper_capitalize (value : String) : String :=
  if value = "" then value
  else if UPPERCASE_ACRONYMS.contains (pyUpper value) then pyUpper value
  else
    match value.data with
    | [] => value
    | c :: t => ⟨uppC c :: lowL t⟩

/-- extract_python.get_color_code: the standard code, else the uppercased
first letter, else "X". -/
def get_color_code (color_name : String) : String :=
  match dfind LED_COLOR_CODES (pyStrip (pyLower color_name)) with
  | some code => code
  | none =>
    match color_name.data with
    | [] => "X"
    | c :: _ => ⟨[uppC c]⟩

/-- extract_python.format_led_colors_with_codes: discovered codes first,
then auto-coded colors, deduplicated case-insensitively on the color. -/
def format_led_colors_with_codes (colors_dict : List (String × String))
    (colors_list : List String) : String :=
  if colors_dict.isEmpty && colors_list.isEmpty then "N/A"
  else
    let st := colors_dict.foldl
      (fun (acc : List (List Char) × List String) kv =>
        (acc.1 ++ [kv.1.data ++ ':' :: kv.2.data], acc.2 ++ [pyLower kv.2]))
      ([], [])
    let st2 := colors_list.foldl
      (fun (acc : List (List Char) × List String) c =>
        if acc.2.contains (pyLower c) then acc
        else (acc.1 ++ [(get_color_code c).data ++ ':' :: c.data], acc.2 ++ [pyLower c]))
      st
    if st2.1.isEmpty then "N/A"
    else ⟨'\x7b' :: (joinL ['|'] st2.1 ++ ['\x7d'])⟩

/-- Atoms of the strict LED-context regexes: literal text, a word boundary,
one-or-more runs of whitespace, of a character class or of word characters,
and the dotall-free lazy gap .*? (which never crosses a newline). -/
inductive PatAtom where
  | lit (l : List Char)
  | bnd
  | wsPlus
  | clsPlus (cls : List Char)
  | wordPlus
  | anyLazy
deriving DecidableEq

/-- Word boundary between an optional previous character and the input. -/
def bndOk (prev : Option Char) (s : List Char) : Bool :=
  (match prev with | some c => isWordC c | none => false) !=
  (match s with | c :: _ => isWordC c | [] => false)

/-- The previous-character tracker after consuming a chunk. -/
def lastOr (l : List Char) (prev : Option Char) : Option Char :=
  match l.getLast? with
  | some c => some c
  | none => prev

/-- Anchored match of an atom list. The one-or-more runs are consumed
greedily, which is faithful here because in every pattern below the atom
after a run starts with a character the run rejects; the lazy gap tries
every stop position, which is exactly existence of a match. -/
def matchAtoms : Nat → List PatAtom → Option Char → List Char → Bool
  | 0, _, _, _ => false
  | _ + 1, [], _, _ => true
  | fuel + 1, a :: ps, prev, s =>
    match a with
    | .lit l =>
      if l.isPrefixOf s then matchAtoms fuel ps (lastOr l prev) (s.drop l.length)
      else false
    | .bnd => bndOk prev s && matchAtoms fuel ps prev s
    | .wsPlus =>
      let (r, rest) := takeRun pyWs s
      if r.isEmpty then false else matchAtoms fuel ps (lastOr r prev) rest
    | .clsPlus cls =>
      let (r, rest) := takeRun (fun c => cls.contains c) s
      if r.isEmpty then false else matchAtoms fuel ps (lastOr r prev) rest
    | .wordPlus =>
      let (r, rest) := takeRun isWordC s
      if r.isEmpty then false else matchAtoms fuel ps (lastOr r prev) rest
    | .anyLazy =>
      matchAtoms fuel ps prev s ||
        (match s with
         | [] => false
         | c :: t => if c = '\n' then false else matchAtoms fuel (.anyLazy :: ps) (some c) t)

/-- re.search of an atom list: anchored match attempted at every suffix. -/
def searchAtoms (p : List PatAtom) : Option Char → List Char → Bool
  | prev, [] => matchAtoms (2 * (p.length + 2)) p prev []
  | prev, c :: t =>
    matchAtoms (2 * (t.length + 2) * (p.length + 2)) p prev (c :: t) ||
      searchAtoms p (some c) t

/-- The whitespace characters of Python \s on str. -/
def pyWsChars : List Char := [' ', '\t', '\n', '\x0b', '\x0c', '\r']

/-- The color list of extract_led_color, in source order. -/
def ledColors : List String :=
  ["red", "green", "amber", "yellow", "white", "blue", "orange",
   "warm white", "cool white", "pink", "purple", "bi-color", "rgb", "multicolor"]

/-- The LED-context keyword list for tables. -/
def tableCtxKeywords : List String :=
  ["led", "color", "colour", "lamp", "lens", "indicator",
   "cap", "light", "backlight", "illumination"]

/-- The eleven strict text patterns for one color, in source order. -/
def ledTextPats (c : List Char) : List (List PatAtom) :=
  [[.bnd, .lit c, .wsPlus, .lit "led".data, .bnd],
   [.bnd, .lit "led".data, .wsPlus, .lit c, .bnd],
   [.bnd, .lit "backlight".data, .wsPlus, .lit c, .bnd],
   [.bnd, .lit c, .wsPlus, .lit "backlight".data, .bnd],
   [.bnd, .lit c, .wsPlus, .lit "indicator".data, .bnd],
   [.bnd, .lit c, .wsPlus, .lit "lamp".data, .bnd],
   [.bnd, .lit c, .wsPlus, .lit "lens".data, .bnd],
   [.bnd, .lit "illuminat".data, .wordPlus, .anyLazy, .bnd, .lit c, .bnd],
   [.bnd, .lit "color".data, .clsPlus (':' :: pyWsChars), .lit c, .bnd],
   [.bnd, .lit c, .wsPlus, .lit "cap".data, .bnd],
   [.lit "colored".data, .wsPlus, .lit "cap".data, .anyLazy, .lit c]]

/-- Does any strict pattern for this color match the lowercased text? -/
def ledTextMatch (c : List Char) (tl : List Char) : Bool :=
  (ledTextPats c).any (fun p => searchAtoms p none tl)

/-- extract_led_color.is_valid_color_code applied to the upper-cased cell:
after dropping * and -, one or two characters, all alphabetic (ASCII
convention for str.isalpha, as everywhere in this embedding) and all upper. -/
def is_valid_color_code (s : List Char) : Bool :=
  let clean := s.filter (fun c => !(c = '*' || c = '-'))
  decide (1 ≤ clean.length) && decide (clean.length ≤ 2) &&
    clean.all (fun c => c.isAlpha) && clean.all (fun c => c.isUpper)

/-- A neighbour cell as a code candidate: present, truthy, stripped and
upper-cased, and accepted by the code validator. -/
def ledNeighborCode (cell : Option String) : Option String :=
  match cell with
  | some p =>
    if p = "" then none
    else
      if is_valid_color_code (pyUpper (pyStrip p)).data then some (pyUpper (pyStrip p))
      else none
  | none => none

/-- One cell of the LED table phase: try every color against the cell text,
take a code from the previous or next truthy cell, and record the color when
a code exists or the table or row has LED context. State is
(found_codes, found_colors). -/
def ledCellColors (tblCtx rowCtx : Bool) (prev : Option String) (cell : String)
    (next : Option String) (st : List (String × String) × List String) :
    List (String × String) × List String :=
  ledColors.foldl
    (fun st2 color =>
      if pyLower (pyStrip cell) = pyLower color ||
         pyLower (pyStrip cell) = ⟨(pyLower color).data.filter (fun c => c ≠ ' ')⟩ ||
         (containsSubL (pyLower (pyStrip cell)).data (pyLower color).data &&
           decide ((pyLower (pyStrip cell)).data.length ≤ (pyLower color).data.length + 5)) then
        match (match ledNeighborCode prev with
               | some c => some c
               | none => ledNeighborCode next) with
        | some code =>
          (dset st2.1 code (proper_capitalize color),
           if st2.2.contains (proper_capitalize color) then st2.2
           else st2.2 ++ [proper_capitalize color])
        | none =>
          if tblCtx || rowCtx then
            (st2.1,
             if st2.2.contains (proper_capitalize color) then st2.2
             else st2.2 ++ [proper_capitalize color])
          else st2
      else st2)
    st

/-- Walk one row with the previous cell tracked. -/
def ledCells (tblCtx rowCtx : Bool) :
    Option String → List (Option String) →
    List (String × String) × List String → List (String × String) × List String
  | _, [], st => st
  | prev, cell :: rest, st =>
    let st2 := match cell with
      | none => st
      | some s =>
        if s = "" then st
        else ledCellColors tblCtx rowCtx prev s
          (match rest.head? with
           | some (some n) => if n = "" then none else some n
           | _ => none) st
    ledCells tblCtx rowCtx (match cell with
      | some s => if s = "" then none else some s
      | none => none) rest st2

/-- Table phase of extract_led_color. -/
def ledTablePhase (tables : List Table) : List (String × String) × List String :=
  tables.foldl
    (fun st tb =>
      match tb with
      | [] => st
      | h :: _ =>
        let tblCtx := tableCtxKeywords.any (fun kw => containsSubL (rowTextOf h) kw.data)
        tb.foldl
          (fun st2 row =>
            if row.length < 2 then st2
            else
              let rowCtx := tableCtxKeywords.any (fun kw => containsSubL (rowTextOf row) kw.data)
              ledCells tblCtx rowCtx none row st2)
          st)
    ([], [])

/-- Greedy matcher for the keyword head of one ordering-info pattern:
each word matched case-insensitively, consecutive words separated by a
whitespace run. -/
def ordKeyHead : List (List Char) → List Char → Option (List Char)
  | [], s => some s
  | [w], s => matchCI w s
  | w :: w2 :: ws, s =>
    match matchCI w s with
    | none => none
    | some r =>
      let (run, r2) := takeRun pyWs r
      if run.isEmpty then none else ordKeyHead (w2 :: ws) r2

/-- The captured group of one ordering-info match: everything up to the
first blank line (the lookahead (?=\n\n|\Z) of the DOTALL lazy group). -/
def ordGroup : List Char → List Char × List Char
  | [] => ([], [])
  | c :: t =>
    if c = '\n' ∧ t.head? = some '\n' then ([], c :: t)
    else
      let (g, r) := ordGroup t
      (c :: g, r)

/-- findall scan for one ordering-info pattern. -/
def ordScan (ws : List (List Char)) : Nat → List Char → List (List Char)
  | 0, _ => []
  | _ + 1, [] => []
  | fuel + 1, c :: t =>
    match ordKeyHead ws (c :: t) with
    | some r =>
      let r2 := (takeRun (fun c => c = ':' || pyWs c) r).2
      let (g, rest) := ordGroup r2
      g :: ordScan ws fuel rest
    | none => ordScan ws fuel t

/-- extract_python.search_ordering_info: concatenate " " and the group for
every match of the four section patterns (the tables argument is unused in
the source as well). -/
def search_ordering_info (text : String) (tables : List Table) : String :=
  ⟨[["ordering".data, "information".data],
    ["part".data, "number".data],
    ["model".data, "number".data],
    ["how".data, "to".data, "order".data]].foldl
    (fun acc ws =>
      (ordScan ws (text.data.length + 1) text.data).foldl
        (fun acc2 g => acc2 ++ ' ' :: g) acc)
    []⟩

/-- extract_python.extract_led_color: table phase, strict text patterns,
ordering-information pass, then always-coded formatting. -/
def extract_led_color (text : String) (tables : List Table) : String :=
  let st1 := ledTablePhase tables
  let tl := lowL text.data
  let fc2 := ledColors.foldl
    (fun fc color =>
      if ledTextMatch color.data tl then
        (if fc.contains (proper_capitalize color) then fc
         else fc ++ [proper_capitalize color])
      else fc)
    st1.2
  let ot := lowL (search_ordering_info text tables).data
  let fc3 :=
    if ot.isEmpty then fc2
    else ledColors.foldl
      (fun fc color =>
        if searchAtoms [.bnd, .lit color.data, .bnd] none ot then
          (if fc.contains (proper_capitalize color) then fc
           else fc ++ [proper_capitalize color])
        else fc)
      fc2
  format_led_colors_with_codes st1.1 fc3


/-! ## extract_data_deterministic.extract_from_buffer (lines 699-744) and the
extractors it calls that are not already modelled above. proper_capitalize,
get_color_code, UPPERCASE_ACRONYMS and LED_COLOR_CODES are byte-identical in
the two source files and are shared. -/

/-- pathlib.Path(filename).stem: the final path component without its last
suffix (a leading dot alone is not a suffix). -/
def pathStem (filename : String) : String :=
  let nm := (splitOnCharL '/' filename.data).getLastD []
  match lastIdxOf '.' nm with
  | some i => if i = 0 then ⟨nm⟩ else ⟨nm.take i⟩
  | none => ⟨nm⟩

/-- extract_series_from_filename: the leading alphanumeric run of the stem,
uppercased; else the first whitespace-separated word (an IndexError when the
stem is non-empty but all whitespace); else "N/A" for an empty stem. -/
def extract_series_from_filename (filename : String) : Except PyErr String :=
  let basename := pathStem filename
  match takeRun Char.isAlphanum basename.data with
  | ([], _) =>
    if basename = "" then .ok "N/A"
    else
      match splitWsL basename.data with
      | [] => .error .indexError
      | w :: _ => .ok (pyUpper ⟨w⟩)
  | (run, _) => .ok (pyUpper ⟨run⟩)

/-- The genuine diameter class [Øø] of extract_data_deterministic.py. -/
def diaClsDet : List Char := ['Ø', 'ø']

/-- The genuine separator class [Xx×]. -/
def xClsDet : List Char := ['X', 'x', '×']

/-- The mounting pattern list of extract_data_deterministic.py. -/
def mntMatchersDet : List (List Char → Option (Nat × List Char)) :=
  [mMnt1 diaClsDet, mMnt2 diaClsDet, mMnt3 xClsDet, mMnt4, mMnt5, mMnt6 diaClsDet]

/-- extract_data_deterministic.extract_mounting_hole: as the python variant
but with the genuine character classes, and returning None instead of "N/A"
when nothing is found. -/
def extract_mounting_hole_det (text : String) (tables : List Table) : Option String :=
  let st1 := mntMatchersDet.foldl
    (fun st m => mountTextFold diaClsDet st (runFind m text.data)) ([], [])
  let st2 := tables.foldl
    (fun st tb => tb.foldl
      (fun st2 row =>
        let hasKw := mountingKeywords.any (fun kw => containsSubL (rowTextOf row) kw.data)
        row.foldl
          (fun st3 cell =>
            match cell with
            | none => st3
            | some s =>
              if s = "" then st3
              else mntMatchersDet.foldl
                (fun st4 m => mountCellFold diaClsDet hasKw st4 (runFind m s.data)) st3)
          st2)
      st)
    st1
  match st2.1 with
  | [] => none
  | found => some (clean_mounting_hole_core diaClsDet ⟨joinL ['|'] (found.take 8)⟩)

/-- The six strict text patterns of the deterministic extract_led_color. -/
def ledTextPatsDet (c : List Char) : List (List PatAtom) :=
  [[.bnd, .lit c, .wsPlus, .lit "led".data, .bnd],
   [.bnd, .lit "led".data, .wsPlus, .lit c, .bnd],
   [.bnd, .lit c, .wsPlus, .lit "indicator".data, .bnd],
   [.bnd, .lit c, .wsPlus, .lit "lamp".data, .bnd],
   [.bnd, .lit c, .wsPlus, .lit "lens".data, .bnd],
   [.bnd, .lit "color".data, .clsPlus (':' :: pyWsChars), .lit c, .bnd]]

/-- extract_data_deterministic.extract_led_color: the same table phase as the
python variant (the loops are byte-identical), six strict text patterns, no
ordering pass, and None instead of "N/A". -/
def extract_led_color_det (text : String) (tables : List Table) : Option String :=
  let st1 := ledTablePhase tables
  let fc2 := ledColors.foldl
    (fun fc color =>
      if (ledTextPatsDet color.data).any (fun p => searchAtoms p none (lowL text.data)) then
        (if fc.contains (proper_capitalize color) then fc
         else fc ++ [proper_capitalize color])
      else fc)
    st1.2
  if st1.1.isEmpty && fc2.isEmpty then none
  else
    let st := st1.1.foldl
      (fun (acc : List (List Char) × List String) kv =>
        (acc.1 ++ [kv.1.data ++ ':' :: kv.2.data], acc.2 ++ [pyLower kv.2]))
      ([], [])
    let st2 := fc2.foldl
      (fun (acc : List (List Char) × List String) c =>
        if acc.2.contains (pyLower c) then acc
        else (acc.1 ++ [(get_color_code c).data ++ ':' :: c.data], acc.2 ++ [pyLower c]))
      st
    if st2.1.isEmpty then none
    else some ⟨'\x7b' :: (joinL ['|'] st2.1 ++ ['\x7d'])⟩

/-- The neighbour-code test of exhaustive_table_search: at most three
characters and, once * is removed, non-empty and all alphabetic. -/
def ets_code_ok (s : String) : Bool :=
  decide (s.data.length ≤ 3) &&
    (let cl := s.data.filter (fun c => c ≠ '*')
     !cl.isEmpty && cl.all (fun c => c.isAlpha))

/-- One row walk of exhaustive_table_search for one value already known to
occur in the row text: every truthy cell containing the value contributes
the codes of its truthy neighbours and the capitalized value. -/
def etsCellWalk (findCodes : Bool) (vLow : List Char) (capV : String) :
    Option String → List (Option String) →
    List (String × String) × List String → List (String × String) × List String
  | _, [], st => st
  | prev, cell :: rest, st =>
    let st2 := match cell with
      | none => st
      | some s =>
        if s = "" then st
        else if containsSubL (lowL (pyStrip s).data) vLow then
          let stA := if findCodes then
            match prev with
            | some p =>
              if p ≠ "" ∧ ets_code_ok (pyStrip p) then
                (dset st.1 (pyUpper (pyStrip p)) capV, st.2)
              else st
            | none => st
          else st
          let stB := if findCodes then
            match rest.head? with
            | some (some n) =>
              if n ≠ "" ∧ ets_code_ok (pyStrip n) then
                (dset stA.1 (pyUpper (pyStrip n)) capV, stA.2)
              else stA
            | _ => stA
          else stA
          (stB.1, if stB.2.contains capV then stB.2 else stB.2 ++ [capV])
        else st
    etsCellWalk findCodes vLow capV
      (match cell with
       | some s => if s = "" then none else some s
       | none => none) rest st2

/-- extract_data_deterministic.exhaustive_table_search. -/
def exhaustive_table_search (tables : List Table) (value_list : List String)
    (findCodes : Bool) : List (String × String) × List String :=
  tables.foldl
    (fun st tb => tb.foldl
      (fun st2 row =>
        if row.isEmpty then st2
        else value_list.foldl
          (fun st3 v =>
            if containsSubL (rowTextOf row) (pyLower v).data then
              etsCellWalk findCodes (pyLower v).data (proper_capitalize v) none row st3
            else st3)
          st2)
      st)
    ([], [])

/-- extract_data_deterministic.format_with_codes with its default arguments
(always_code=False, code_generator=None), the form all four callers use:
coded items first, then bare values, deduplicated case-insensitively. -/
def format_with_codes (codes : List (String × String)) (values : List String) : String :=
  if codes.isEmpty && values.isEmpty then "N/A"
  else
    let st := codes.foldl
      (fun (acc : List (List Char) × List String) kv =>
        (acc.1 ++ [kv.1.data ++ ':' :: kv.2.data], acc.2 ++ [pyLower kv.2]))
      ([], [])
    let st2 := values.foldl
      (fun (acc : List (List Char) × List String) v =>
        if acc.2.contains (pyLower v) then acc
        else (acc.1 ++ [v.data], acc.2 ++ [pyLower v]))
      st
    if st2.1.isEmpty then "N/A"
    else ⟨'\x7b' :: (joinL ['|'] st2.1 ++ ['\x7d'])⟩

def illumTypes : List String :=
  ["LED", "Neon", "Incandescent", "Halogen", "Lamp", "Fluorescent", "Filament"]

def bezelStyles : List String :=
  ["Dome", "Flat", "Round", "Square", "Rectangular", "Flush",
   "Projected", "Extended", "Raised", "Recessed", "Convex", "Mushroom"]

def terminalTypes : List String :=
  ["Solder", "Screw", "Quick-connect", "Quick Connect",
   "Spring", "Crimp", "Wire", "Tab", "PCB", "Through-hole",
   "SMD", "Plug-in", "Faston", "Blade", "Pin"]

def bezelFinishes : List String :=
  ["Chrome", "Plastic", "Metal", "Aluminum", "Stainless",
   "Nickel", "Black", "Silver", "Brass", "Zinc", "Painted",
   "Anodized", "Polished", "Satin", "Matte"]

def extract_illumination_type (text : String) (tables : List Table) : String :=
  let fcv := exhaustive_table_search tables illumTypes true
  let fv2 := illumTypes.foldl
    (fun fv t =>
      if containsSubL (uppL text.data) (pyUpper t).data then
        (if fv.contains t then fv else fv ++ [t])
      else fv)
    fcv.2
  format_with_codes fcv.1 fv2

def extract_bezel_style (text : String) (tables : List Table) : String :=
  let fcv := exhaustive_table_search tables bezelStyles true
  let fv2 := bezelStyles.foldl
    (fun fv t =>
      if containsSubL (lowL text.data) (pyLower t).data then
        (if fv.contains t then fv else fv ++ [t])
      else fv)
    fcv.2
  format_with_codes fcv.1 fv2

/-- extract_terminals; the text pass normalizes the one value containing
"Quick Connect" to "Quick-connect" (str.replace on these literals). -/
def extract_terminals (text : String) (tables : List Table) : String :=
  let fcv := exhaustive_table_search tables terminalTypes true
  let fv2 := terminalTypes.foldl
    (fun fv t =>
      if containsSubL (lowL text.data) (pyLower t).data then
        (if fv.contains (if t = "Quick Connect" then "Quick-connect" else t) then fv
         else fv ++ [if t = "Quick Connect" then "Quick-connect" else t])
      else fv)
    fcv.2
  format_with_codes fcv.1 fv2

def extract_bezel_finish (text : String) (tables : List Table) : String :=
  let fcv := exhaustive_table_search tables bezelFinishes true
  let fv2 := bezelFinishes.foldl
    (fun fv t =>
      if containsSubL (lowL text.data) (pyLower t).data then
        (if fv.contains t then fv else fv ++ [t])
      else fv)
    fcv.2
  format_with_codes fcv.1 fv2

/-- extract_data_deterministic.extract_from_buffer. The parsed document is
the aggregated (all_text, all_tables) pair, or none when pdfplumber raises
on the buffer; an IndexError from extract_series_from_filename is likewise
caught by the bare except and leaves specs empty. The result pair is the
returned record: the 'specs' dict and the 'model_codes' list. -/
def extract_from_buffer (doc : Option (String × List Table)) (filename : String) :
    List (String × Option String) × List String :=
  match extract_series_from_filename filename with
  | .error _ => ([], [])
  | .ok series =>
    match doc with
    | none => ([("SERIES", some series)], [])
    | some td =>
      let specs := [("SERIES", some series)]
      let specs := dset specs "MOUNTING HOLE" (extract_mounting_hole_det td.1 td.2)
      let specs := dset specs "VOLTAGE" (extract_voltage td.1 td.2)
      let specs := dset specs "SEALING" (extract_sealing td.1 td.2)
      let specs := dset specs "LED COLOR" (extract_led_color_det td.1 td.2)
      let specs := dset specs "TYPE OF ILLUMINATION" (some (extract_illumination_type td.1 td.2))
      let specs := dset specs "BEZEL STYLE" (some (extract_bezel_style td.1 td.2))
      let specs := dset specs "TERMINALS" (some (extract_terminals td.1 td.2))
      let specs := dset specs "BEZEL FINISH" (some (extract_bezel_finish td.1 td.2))
      (specs, extract_model_codes td.1 td.2 series)


/-! ## Automata and invariants for the standardize_voltage idempotence proof -/

/-- States of the failure automaton for the voltage-number pattern
(\d+\.?\d*)\s*V<x>C, read at a position whose leading digit run has
already been consumed: s1 = inside the first digit run, s2 = after the
dot, s4 = inside the whitespace run, s6 = after the v, s7 = after the v
and the x letter. -/
inductive NPh where
  | s1
  | s2
  | s4
  | s6
  | s7
deriving DecidableEq

/-- npFail x sig t says that the tail t admits no completion of the mNum
x pattern from automaton state sig. -/
def npFail (x : Char) : NPh → List Char → Bool
  | _, [] => true
  | .s1, c :: t =>
    if c.isDigit then npFail x .s1 t
    else if c = '.' then npFail x .s2 t
    else if pyWs c then npFail x .s4 t
    else if lowC c = 'v' then npFail x .s6 t
    else true
  | .s2, c :: t =>
    if c.isDigit then npFail x .s2 t
    else if pyWs c then npFail x .s4 t
    else if lowC c = 'v' then npFail x .s6 t
    else true
  | .s4, c :: t =>
    if pyWs c then npFail x .s4 t
    else if lowC c = 'v' then npFail x .s6 t
    else true
  | .s6, c :: t => if lowC c = lowC x then npFail x .s7 t else true
  | .s7, c :: t => if lowC c = 'c' then false else true

/-- States of the bad-match automaton for the V\s+xC pattern after the V:
wE = no whitespace seen yet, wS = the whitespace so far is one space,
wB = the whitespace so far already differs from one space, bB = the x
letter was read after bad whitespace. -/
inductive VSt where
  | wE
  | wS
  | wB
  | bB
deriving DecidableEq

/-- vB x sig t says that the tail t admits no completion of an mVws x
match whose whitespace run differs from a single space. -/
def vB (x : Char) : VSt → List Char → Bool
  | _, [] => true
  | .wE, c :: t => if pyWs c then (if c = ' ' then vB x .wS t else vB x .wB t) else true
  | .wS, c :: t => if pyWs c then vB x .wB t else true
  | .wB, c :: t => if pyWs c then vB x .wB t else if c = x then vB x .bB t else true
  | .bB, c :: t => if c = 'C' then false else true

/-- States of the failure automaton for the (\d+)\s*/\s*(\d+) pattern:
sA = inside the first digit run, sB = after it and before the slash,
sC = after the slash. -/
inductive SSt where
  | sA
  | sB
  | sC
deriving DecidableEq

/-- slFail sig t says that the tail t admits no completion of an mSlash
match from automaton state sig. -/
def slFail : SSt → List Char → Bool
  | _, [] => true
  | .sA, c :: t =>
    if c.isDigit then slFail .sA t
    else if pyWs c then slFail .sB t
    else if c = '/' then slFail .sC t
    else true
  | .sB, c :: t =>
    if pyWs c then slFail .sB t
    else if c = '/' then slFail .sC t
    else true
  | .sC, c :: t =>
    if pyWs c then slFail .sC t
    else if c.isDigit then false
    else true

/-- The whole-suffix no-match invariant for the voltage-number pattern. -/
def NoNum (x : Char) (l : List Char) : Prop :=
  ∀ u, u <:+ l → mNum x u = none

/-- The all-matches-are-identities invariant for the V whitespace
pattern. -/
def NoBadV (x : Char) (l : List Char) : Prop :=
  ∀ u k rep, u <:+ l → mVws x u = some (k, rep) → rep = List.take k u

/-- The residual window check of mNum after the number group: a
whitespace run followed by v, x, c up to case. -/
def winOK (x : Char) (r : List Char) : Bool :=
  match (takeRun pyWs r).2 with
  | a :: b :: c2 :: _ => lowC a = 'v' && lowC b = lowC x && lowC c2 = 'c'
  | _ => false

/-- The part of the number group of mNum lying beyond an initial digit
run, together with the residual input. -/
def ngTail (q : List Char) : List Char × List Char :=
  match takeRun Char.isDigit q with
  | (e1, '.' :: r2) =>
    let (e2, r3) := takeRun Char.isDigit r2
    (e1 ++ '.' :: e2, r3)
  | (e1, r) => (e1, r)

/-- One-character transition of the number failure automaton; none means
the automaton resolves on this character independently of the rest. -/
def npStep (x : Char) (sg : NPh) (c : Char) : Option NPh :=
  match sg with
  | .s1 =>
    if c.isDigit then some .s1
    else if c = '.' then some .s2
    else if pyWs c then some .s4
    else if lowC c = 'v' then some .s6
    else none
  | .s2 =>
    if c.isDigit then some .s2
    else if pyWs c then some .s4
    else if lowC c = 'v' then some .s6
    else none
  | .s4 =>
    if pyWs c then some .s4
    else if lowC c = 'v' then some .s6
    else none
  | .s6 => if lowC c = lowC x then some .s7 else none
  | .s7 => none

/-- Resolution value of the number failure automaton when it stops. -/
def npRes (x : Char) (sg : NPh) (c : Char) : Bool :=
  match sg with
  | .s7 => if lowC c = 'c' then false else true
  | _ => true

/-- One-character transition of the bad-whitespace automaton. -/
def vStep (x : Char) (sg : VSt) (c : Char) : Option VSt :=
  match sg with
  | .wE => if pyWs c then (if c = ' ' then some .wS else some .wB) else none
  | .wS => if pyWs c then some .wB else none
  | .wB => if pyWs c then some .wB else if c = x then some .bB else none
  | .bB => none

/-- Resolution value of the bad-whitespace automaton when it stops. -/
def vRes (x : Char) (sg : VSt) (c : Char) : Bool :=
  match sg with
  | .bB => if c = 'C' then false else true
  | _ => true

/-- One-character transition of the slash failure automaton. -/
def sStep (sg : SSt) (c : Char) : Option SSt :=
  match sg with
  | .sA =>
    if c.isDigit then some .sA
    else if pyWs c then some .sB
    else if c = '/' then some .sC
    else none
  | .sB =>
    if pyWs c then some .sB
    else if c = '/' then some .sC
    else none
  | .sC => if pyWs c then some .sC else none

/-- Resolution value of the slash failure automaton when it stops. -/
def sRes (sg : SSt) (c : Char) : Bool :=
  match sg with
  | .sC => if c.isDigit then false else true
  | _ => true


/-!
# Theorems

Everything below this point is a lemma or a claim theorem about the
definitions above.
-/

/-! ### Character-level facts -/

theorem chToNat_ofNat {n : Nat} (h : n.isValidChar) : (Char.ofNat n).toNat = n := by
  simp [Char.ofNat, dif_pos h, Char.ofNatAux, Char.toNat, UInt32.toNat]

theorem chToNat_inj {c d : Char} (h : c.toNat = d.toNat) : c = d := by
  apply Char.eq_of_val_eq
  apply UInt32.eq_of_toBitVec_eq
  exact BitVec.eq_of_toNat_eq h

theorem uint32_le_iff (a b : UInt32) : (a ≤ b) ↔ (a.toNat ≤ b.toNat) := by
  rw [UInt32.le_def]
  exact BitVec.le_def

theorem uppC_toNat (c : Char) :
    c.toUpper.toNat = if 97 ≤ c.toNat ∧ c.toNat ≤ 122 then c.toNat - 32 else c.toNat := by
  rw [show c.toUpper = if c.toNat ≥ 97 ∧ c.toNat ≤ 122 then Char.ofNat (c.toNat - 32) else c from rfl]
  by_cases h : 97 ≤ c.toNat ∧ c.toNat ≤ 122
  · rw [if_pos ⟨h.1, h.2⟩, if_pos h, chToNat_ofNat (Or.inl (by omega))]
  · rw [if_neg (by omega), if_neg h]

theorem lowC_toNat (c : Char) :
    c.toLower.toNat = if 65 ≤ c.toNat ∧ c.toNat ≤ 90 then c.toNat + 32 else c.toNat := by
  rw [show c.toLower = if c.toNat ≥ 65 ∧ c.toNat ≤ 90 then Char.ofNat (c.toNat + 32) else c from rfl]
  by_cases h : 65 ≤ c.toNat ∧ c.toNat ≤ 90
  · rw [if_pos ⟨h.1, h.2⟩, if_pos h, chToNat_ofNat (Or.inl (by omega))]
  · rw [if_neg (by omega), if_neg h]

theorem uppC_idem (c : Char) : c.toUpper.toUpper = c.toUpper := by
  apply chToNat_inj
  rw [uppC_toNat, uppC_toNat c]
  by_cases h : 97 ≤ c.toNat ∧ c.toNat ≤ 122
  · simp [h]
    omega
  · simp [h]

theorem char_eq_iff_toNat {c d : Char} : c = d ↔ c.toNat = d.toNat :=
  ⟨fun h => h ▸ rfl, chToNat_inj⟩

theorem isUpper_iff (c : Char) : c.isUpper = true ↔ 65 ≤ c.toNat ∧ c.toNat ≤ 90 := by
  unfold Char.isUpper
  rw [Bool.and_eq_true, decide_eq_true_eq, decide_eq_true_eq, ge_iff_le]
  rw [uint32_le_iff 65 c.val, uint32_le_iff c.val 90]
  exact Iff.rfl

theorem isLower_iff (c : Char) : c.isLower = true ↔ 97 ≤ c.toNat ∧ c.toNat ≤ 122 := by
  unfold Char.isLower
  rw [Bool.and_eq_true, decide_eq_true_eq, decide_eq_true_eq, ge_iff_le]
  rw [uint32_le_iff 97 c.val, uint32_le_iff c.val 122]
  exact Iff.rfl

theorem isDigit_iff (c : Char) : c.isDigit = true ↔ 48 ≤ c.toNat ∧ c.toNat ≤ 57 := by
  unfold Char.isDigit
  rw [Bool.and_eq_true, decide_eq_true_eq, decide_eq_true_eq, ge_iff_le]
  rw [uint32_le_iff 48 c.val, uint32_le_iff c.val 57]
  exact Iff.rfl

theorem isAlphanum_iff (c : Char) :
    c.isAlphanum = true
      ↔ (65 ≤ c.toNat ∧ c.toNat ≤ 90) ∨ (97 ≤ c.toNat ∧ c.toNat ≤ 122)
        ∨ (48 ≤ c.toNat ∧ c.toNat ≤ 57) := by
  unfold Char.isAlphanum Char.isAlpha
  rw [Bool.or_eq_true, Bool.or_eq_true, isUpper_iff, isLower_iff, isDigit_iff]
  tauto

theorem pyWs_iff (c : Char) :
    pyWs c = true
      ↔ c.toNat = 32 ∨ c.toNat = 9 ∨ c.toNat = 10 ∨ c.toNat = 11
        ∨ c.toNat = 12 ∨ c.toNat = 13 := by
  unfold pyWs
  simp only [Bool.or_eq_true, decide_eq_true_eq]
  constructor
  · rintro (((((h | h) | h) | h) | h) | h) <;> subst h <;> simp [Char.toNat]
  · rintro (h | h | h | h | h | h) <;>
      [skip; skip; skip; skip; skip; skip] <;>
      (first
        | (left; left; left; left; left; exact chToNat_inj h)
        | (left; left; left; left; right; exact chToNat_inj h)
        | (left; left; left; right; exact chToNat_inj h)
        | (left; left; right; exact chToNat_inj h)
        | (left; right; exact chToNat_inj h)
        | (right; exact chToNat_inj h))

theorem pyWs_of_alnum_hyphen (c : Char) (h : (c.isAlphanum || c = '-') = true) :
    pyWs c = false := by
  cases hw : pyWs c with
  | false => rfl
  | true =>
    exfalso
    have hn := (pyWs_iff c).mp hw
    rw [Bool.or_eq_true, decide_eq_true_eq] at h
    rcases h with h | h
    · have := (isAlphanum_iff c).mp h
      omega
    · subst h
      revert hn
      decide

theorem uppC_not_lower (c : Char) :
    ¬(97 ≤ c.toUpper.toNat ∧ c.toUpper.toNat ≤ 122) := by
  rw [uppC_toNat]
  by_cases h : 97 ≤ c.toNat ∧ c.toNat ≤ 122
  · rw [if_pos h]; omega
  · rw [if_neg h]; omega

theorem lowC_inj_nonLower {a b : Char}
    (ha : ¬(97 ≤ a.toNat ∧ a.toNat ≤ 122)) (hb : ¬(97 ≤ b.toNat ∧ b.toNat ≤ 122))
    (h : a.toLower = b.toLower) : a = b := by
  apply chToNat_inj
  have := congrArg Char.toNat h
  rw [lowC_toNat, lowC_toNat] at this
  by_cases h1 : 65 ≤ a.toNat ∧ a.toNat ≤ 90 <;>
    by_cases h2 : 65 ≤ b.toNat ∧ b.toNat ≤ 90 <;>
    simp [h1, h2] at this <;> omega

theorem lowC_uppC_inj {a b : Char} (h : a.toUpper.toLower = b.toUpper.toLower) :
    a.toUpper = b.toUpper :=
  lowC_inj_nonLower (uppC_not_lower a) (uppC_not_lower b) h

theorem pyLower_pyUpper_inj {a b : String}
    (h : pyLower (pyUpper a) = pyLower (pyUpper b)) : pyUpper a = pyUpper b := by
  unfold pyLower pyUpper lowL uppL at *
  have hd : (a.data.map uppC).map lowC = (b.data.map uppC).map lowC :=
    congrArg String.data h
  apply congrArg String.mk
  revert hd
  generalize a.data = x
  generalize b.data = y
  induction x generalizing y with
  | nil => cases y <;> simp
  | cons c xt ih =>
    cases y with
    | nil => simp
    | cons d yt =>
      intro hd
      simp only [List.map] at hd ⊢
      have h1 := List.head_eq_of_cons_eq hd
      have h2 := List.tail_eq_of_cons_eq hd
      simp only [lowC, uppC] at h1 ⊢
      rw [lowC_uppC_inj h1, ih yt h2]

theorem pyWs_uppC (c : Char) : pyWs c.toUpper = pyWs c := by
  cases hw : pyWs c with
  | true =>
    have := (pyWs_iff c).mp hw
    have hfix : c.toUpper = c := by
      apply chToNat_inj
      rw [uppC_toNat]
      rw [if_neg (by omega)]
    rw [hfix, hw]
  | false =>
    cases hw2 : pyWs c.toUpper with
    | false => rfl
    | true =>
      exfalso
      have h2 := (pyWs_iff _).mp hw2
      rw [uppC_toNat] at h2
      by_cases h : 97 ≤ c.toNat ∧ c.toNat ≤ 122
      · rw [if_pos h] at h2; omega
      · rw [if_neg h] at h2
        have := (pyWs_iff c)
        rw [hw] at this
        simp at this
        omega

/-! ### Lemmas about the merge engine -/

theorem validate_null_false (sn : Option String) :
    validate_model_code (some "null") sn = false := rfl

theorem validate_na_false (sn : Option String) :
    validate_model_code (some "N/A") sn = false := rfl

theorem considerCand_absent (specs : SpecRec) (sn : Option String)
    (st : List String × List Product) (p : AIProd) (h : absentMC p = true) :
    considerCand specs sn st p = st := by
  obtain ⟨seen, prods⟩ := st
  unfold considerCand
  cases hmc : dget p "MODEL_CODE" with
  | none => rfl
  | some s =>
    have hs : s = "" ∨ s = "null" ∨ s = "N/A" := by
      unfold absentMC isSentinel at h
      rw [hmc] at h
      simp only [Bool.or_eq_true, decide_eq_true_eq, Option.some.injEq,
        reduceCtorEq, false_or] at h
      tauto
    rcases hs with h1 | h1 | h1 <;> subst h1
    · simp
    · simp [validate_null_false]
    · simp [validate_na_false]

theorem foldl_filter_noop {α β : Type} (f : β → α → β) (p : α → Bool)
    (l : List α) (h : ∀ x ∈ l, p x = false → ∀ st, f st x = st) :
    ∀ init, l.foldl f init = (l.filter p).foldl f init := by
  induction l with
  | nil => intro init; rfl
  | cons a t ih =>
    intro init
    by_cases hp : p a = true
    · simp [List.filter, hp, List.foldl]
      exact ih (fun x hx hpx => h x (List.mem_cons_of_mem a hx) hpx) (f init a)
    · have hpf : p a = false := by simpa using hp
      simp [List.filter, hpf, List.foldl, h a (List.mem_cons_self a t) hpf init]
      exact ih (fun x hx hpx => h x (List.mem_cons_of_mem a hx) hpx) init

theorem acceptedProducts_filter (l : List AIProd) (specs : SpecRec)
    (sn : Option String) :
    acceptedProducts l specs sn
      = acceptedProducts (l.filter (fun p => !absentMC p)) specs sn := by
  unfold acceptedProducts
  rw [foldl_filter_noop (considerCand specs sn) (fun p => !absentMC p) l]
  intro x _ hx st
  have : absentMC x = true := by
    cases h : absentMC x
    · rw [h] at hx; simp at hx
    · rfl
  exact considerCand_absent specs sn st x this

theorem fallbackBase_model_code (specs : SpecRec) :
    dfind (fallbackBase specs) "MODEL_CODE"
      = some (if isSentinel (dget specs "MODEL_CODE") then none
              else dget specs "MODEL_CODE") := rfl

theorem fallbackBase_get_model_code (specs : SpecRec) :
    dget (fallbackBase specs) "MODEL_CODE"
      = (if isSentinel (dget specs "MODEL_CODE") then none
         else dget specs "MODEL_CODE") := by
  unfold dget
  rw [fallbackBase_model_code]
  exact rfl

theorem fallback_model_code (specs : SpecRec) :
    dfind (fallbackProduct specs) "MODEL_CODE"
      = some (if isSentinel (dget specs "MODEL_CODE") then dgetD specs "SERIES" "Unknown"
              else dget specs "MODEL_CODE") := by
  cases h : isSentinel (dget specs "MODEL_CODE") with
  | true =>
    have h0 : dget (fallbackBase specs) "MODEL_CODE" = none := by
      rw [fallbackBase_get_model_code]; simp [h]
    unfold fallbackProduct
    rw [h0]
    have h1 : pyTruthy none = false := rfl
    rw [h1]
    simp only [Bool.false_eq_true, if_false, h, if_true]
    exact rfl
  | false =>
    have hv : ∃ s, dget specs "MODEL_CODE" = some s ∧ s ≠ "" := by
      unfold isSentinel at h
      cases hmc : dget specs "MODEL_CODE" with
      | none => rw [hmc] at h; simp at h
      | some s =>
        rw [hmc] at h
        refine ⟨s, rfl, ?_⟩
        intro hs; subst hs; simp at h
    rcases hv with ⟨s, hs, hne⟩
    have hsent : isSentinel (some s) = false := by rw [← hs]; exact h
    have h0 : dget (fallbackBase specs) "MODEL_CODE" = some s := by
      rw [fallbackBase_get_model_code]; simp [hs, hsent]
    unfold fallbackProduct
    rw [h0]
    have h1 : pyTruthy (some s) = true := by simp [pyTruthy, hne]
    rw [h1]
    simp only [if_true]
    rw [fallbackBase_model_code]
    simp [h, hs, hsent]


/-! ### Claim C4 -/

/-- Claim C4 as stated is false: when the heuristic record itself carries a
non-sentinel MODEL_CODE, the fallback product keeps it instead of the SERIES
value. Concretely, with specs SERIES = "AB" and MODEL_CODE = "XYZ-1" and an
empty AI candidate list, the single fallback product has MODEL_CODE "XYZ-1",
which is neither the SERIES value "AB" nor "Unknown". -/
theorem C4_counterexample :
    merge_ai_with_python_filter (.pylist [])
        [("SERIES", some "AB"), ("MODEL_CODE", some "XYZ-1")] (some "AB")
      = .ok [[("SERIES", some "AB"), ("MODEL_CODE", some "XYZ-1"),
              ("MOUNTING HOLE", none), ("BEZEL STYLE", none), ("TERMINALS", none),
              ("BEZEL FINISH", none), ("TYPE OF ILLUMINATION", none),
              ("LED COLOR", none), ("VOLTAGE", none), ("SEALING", none)]]
      ∧ ("XYZ-1" : String) ≠ "AB" ∧ ("XYZ-1" : String) ≠ "Unknown" := by
  refine ⟨rfl, by decide, by decide⟩

/-- Claim C4, amended: if no AI candidate passes validation, the merge engine
returns exactly one fallback product built from the heuristic record alone;
its MODEL_CODE is the record's own MODEL_CODE when that value is present and
non-sentinel, otherwise the record's raw SERIES value when the SERIES key is
present (even if null or "N/A"), otherwise "Unknown". -/
theorem C4_fallback_single_product (l : List AIProd) (specs : SpecRec)
    (sn : Option String) (h : acceptedProducts l specs sn = []) :
    merge_ai_with_python_filter (.pylist l) specs sn = .ok [fallbackProduct specs]
      ∧ dfind (fallbackProduct specs) "MODEL_CODE"
          = some (if isSentinel (dget specs "MODEL_CODE")
                  then dgetD specs "SERIES" "Unknown"
                  else dget specs "MODEL_CODE") := by
  constructor
  · simp only [merge_ai_with_python_filter]
    rw [h]
    rfl
  · exact fallback_model_code specs

/-- Witness for C4: a candidate list whose only element fails validation
(code too short) leads to the single fallback product with MODEL_CODE equal
to the series, here "HS1T". -/
theorem C4_fallback_single_product_witness :
    acceptedProducts [[("MODEL_CODE", some "bad")]] [("SERIES", some "HS1T")] (some "HS1T") = []
      ∧ merge_ai_with_python_filter (.pylist [[("MODEL_CODE", some "bad")]])
          [("SERIES", some "HS1T")] (some "HS1T")
          = .ok [fallbackProduct [("SERIES", some "HS1T")]]
      ∧ dfind (fallbackProduct [("SERIES", some "HS1T")]) "MODEL_CODE" = some (some "HS1T") := by
  refine ⟨by decide, ?_, ?_⟩
  · exact (C4_fallback_single_product _ _ _ (by decide)).1
  · have := (C4_fallback_single_product [[("MODEL_CODE", some "bad")]]
      [("SERIES", some "HS1T")] (some "HS1T") (by decide)).2
    rw [this]
    decide

/-! ### Claim C9 -/

/-- Claim C9 as stated is false: a truthy non-list AI payload (here the
non-empty string "x") makes merge_ai_with_python_filter raise
(AttributeError on str.get) instead of completing normally. -/
theorem C9_counterexample :
    merge_ai_with_python_filter (.pystr "x") [] none = .error .attributeError := rfl

/-- Claim C9, amended: the merge engine completes normally on every list
payload and on falsy non-list payloads (such as None), and candidates whose
MODEL_CODE is missing or a null / "null" / "" / "N/A" sentinel are treated
as absent (removing them changes nothing); only a truthy non-list payload
raises. -/
theorem C9_malformed_ai_tolerated (l : List AIProd) (specs : SpecRec)
    (sn : Option String) :
    (∃ r, merge_ai_with_python_filter (.pylist l) specs sn = .ok r)
      ∧ merge_ai_with_python_filter (.pylist l) specs sn
          = merge_ai_with_python_filter (.pylist (l.filter (fun p => !absentMC p))) specs sn
      ∧ merge_ai_with_python_filter .pynone specs sn = .ok [fallbackProduct specs] := by
  refine ⟨⟨_, rfl⟩, ?_, rfl⟩
  simp only [merge_ai_with_python_filter]
  rw [acceptedProducts_filter l specs sn]



theorem pyWs_uppC2 (c : Char) : pyWs (uppC c) = pyWs c := pyWs_uppC c

theorem uppC_idem2 (c : Char) : uppC (uppC c) = uppC c := uppC_idem c

/-! ### String composition facts -/

theorem dropWhile_head_not {p : Char → Bool} {s : List Char} :
    ∀ c ∈ (s.dropWhile p).head?, p c = false := by
  induction s with
  | nil => simp [List.dropWhile]
  | cons a t ih =>
    simp only [List.dropWhile]
    cases h : p a with
    | true => simpa [h] using ih
    | false => simpa [h] using h

theorem dropWhile_idem {p : Char → Bool} (s : List Char) :
    (s.dropWhile p).dropWhile p = s.dropWhile p := by
  cases h : s.dropWhile p with
  | nil => rfl
  | cons a t =>
    have ha : p a = false := by
      have := @dropWhile_head_not p s
      rw [h] at this
      exact this a rfl
    simp [List.dropWhile, ha]

theorem dropWhile_self {p : Char → Bool} {l : List Char}
    (h : ∀ c ∈ l.head?, p c = false) : l.dropWhile p = l := by
  cases l with
  | nil => rfl
  | cons a t =>
    have := h a rfl
    simp [List.dropWhile, this]

theorem stripL_idem (s : List Char) : stripL (stripL s) = stripL s := by
  unfold stripL
  generalize hdef : s.dropWhile pyWs = s1
  generalize hdef3 : s1.reverse.dropWhile pyWs = s3
  have hd3 : ∀ c ∈ s3.head?, pyWs c = false := by
    rw [← hdef3]; exact dropWhile_head_not
  have hd1 : ∀ c ∈ s1.head?, pyWs c = false := by
    rw [← hdef]; exact dropWhile_head_not
  have hXhead : ∀ c ∈ s3.reverse.head?, pyWs c = false := by
    intro c hc
    rw [List.head?_reverse] at hc
    have hsfx : s3 <:+ s1.reverse := by rw [← hdef3]; exact List.dropWhile_suffix pyWs
    cases hs3 : s3 with
    | nil => rw [hs3] at hc; simp at hc
    | cons a t =>
      have hne : s3 ≠ [] := by rw [hs3]; simp
      have : s3.getLast? = s1.reverse.getLast? := by
        obtain ⟨u, hu⟩ := hsfx
        rw [← hu, List.getLast?_append_of_ne_nil u hne]
      rw [hs3] at this hc
      rw [this, List.getLast?_reverse] at hc
      exact hd1 c hc
  rw [dropWhile_self hXhead, List.reverse_reverse, ← hdef3, dropWhile_idem]

theorem dropWhile_map_comm {p : Char → Bool} {f : Char → Char}
    (hf : ∀ c, p (f c) = p c) (s : List Char) :
    (s.map f).dropWhile p = (s.dropWhile p).map f := by
  induction s with
  | nil => rfl
  | cons a t ih =>
    simp only [List.map, List.dropWhile, hf a]
    cases h : p a with
    | true => simpa [h] using ih
    | false => simp [h]

theorem stripL_uppL_comm (s : List Char) : stripL (uppL s) = uppL (stripL s) := by
  unfold stripL uppL
  rw [dropWhile_map_comm pyWs_uppC2, ← List.map_reverse,
      dropWhile_map_comm pyWs_uppC2, ← List.map_reverse]

theorem uppL_idem (s : List Char) : uppL (uppL s) = uppL s := by
  unfold uppL
  rw [List.map_map]
  apply List.map_congr_left
  intro c _
  exact uppC_idem2 c

theorem pyUpper_pyStrip_image (x : String) :
    pyUpper (pyStrip (pyUpper (pyStrip x))) = pyUpper (pyStrip x) := by
  unfold pyUpper pyStrip
  apply congrArg String.mk
  show uppL (stripL (uppL (stripL x.data))) = uppL (stripL x.data)
  rw [stripL_uppL_comm, stripL_idem, uppL_idem]

theorem pyUpper_length (s : String) : (pyUpper s).length = s.length := by
  unfold pyUpper uppL
  show (s.data.map uppC).length = s.data.length
  exact List.length_map s.data uppC

theorem prefix_append_get {p l : List Char} {x : Char}
    (h : p.isPrefixOf l = true) (hg : l.get? p.length = some x) :
    (p ++ [x]).isPrefixOf l = true := by
  induction p generalizing l with
  | nil =>
    cases l with
    | nil => simp at hg
    | cons b lt =>
      simp only [List.length] at hg
      simp only [List.get?] at hg
      cases hg
      simp [List.isPrefixOf]
  | cons a pt ih =>
    cases l with
    | nil => simp [List.isPrefixOf] at h
    | cons b lt =>
      simp only [List.isPrefixOf, Bool.and_eq_true] at h ⊢
      refine ⟨h.1, ?_⟩
      exact ih h.2 hg

/-! ### Claim C3: strict model-code validity -/

theorem valid_code_props (series_name c : String)
    (h : is_valid_model_code series_name c = true)
    (himg : pyUpper (pyStrip c) = c) :
    ((pyUpper series_name).data ++ ['-']).isPrefixOf c.data = true
      ∧ 8 ≤ c.length ∧ c.length ≤ 25
      ∧ (c.data.drop (series_name.length + 1)).any Char.isDigit = true
      ∧ c.data.all (fun ch => ch.isAlphanum || ch = '-') = true
      ∧ c.data.any pyWs = false
      ∧ ∀ w ∈ ["CIRCUIT", "EXAMPLE", "NOTE", "FIGURE", "TABLE", "PAGE",
               "SPECIFICATION", "DIMENSION", "MOUNTING", "TERMINAL",
               "VOLTAGE", "SEALING"], pyContains c w = false := by
  unfold is_valid_model_code at h
  by_cases hemp : c = ""
  · rw [if_pos hemp] at h; exact absurd h (by simp)
  rw [if_neg hemp, himg] at h
  unfold is_valid_core at h
  split_ifs at h with h1 h2 h3 h4 h5 h6 h7 h8
  have h1a : ¬ c.length < 8 := fun hx => h1 (by simp [hx])
  have h1b : ¬ c.length > 25 := fun hx => h1 (by simp [hx])
  have hpre : (pyUpper series_name).data.isPrefixOf c.data = true := by
    cases hx : (pyUpper series_name).data.isPrefixOf c.data
    · rw [hx] at h2; exact absurd rfl h2
    · rfl
  have hlen : ¬ c.length ≤ series_name.length := h3
  have hget : c.data.get? series_name.length = some '-' := by
    by_contra hne
    exact h4 (by simpa using hne)
  have hall : c.data.all (fun ch => ch.isAlphanum || ch = '-') = true := by
    cases hx : c.data.all (fun ch => ch.isAlphanum || ch = '-')
    · rw [hx] at h8; exact absurd rfl h8
    · rfl
  have hdig : (c.data.drop (series_name.length + 1)).any Char.isDigit = true := by
    cases hx : (c.data.drop (series_name.length + 1)).any Char.isDigit
    · rw [hx] at h7; exact absurd rfl h7
    · rfl
  have hgarb : ∀ g ∈ garbageWords, pyContains c g = false := by
    intro g hg
    have hany : (garbageWords.any fun g => pyContains c g) = false := by
      cases hx : (garbageWords.any fun g => pyContains c g)
      · rfl
      · exact absurd hx h6
    rw [List.any_eq_false] at hany
    have := hany g hg
    cases hx : pyContains c g
    · rfl
    · exact absurd hx this
  refine ⟨?_, ?_, ?_, hdig, hall, ?_, ?_⟩
  · have hglen : c.data.get? (pyUpper series_name).length = some '-' := by
      rw [pyUpper_length]
      exact hget
    have : (pyUpper series_name).data.length = (pyUpper series_name).length := rfl
    rw [← this] at hglen
    exact prefix_append_get hpre hglen
  · omega
  · omega
  · rw [List.any_eq_false]
    intro ch hch
    rw [List.all_eq_true] at hall
    intro hx
    rw [pyWs_of_alnum_hyphen ch (hall ch hch)] at hx
    exact absurd hx (by simp)
  · intro w hw
    have hsub : w ∈ garbageWords := by
      fin_cases hw <;> decide
    exact hgarb w hsub

theorem addCode_inv (series_name : String) (codes : List String) (code : String)
    (hI : (∀ c ∈ codes, is_valid_model_code series_name c = true
            ∧ pyUpper (pyStrip c) = c)
          ∧ (codes.map pyLower).Nodup) :
    (∀ c ∈ addCode series_name codes code,
        is_valid_model_code series_name c = true ∧ pyUpper (pyStrip c) = c)
      ∧ ((addCode series_name codes code).map pyLower).Nodup := by
  unfold addCode
  split
  · rename_i hguard
    rw [Bool.and_eq_true, Bool.not_eq_true'] at hguard
    obtain ⟨hvalid, hnotmem⟩ := hguard
    constructor
    · intro c hc
      rw [List.mem_append] at hc
      rcases hc with hc | hc
      · exact hI.1 c hc
      · simp only [List.mem_singleton] at hc
        subst hc
        exact ⟨hvalid, pyUpper_pyStrip_image code⟩
    · rw [List.map_append]
      apply List.Nodup.append hI.2 (by simp)
      intro x hx hy
      simp only [List.map_cons, List.map_nil, List.mem_singleton] at hy
      subst hy
      rw [List.mem_map] at hx
      obtain ⟨d, hd, hld⟩ := hx
      have himgd := (hI.1 d hd).2
      have : pyUpper (pyStrip d) = pyUpper (pyStrip code) := by
        apply pyLower_pyUpper_inj
        show pyLower (pyUpper (pyStrip d)) = pyLower (pyUpper (pyStrip code))
        rw [himgd, hld]
      rw [himgd] at this
      rw [this] at hd
      have hcon : codes.contains (pyUpper (pyStrip code)) = true :=
        List.elem_eq_true_of_mem hd
      rw [hcon] at hnotmem
      exact absurd hnotmem (by simp)
  · exact hI

theorem foldl_addCode_inv (series_name : String) (cands : List String) :
    ∀ codes,
      ((∀ c ∈ codes, is_valid_model_code series_name c = true
          ∧ pyUpper (pyStrip c) = c)
        ∧ (codes.map pyLower).Nodup) →
      ((∀ c ∈ cands.foldl (addCode series_name) codes,
          is_valid_model_code series_name c = true ∧ pyUpper (pyStrip c) = c)
        ∧ ((cands.foldl (addCode series_name) codes).map pyLower).Nodup) := by
  induction cands with
  | nil => intro codes h; exact h
  | cons a t ih =>
    intro codes h
    exact ih (addCode series_name codes a) (addCode_inv series_name codes a h)

/-- Claim C3: every code returned by extract_model_codes starts with the
uppercased series name followed by a hyphen, has length between 8 and 25,
contains a digit after the series prefix, consists only of alphanumerics and
hyphens (hence contains no whitespace), and contains none of the denylisted
words; the returned list is sorted lexicographically and free of
case-insensitive duplicates. -/
theorem C3_model_code_validity (text : String) (tables : List Table)
    (series_name : String) :
    (∀ code ∈ extract_model_codes text tables series_name,
        ((pyUpper series_name).data ++ ['-']).isPrefixOf code.data = true
          ∧ 8 ≤ code.length ∧ code.length ≤ 25
          ∧ (code.data.drop (series_name.length + 1)).any Char.isDigit = true
          ∧ code.data.all (fun ch => ch.isAlphanum || ch = '-') = true
          ∧ code.data.any pyWs = false
          ∧ ∀ w ∈ ["CIRCUIT", "EXAMPLE", "NOTE", "FIGURE", "TABLE", "PAGE",
                   "SPECIFICATION", "DIMENSION", "MOUNTING", "TERMINAL",
                   "VOLTAGE", "SEALING"], pyContains code w = false)
      ∧ (extract_model_codes text tables series_name).Sorted (· ≤ ·)
      ∧ ((extract_model_codes text tables series_name).map pyLower).Nodup := by
  unfold extract_model_codes
  have hinv := foldl_addCode_inv series_name
    (modelCodeCandidates text tables series_name) [] (by simp)
  have hperm : ((modelCodeCandidates text tables series_name).foldl
      (addCode series_name) []).Perm
      (List.insertionSort (· ≤ ·)
        ((modelCodeCandidates text tables series_name).foldl (addCode series_name) [])) :=
    (List.perm_insertionSort (· ≤ ·) _).symm
  refine ⟨?_, ?_, ?_⟩
  · intro code hcode
    have hmem : code ∈ (modelCodeCandidates text tables series_name).foldl
        (addCode series_name) [] := hperm.mem_iff.mpr hcode
    have hc := hinv.1 code hmem
    exact valid_code_props series_name code hc.1 hc.2
  · exact List.sorted_insertionSort (· ≤ ·) _
  · exact ((hperm.map pyLower).nodup_iff).mp hinv.2

/-- Witness for C3, the spec scenario: series "HS1T" with a valid code and a
denylisted garbage string in the text yields exactly the valid code, which
satisfies all the validity conjuncts. -/
theorem C3_model_code_validity_witness :
    extract_model_codes "Ordering: HS1T-V44ZM-G and HS1T-CIRCUIT-1" [] "HS1T"
        = ["HS1T-V44ZM-G"]
      ∧ ("HS1T-V44ZM-G" ∈
          extract_model_codes "Ordering: HS1T-V44ZM-G and HS1T-CIRCUIT-1" [] "HS1T"
        ∧ ((pyUpper "HS1T").data ++ ['-']).isPrefixOf "HS1T-V44ZM-G".data = true) := by
  refine ⟨by decide, ?_, ?_⟩
  · decide
  · exact ((C3_model_code_validity "Ordering: HS1T-V44ZM-G and HS1T-CIRCUIT-1" [] "HS1T").1
      "HS1T-V44ZM-G" (by decide)).1



/-! ### Claim C6: counterexample -/

/-- Claim C6 as stated is false: clean_and_dedupe_values is not idempotent
on its own output. A segment with an empty code part is re-emitted as its
bare value, which may itself contain a colon, so each pass strips one more
colon: f("\x7b::x\x7d") = "\x7b:x\x7d" but f(f("\x7b::x\x7d")) = "\x7bx\x7d"
(any value_type). For value_type dimension it also fails because
clean_dimension is not idempotent: f("\x7bmmmm\x7d") = "\x7bmm\x7d" yet
f(f("\x7bmmmm\x7d")) = "\x7b\x7d". -/
theorem C6_counterexample :
    clean_and_dedupe_values (clean_and_dedupe_values "\x7b::x\x7d" "generic") "generic"
        ≠ clean_and_dedupe_values "\x7b::x\x7d" "generic"
      ∧ clean_and_dedupe_values "\x7b::x\x7d" "generic" = "\x7b:x\x7d"
      ∧ clean_and_dedupe_values (clean_and_dedupe_values "\x7b::x\x7d" "voltage") "voltage"
        ≠ clean_and_dedupe_values "\x7b::x\x7d" "voltage"
      ∧ clean_and_dedupe_values (clean_and_dedupe_values "\x7bmmmm\x7d" "dimension") "dimension"
        ≠ clean_and_dedupe_values "\x7bmmmm\x7d" "dimension"
      ∧ clean_and_dedupe_values "\x7bmmmm\x7d" "dimension" = "\x7bmm\x7d" := by
  refine ⟨by decide, by decide, by decide, by decide, by decide⟩

/-! ### Claim C2: counterexample -/

/-- Claim C2 as stated is false: the sealing extractor renders the
rating_codes dict directly, so two distinct adjacent-cell codes labelling
the same IP rating yield two segments with identical value parts. -/
theorem C2_counterexample :
    extract_sealing "" [[[some "A", some "IP65"], [some "B", some "IP65"]]]
        = some "\x7bA:IP65|B:IP65\x7d"
      ∧ ¬ dedupInvariant "\x7bA:IP65|B:IP65\x7d" := by
  constructor
  · decide
  · intro h
    unfold dedupInvariant at h
    have : lowL (segValue "A:IP65".data) ≠ lowL (segValue "B:IP65".data) := by
      have hseg : fieldSegments "\x7bA:IP65|B:IP65\x7d"
          = ["A:IP65".data, "B:IP65".data] := by decide
      rw [hseg] at h
      exact List.rel_of_pairwise_cons h (List.mem_singleton.mpr rfl)
    exact this (by decide)


/-! ### Claim C10: mounting-hole truncation to eight entries -/


theorem takeRun_eq (p : Char → Bool) (s : List Char) :
    takeRun p s = (s.takeWhile p, s.dropWhile p) := by
  induction s with
  | nil => rfl
  | cons a t ih =>
    unfold takeRun
    rw [ih]
    by_cases hp : p a
    · simp [hp, List.takeWhile_cons, List.dropWhile_cons]
    · simp [hp, List.takeWhile_cons, List.dropWhile_cons]

theorem takeRun_chars {p : Char → Bool} {s : List Char} :
    ∀ c ∈ (takeRun p s).1, p c = true := by
  rw [takeRun_eq]
  exact fun c hc => List.mem_takeWhile_imp hc

theorem wsRun_ne_pipe {s : List Char} : '|' ∉ (takeRun pyWs s).1 := by
  intro hm
  exact absurd (takeRun_chars '|' hm) (by decide)

theorem numGroup_chars {s g r : List Char} (h : numGroup s = some (g, r)) :
    ∀ c ∈ g, c.isDigit = true ∨ c = '.' := by
  unfold numGroup at h
  split at h
  · exact Option.noConfusion h
  · rename_i d1 rest hov heq
    have hd1 : ∀ c ∈ d1, c.isDigit = true := by
      intro c hc
      refine takeRun_chars (p := Char.isDigit) (s := s) c ?_
      rw [heq]; exact hc
    split at h
    · rename_i rest2
      injection h with hp
      injection hp with hg hr2
      intro c hc
      rw [← hg] at hc
      rcases List.mem_append.mp hc with hc | hc
      · exact Or.inl (hd1 c hc)
      · rcases List.mem_cons.mp hc with hc | hc
        · exact Or.inr hc
        · exact Or.inl (takeRun_chars c hc)
    · injection h with hp
      injection hp with hg hr2
      intro c hc
      rw [← hg] at hc
      exact Or.inl (hd1 c hc)

theorem numGroup_ne_pipe {s g r : List Char} (h : numGroup s = some (g, r)) :
    '|' ∉ g := by
  intro hm
  rcases numGroup_chars h '|' hm with hd | hd
  · exact absurd hd (by decide)
  · exact absurd hd (by decide)

theorem low_ne_pipe {a x : Char} (h : lowC a = x) (hx : x ≠ '|') : '|' ≠ a := by
  intro he
  rw [← he] at h
  exact hx (by rw [← h]; decide)

theorem mMnt1_ne_pipe {cls s : List Char} {k : Nat} {txt : List Char}
    (hcls : cls.contains '|' = false)
    (h : mMnt1 cls s = some (k, txt)) : '|' ∉ txt := by
  cases s with
  | nil => simp [mMnt1] at h
  | cons c t =>
    simp only [mMnt1] at h
    split at h
    · rename_i hc
      split at h
      · exact Option.noConfusion h
      · rename_i g r2 hng
        split at h
        · rename_i a b rest
          split at h
          · rename_i hab
            injection h with hp
            injection hp with hk htxt
            rw [← htxt]
            intro hm
            rcases List.mem_cons.mp hm with hm | hm
            · rw [hm] at hcls
              rw [hcls] at hc
              exact Bool.noConfusion hc
            · rcases List.mem_append.mp hm with hm | hm
              · rcases List.mem_append.mp hm with hm | hm
                · rcases List.mem_append.mp hm with hm | hm
                  · exact wsRun_ne_pipe hm
                  · exact numGroup_ne_pipe hng hm
                · exact wsRun_ne_pipe hm
              · rcases List.mem_cons.mp hm with hm | hm
                · exact low_ne_pipe hab.1 (by decide) hm
                · rcases List.mem_cons.mp hm with hm | hm
                  · exact low_ne_pipe hab.2 (by decide) hm
                  · exact absurd hm (List.not_mem_nil '|')
          · exact Option.noConfusion h
        · exact Option.noConfusion h
    · exact Option.noConfusion h

theorem matchMM_ne_pipe {s mm r : List Char} (h : matchMM s = some (mm, r)) :
    '|' ∉ mm := by
  unfold matchMM at h
  split at h
  · rename_i a b t
    split at h
    · rename_i hab
      injection h with hp
      injection hp with hmm hr
      rw [← hmm]
      intro hm
      rcases List.mem_cons.mp hm with hm | hm
      · exact low_ne_pipe hab.1 (by decide) hm
      · rcases List.mem_cons.mp hm with hm | hm
        · exact low_ne_pipe hab.2 (by decide) hm
        · exact absurd hm (List.not_mem_nil '|')
    · exact Option.noConfusion h
  · exact Option.noConfusion h

theorem matchTO_ne_pipe {s to2 r : List Char} (h : matchTO s = some (to2, r)) :
    '|' ∉ to2 := by
  unfold matchTO at h
  split at h
  · rename_i a b t
    split at h
    · rename_i hab
      injection h with hp
      injection hp with hmm hr
      rw [← hmm]
      intro hm
      rcases List.mem_cons.mp hm with hm | hm
      · exact low_ne_pipe hab.1 (by decide) hm
      · rcases List.mem_cons.mp hm with hm | hm
        · exact low_ne_pipe hab.2 (by decide) hm
        · exact absurd hm (List.not_mem_nil '|')
    · exact Option.noConfusion h
  · exact Option.noConfusion h

theorem mMnt2_ne_pipe {cls s : List Char} {k : Nat} {txt : List Char}
    (hcls : cls.contains '|' = false)
    (h : mMnt2 cls s = some (k, txt)) : '|' ∉ txt := by
  cases s with
  | nil => simp [mMnt2] at h
  | cons c t =>
    simp only [mMnt2] at h
    split at h
    · rename_i hc
      split at h
      · exact Option.noConfusion h
      · rename_i g r2 hng
        injection h with hp
        injection hp with hk htxt
        rw [← htxt]
        intro hm
        rcases List.mem_cons.mp hm with hm | hm
        · rw [hm] at hcls
          rw [hcls] at hc
          exact Bool.noConfusion hc
        · rcases List.mem_append.mp hm with hm | hm
          · exact wsRun_ne_pipe hm
          · exact numGroup_ne_pipe hng hm
    · exact Option.noConfusion h

theorem mMnt3_ne_pipe {xcls s : List Char} {k : Nat} {txt : List Char}
    (hx : xcls.contains '|' = false)
    (h : mMnt3 xcls s = some (k, txt)) : '|' ∉ txt := by
  simp only [mMnt3] at h
  split at h
  · exact Option.noConfusion h
  · rename_i g1 r1 hg1
    split at h
    · exact Option.noConfusion h
    · rename_i mm1 r3 hmm1
      split at h
      · rename_i x r5 hr4
        split at h
        · rename_i hxc
          split at h
          · exact Option.noConfusion h
          · rename_i g2 r7 hg2
            split at h
            · exact Option.noConfusion h
            · rename_i mm2 r9 hmm2
              injection h with hp
              injection hp with hk htxt
              rw [← htxt]
              intro hm
              rcases List.mem_append.mp hm with hm | hm
              · rcases List.mem_append.mp hm with hm | hm
                · rcases List.mem_append.mp hm with hm | hm
                  · rcases List.mem_append.mp hm with hm | hm
                    · exact numGroup_ne_pipe hg1 hm
                    · exact wsRun_ne_pipe hm
                  · exact matchMM_ne_pipe hmm1 hm
                · exact wsRun_ne_pipe hm
              · rcases List.mem_cons.mp hm with hm | hm
                · rw [hm] at hx
                  rw [hx] at hxc
                  exact Bool.noConfusion hxc
                · rcases List.mem_append.mp hm with hm | hm
                  · rcases List.mem_append.mp hm with hm | hm
                    · rcases List.mem_append.mp hm with hm | hm
                      · exact wsRun_ne_pipe hm
                      · exact numGroup_ne_pipe hg2 hm
                    · exact wsRun_ne_pipe hm
                  · exact matchMM_ne_pipe hmm2 hm
        · exact Option.noConfusion h
      · exact Option.noConfusion h

theorem mMnt4_ne_pipe {s : List Char} {k : Nat} {txt : List Char}
    (h : mMnt4 s = some (k, txt)) : '|' ∉ txt := by
  simp only [mMnt4] at h
  split at h
  · exact Option.noConfusion h
  · rename_i g1 r1 hg1
    split at h
    · exact Option.noConfusion h
    · rename_i to1 r3 hto1
      split at h
      · exact Option.noConfusion h
      · rename_i g2 r5 hg2
        split at h
        · exact Option.noConfusion h
        · rename_i mm1 r7 hmm1
          injection h with hp
          injection hp with hk htxt
          rw [← htxt]
          intro hm
          rcases List.mem_append.mp hm with hm | hm
          · rcases List.mem_append.mp hm with hm | hm
            · rcases List.mem_append.mp hm with hm | hm
              · rcases List.mem_append.mp hm with hm | hm
                · rcases List.mem_append.mp hm with hm | hm
                  · rcases List.mem_append.mp hm with hm | hm
                    · exact numGroup_ne_pipe hg1 hm
                    · exact wsRun_ne_pipe hm
                  · exact matchTO_ne_pipe hto1 hm
                · exact wsRun_ne_pipe hm
              · exact numGroup_ne_pipe hg2 hm
            · exact wsRun_ne_pipe hm
          · exact matchMM_ne_pipe hmm1 hm

theorem mMnt5_ne_pipe {s : List Char} {k : Nat} {txt : List Char}
    (h : mMnt5 s = some (k, txt)) : '|' ∉ txt := by
  simp only [mMnt5] at h
  split at h
  · exact Option.noConfusion h
  · rename_i g1 r1 hg1
    split at h
    · exact Option.noConfusion h
    · rename_i to1 r3 hto1
      split at h
      · exact Option.noConfusion h
      · rename_i g2 r5 hg2
        injection h with hp
        injection hp with hk htxt
        rw [← htxt]
        intro hm
        rcases List.mem_append.mp hm with hm | hm
        · rcases List.mem_append.mp hm with hm | hm
          · rcases List.mem_append.mp hm with hm | hm
            · rcases List.mem_append.mp hm with hm | hm
              · exact numGroup_ne_pipe hg1 hm
              · exact wsRun_ne_pipe hm
            · exact matchTO_ne_pipe hto1 hm
          · exact wsRun_ne_pipe hm
        · exact numGroup_ne_pipe hg2 hm

theorem mMnt6_ne_pipe {cls s : List Char} {k : Nat} {txt : List Char}
    (hcls : cls.contains '|' = false)
    (h : mMnt6 cls s = some (k, txt)) : '|' ∉ txt := by
  simp only [mMnt6] at h
  split at h
  · exact Option.noConfusion h
  · rename_i r1 h1
    split at h
    · exact Option.noConfusion h
    · rename_i r3 h3
      split at h
      · exact Option.noConfusion h
      · rename_i k1 r4 hstep
        split at h
        · exact Option.noConfusion h
        · rename_i g r7 hg
          injection h with hp
          injection hp with hk htxt
          rw [← htxt]
          intro hm
          rcases List.mem_append.mp hm with hm | hm
          · rcases List.mem_append.mp hm with hm | hm
            · split at hm
              · rename_i c r5' hr5
                split at hm
                · rename_i hcc
                  rcases List.mem_cons.mp hm with hm2 | hm2
                  · rw [hm2] at hcls
                    rw [hcls] at hcc
                    exact Bool.noConfusion hcc
                  · exact absurd hm2 (List.not_mem_nil '|')
                · exact absurd hm (List.not_mem_nil '|')
              · exact absurd hm (List.not_mem_nil '|')
            · exact wsRun_ne_pipe hm
          · exact numGroup_ne_pipe hg hm

/-- Every text a mounting pattern reports is free of the pipe separator. -/
theorem mnt_matchers_ne_pipe :
    ∀ m ∈ mntMatchersPy, ∀ s k txt, m s = some (k, txt) → '|' ∉ txt := by
  intro m hm
  simp only [mntMatchersPy, List.mem_cons, List.not_mem_nil, or_false] at hm
  rcases hm with rfl | rfl | rfl | rfl | rfl | rfl
  · exact fun s k txt h => mMnt1_ne_pipe (by decide) h
  · exact fun s k txt h => mMnt2_ne_pipe (by decide) h
  · exact fun s k txt h => mMnt3_ne_pipe (by decide) h
  · exact fun s k txt h => mMnt4_ne_pipe h
  · exact fun s k txt h => mMnt5_ne_pipe h
  · exact fun s k txt h => mMnt6_ne_pipe (by decide) h

theorem scanFind_prop {m : List Char → Option (Nat × List Char)}
    {P : List Char → Prop}
    (hm : ∀ s k txt, m s = some (k, txt) → P txt) :
    ∀ (fuel : Nat) (s : List Char), ∀ mt ∈ scanFind m fuel s, P mt := by
  intro fuel
  induction fuel with
  | zero => intro s mt hmt; exact absurd hmt (List.not_mem_nil mt)
  | succ f ih =>
    intro s mt hmt
    cases s with
    | nil => exact absurd hmt (List.not_mem_nil mt)
    | cons c t =>
      simp only [scanFind] at hmt
      cases hmc : m (c :: t) with
      | none =>
        rw [hmc] at hmt
        exact ih t mt hmt
      | some p =>
        obtain ⟨k, txt⟩ := p
        rw [hmc] at hmt
        replace hmt : mt ∈ txt :: scanFind m f (List.drop (k - 1) t) := hmt
        rcases List.mem_cons.mp hmt with hmt | hmt
        · rw [hmt]; exact hm _ k txt hmc
        · exact ih _ mt hmt

theorem runFind_prop {m : List Char → Option (Nat × List Char)}
    {P : List Char → Prop}
    (hm : ∀ s k txt, m s = some (k, txt) → P txt) (s : List Char) :
    ∀ mt ∈ runFind m s, P mt :=
  fun mt hmt => scanFind_prop hm _ s mt hmt

theorem foldl_inv {α β : Type} (I : α → Prop) (f : α → β → α) :
    ∀ (l : List β) (st : α), I st →
      (∀ a b, b ∈ l → I a → I (f a b)) → I (l.foldl f st) := by
  intro l
  induction l with
  | nil => intro st h _; exact h
  | cons x xs ih =>
    intro st h hstep
    exact ih (f st x) (hstep st x (List.mem_cons_self x xs) h)
      (fun a b hb ha => hstep a b (List.mem_cons_of_mem x hb) ha)

theorem mountAdd_fst (cls : List Char) (st : List (List Char) × List (List Char))
    (val : List Char) :
    (mountAdd cls st val).1 = st.1 ∨ (mountAdd cls st val).1 = st.1 ++ [val] := by
  unfold mountAdd
  dsimp only
  split
  · exact Or.inl rfl
  · split
    · exact Or.inl rfl
    · exact Or.inr rfl

theorem mountAdd_inv {cls : List Char} {st : List (List Char) × List (List Char)}
    {val : List Char} (hval : '|' ∉ val) (h : ∀ v ∈ st.1, '|' ∉ v) :
    ∀ v ∈ (mountAdd cls st val).1, '|' ∉ v := by
  intro v hv
  rcases mountAdd_fst cls st val with he | he <;> rw [he] at hv
  · exact h v hv
  · rcases List.mem_append.mp hv with hv | hv
    · exact h v hv
    · rw [List.mem_singleton.mp hv]; exact hval

theorem mountTextFold_inv (cls : List Char) (ms : List (List Char)) :
    ∀ st : List (List Char) × List (List Char),
      (∀ mt ∈ ms, '|' ∉ mt) → (∀ v ∈ st.1, '|' ∉ v) →
      ∀ v ∈ (mountTextFold cls st ms).1, '|' ∉ v := by
  unfold mountTextFold
  induction ms with
  | nil => intro st _ h; exact h
  | cons b ms ih =>
    intro st hms h
    simp only [List.foldl_cons]
    apply ih
    · exact fun mt hmt => hms mt (List.mem_cons_of_mem b hmt)
    · cases hf : firstNum b with
      | none => exact h
      | some g =>
        show ∀ v ∈ (if numBand 5 50 g then mountAdd cls st b else st).1, '|' ∉ v
        by_cases hb2 : numBand 5 50 g = true
        · rw [if_pos hb2]
          exact mountAdd_inv (hms b (List.mem_cons_self b ms)) h
        · rw [if_neg (by simpa using hb2)]
          exact h

theorem mountCellFold_inv (cls : List Char) (hasKw : Bool) (ms : List (List Char)) :
    ∀ st : List (List Char) × List (List Char),
      (∀ mt ∈ ms, '|' ∉ mt) → (∀ v ∈ st.1, '|' ∉ v) →
      ∀ v ∈ (mountCellFold cls hasKw st ms).1, '|' ∉ v := by
  unfold mountCellFold
  induction ms with
  | nil => intro st _ h; exact h
  | cons b ms ih =>
    intro st hms h
    simp only [List.foldl_cons]
    apply ih
    · exact fun mt hmt => hms mt (List.mem_cons_of_mem b hmt)
    · cases hf : firstNum b with
      | none => exact h
      | some g =>
        show ∀ v ∈ (if hasKw || numBand 8 35 g then mountAdd cls st b else st).1, '|' ∉ v
        by_cases hb2 : (hasKw || numBand 8 35 g) = true
        · rw [if_pos hb2]
          exact mountAdd_inv (hms b (List.mem_cons_self b ms)) h
        · rw [if_neg (by simpa using hb2)]
          exact h

theorem splitOnCharL_ne_nil (sep : Char) (l : List Char) : splitOnCharL sep l ≠ [] := by
  induction l with
  | nil => simp [splitOnCharL]
  | cons c t ih =>
    simp only [splitOnCharL]
    by_cases hc : c = sep
    · simp [hc]
    · rw [if_neg hc]
      cases hr : splitOnCharL sep t with
      | nil => exact absurd hr ih
      | cons hd rs => simp

theorem splitOnCharL_length (sep : Char) (l : List Char) :
    (splitOnCharL sep l).length = l.count sep + 1 := by
  induction l with
  | nil => simp [splitOnCharL]
  | cons c t ih =>
    simp only [splitOnCharL]
    by_cases hc : c = sep
    · subst hc
      rw [if_pos rfl]
      simp [List.count_cons, ih]
    · rw [if_neg hc]
      have hcc : (c == sep) = false := beq_eq_false_iff_ne.mpr hc
      cases hr : splitOnCharL sep t with
      | nil => exact absurd hr (splitOnCharL_ne_nil sep t)
      | cons hd rs =>
        rw [hr] at ih
        simp only [List.length_cons] at ih
        simp [List.count_cons, hcc, ih]

theorem splitOnCharL_no_sep (sep : Char) (l : List Char) :
    ∀ p ∈ splitOnCharL sep l, sep ∉ p := by
  induction l with
  | nil =>
    intro p hp
    simp only [splitOnCharL, List.mem_singleton] at hp
    rw [hp]
    exact List.not_mem_nil sep
  | cons c t ih =>
    intro p hp
    simp only [splitOnCharL] at hp
    by_cases hc : c = sep
    · rw [if_pos hc] at hp
      rcases List.mem_cons.mp hp with hp | hp
      · rw [hp]; exact List.not_mem_nil sep
      · exact ih p hp
    · rw [if_neg hc] at hp
      cases hr : splitOnCharL sep t with
      | nil => exact absurd hr (splitOnCharL_ne_nil sep t)
      | cons hd rs =>
        rw [hr] at hp
        have hhd : sep ∉ hd := ih hd (by rw [hr]; exact List.mem_cons_self hd rs)
        rcases List.mem_cons.mp hp with hp | hp
        · rw [hp]
          intro hm
          rcases List.mem_cons.mp hm with hm | hm
          · exact hc hm.symm
          · exact hhd hm
        · exact ih p (by rw [hr]; exact List.mem_cons_of_mem hd hp)

theorem joinL_count_sep (sep : Char) (fs : List (List Char))
    (hfree : ∀ f ∈ fs, sep ∉ f) :
    (joinL [sep] fs).count sep = fs.length - 1 := by
  induction fs with
  | nil => simp [joinL]
  | cons x fs ih =>
    cases fs with
    | nil =>
      simp only [joinL]
      simp [List.count_eq_zero.mpr (hfree x (List.mem_singleton_self x))]
    | cons y fs2 =>
      simp only [joinL]
      have hx : List.count sep x = 0 :=
        List.count_eq_zero.mpr (hfree x (List.mem_cons_self x (y :: fs2)))
      have hih := ih (fun f hf => hfree f (List.mem_cons_of_mem x hf))
      rw [List.count_append, List.count_append, hx, hih]
      simp
      omega

theorem scanSub_subset {m : List Char → Option (Nat × List Char)}
    (hrep : ∀ u k r, m u = some (k, r) → r = []) :
    ∀ (fuel : Nat) (s : List Char), ∀ c ∈ scanSub m fuel s, c ∈ s := by
  intro fuel
  induction fuel with
  | zero => intro s c hc; exact hc
  | succ f ih =>
    intro s c hc
    cases s with
    | nil => exact hc
    | cons a t =>
      simp only [scanSub] at hc
      cases hmc : m (a :: t) with
      | none =>
        rw [hmc] at hc
        replace hc : c ∈ a :: scanSub m f t := hc
        rcases List.mem_cons.mp hc with hc | hc
        · rw [hc]; exact List.mem_cons_self a t
        · exact List.mem_cons_of_mem a (ih t c hc)
      | some p =>
        obtain ⟨k, rep⟩ := p
        have hr : rep = [] := hrep _ _ _ hmc
        subst hr
        rw [hmc] at hc
        replace hc : c ∈ ([] : List Char) ++ scanSub m f (List.drop (k - 1) t) := hc
        rw [List.nil_append] at hc
        exact List.mem_cons_of_mem a (List.mem_of_mem_drop (ih _ c hc))

theorem mDiaCls_rep_nil (cls : List Char) :
    ∀ u k r, mDiaCls cls u = some (k, r) → r = [] := by
  intro u k r h
  cases u with
  | nil => exact Option.noConfusion h
  | cons c t =>
    simp only [mDiaCls] at h
    split at h
    · injection h with hp
      injection hp with h1 h2
      exact h2.symm
    · exact Option.noConfusion h

theorem mMm_rep_nil : ∀ u k r, mMm u = some (k, r) → r = [] := by
  intro u k r h
  simp only [mMm] at h
  split at h
  · split at h
    · split at h
      · injection h with hp
        injection hp with h1 h2
        exact h2.symm
      · split at h
        · exact Option.noConfusion h
        · injection h with hp
          injection hp with h1 h2
          exact h2.symm
    · exact Option.noConfusion h
  · exact Option.noConfusion h

theorem stripL_subset {s : List Char} : ∀ c ∈ stripL s, c ∈ s := by
  intro c hc
  unfold stripL at hc
  rw [List.mem_reverse] at hc
  have h2 : c ∈ (s.dropWhile pyWs).reverse := (List.dropWhile_sublist _).subset hc
  rw [List.mem_reverse] at h2
  exact (List.dropWhile_sublist _).subset h2

theorem clean_dimension_core_subset (cls : List Char) (s : String) :
    ∀ c ∈ (clean_dimension_core cls s).data, c ∈ s.data := by
  intro c hc
  unfold clean_dimension_core at hc
  split at hc
  · exact hc
  · replace hc : c ∈ stripL (runSub mMm (runSub (mDiaCls cls) (stripL s.data))) := hc
    have h1 := stripL_subset c hc
    unfold runSub at h1
    have h2 := scanSub_subset mMm_rep_nil _ _ c h1
    have h3 := scanSub_subset (mDiaCls_rep_nil cls) _ _ c h2
    exact stripL_subset c h3

theorem mountCellMatchers_inv (hasKw : Bool) (sd : List Char) :
    ∀ st : List (List Char) × List (List Char), (∀ v ∈ st.1, '|' ∉ v) →
    ∀ v ∈ (mntMatchersPy.foldl
        (fun st4 m => mountCellFold diaClsPy hasKw st4 (runFind m sd)) st).1, '|' ∉ v := by
  intro st h
  refine foldl_inv (fun st2 => ∀ v ∈ st2.1, '|' ∉ v) _ mntMatchersPy st h ?_
  intro a m hm ha
  exact mountCellFold_inv diaClsPy hasKw (runFind m sd) a
    (runFind_prop (mnt_matchers_ne_pipe m hm) sd) ha

theorem mountRow_inv (hasKw : Bool) (row : List (Option String)) :
    ∀ st : List (List Char) × List (List Char), (∀ v ∈ st.1, '|' ∉ v) →
    ∀ v ∈ (row.foldl
        (fun st3 cell =>
          match cell with
          | none => st3
          | some s =>
            if s = "" then st3
            else mntMatchersPy.foldl
              (fun st4 m => mountCellFold diaClsPy hasKw st4 (runFind m s.data)) st3)
        st).1, '|' ∉ v := by
  induction row with
  | nil => intro st h; exact h
  | cons cell row ih =>
    intro st h
    simp only [List.foldl_cons]
    apply ih
    cases cell with
    | none => exact h
    | some s =>
      show ∀ v ∈ (if s = "" then st
          else mntMatchersPy.foldl
            (fun st4 m => mountCellFold diaClsPy hasKw st4 (runFind m s.data)) st).1, '|' ∉ v
      by_cases hs : s = ""
      · rw [if_pos hs]; exact h
      · rw [if_neg hs]
        exact mountCellMatchers_inv hasKw s.data st h

theorem mountOneTable_inv (tb : Table) :
    ∀ st : List (List Char) × List (List Char), (∀ v ∈ st.1, '|' ∉ v) →
    ∀ v ∈ (tb.foldl
        (fun st2 row =>
          let hasKw := mountingKeywords.any (fun kw => containsSubL (rowTextOf row) kw.data)
          row.foldl
            (fun st3 cell =>
              match cell with
              | none => st3
              | some s =>
                if s = "" then st3
                else mntMatchersPy.foldl
                  (fun st4 m => mountCellFold diaClsPy hasKw st4 (runFind m s.data)) st3)
            st2)
        st).1, '|' ∉ v := by
  intro st h
  refine foldl_inv (fun st2 => ∀ v ∈ st2.1, '|' ∉ v) _ tb st h ?_
  intro a row hrow ha
  exact mountRow_inv (mountingKeywords.any (fun kw => containsSubL (rowTextOf row) kw.data))
    row a ha

theorem mountTables_inv (tables : List Table) :
    ∀ st : List (List Char) × List (List Char), (∀ v ∈ st.1, '|' ∉ v) →
    ∀ v ∈ (tables.foldl
        (fun st tb => tb.foldl
          (fun st2 row =>
            let hasKw := mountingKeywords.any (fun kw => containsSubL (rowTextOf row) kw.data)
            row.foldl
              (fun st3 cell =>
                match cell with
                | none => st3
                | some s =>
                  if s = "" then st3
                  else mntMatchersPy.foldl
                    (fun st4 m => mountCellFold diaClsPy hasKw st4 (runFind m s.data)) st3)
              st2)
          st)
        st).1, '|' ∉ v := by
  intro st h
  refine foldl_inv (fun st2 => ∀ v ∈ st2.1, '|' ∉ v) _ tables st h ?_
  intro a tb htb ha
  exact mountOneTable_inv tb a ha

theorem mountTextPass_inv (td : List Char)
    (st : List (List Char) × List (List Char)) (h : ∀ v ∈ st.1, '|' ∉ v) :
    ∀ v ∈ (mntMatchersPy.foldl
        (fun st m => mountTextFold diaClsPy st (runFind m td)) st).1, '|' ∉ v := by
  refine foldl_inv (fun st2 => ∀ v ∈ st2.1, '|' ∉ v) _ mntMatchersPy st h ?_
  intro a m hm ha
  exact mountTextFold_inv diaClsPy (runFind m td) a
    (runFind_prop (mnt_matchers_ne_pipe m hm) td) ha

theorem clean_fold_len (cls : List Char) (parts : List (List Char)) :
    ∀ st : List (List Char) × List (List Char),
      (parts.foldl
        (fun (st : List (List Char) × List (List Char)) part =>
          let cp := (clean_dimension_core cls ⟨stripL part⟩).data
          if cp.isEmpty then st
          else if st.2.contains (lowL cp) then st
          else (st.1 ++ [cp], st.2 ++ [lowL cp]))
        st).1.length ≤ st.1.length + parts.length := by
  induction parts with
  | nil => intro st; simp
  | cons part parts ih =>
    intro st
    simp only [List.foldl_cons, List.length_cons]
    refine Nat.le_trans (ih _) ?_
    dsimp only
    split
    · omega
    · split
      · omega
      · simp only [List.length_append, List.length_cons, List.length_nil]
        omega

theorem clean_fold_ne_pipe (cls : List Char) (parts : List (List Char)) :
    ∀ st : List (List Char) × List (List Char),
      (∀ p ∈ parts, '|' ∉ p) → (∀ v ∈ st.1, '|' ∉ v) →
      ∀ v ∈ (parts.foldl
        (fun (st : List (List Char) × List (List Char)) part =>
          let cp := (clean_dimension_core cls ⟨stripL part⟩).data
          if cp.isEmpty then st
          else if st.2.contains (lowL cp) then st
          else (st.1 ++ [cp], st.2 ++ [lowL cp]))
        st).1, '|' ∉ v := by
  induction parts with
  | nil => intro st _ h; exact h
  | cons part parts ih =>
    intro st hparts h
    simp only [List.foldl_cons]
    refine ih _ (fun p hp => hparts p (List.mem_cons_of_mem part hp)) ?_
    dsimp only
    split
    · exact h
    · split
      · exact h
      · intro v hv
        rcases List.mem_append.mp hv with hv | hv
        · exact h v hv
        · rw [List.mem_singleton.mp hv]
          intro hm
          have h1 := clean_dimension_core_subset cls ⟨stripL part⟩ '|' hm
          replace h1 : '|' ∈ stripL part := h1
          exact hparts part (List.mem_cons_self part parts) (stripL_subset '|' h1)

theorem cmh_match_bound (cleaned1 : List (List Char)) (n : Nat)
    (hfree : ∀ p ∈ cleaned1, '|' ∉ p) (hlen : cleaned1.length ≤ n) (hn : 1 ≤ n) :
    (splitOnCharL '|' (match cleaned1 with
      | [] => "N/A"
      | parts' => (⟨joinL ['|'] parts'⟩ : String)).data).length ≤ n := by
  cases cleaned1 with
  | nil =>
    show (splitOnCharL '|' ("N/A" : String).data).length ≤ n
    have h1 : (splitOnCharL '|' ("N/A" : String).data).length = 1 := by decide
    rw [h1]
    exact hn
  | cons f fs =>
    show (splitOnCharL '|' ((⟨joinL ['|'] (f :: fs)⟩ : String)).data).length ≤ n
    have hdata : ((⟨joinL ['|'] (f :: fs)⟩ : String)).data = joinL ['|'] (f :: fs) := rfl
    rw [hdata, splitOnCharL_length, joinL_count_sep '|' (f :: fs) hfree]
    simp only [List.length_cons] at hlen ⊢
    omega

theorem clean_mounting_hole_core_len (cls : List Char) (v : String) :
    (splitOnCharL '|' (clean_mounting_hole_core cls v).data).length ≤
      (splitOnCharL '|' v.data).length := by
  unfold clean_mounting_hole_core
  split
  · exact Nat.le_refl _
  · split
    · exact Nat.le_refl _
    · refine cmh_match_bound _ _ ?_ ?_ ?_
      · exact clean_fold_ne_pipe cls (splitOnCharL '|' v.data) ([], [])
          (splitOnCharL_no_sep '|' v.data) (fun w hw => absurd hw (List.not_mem_nil w))
      · simpa using clean_fold_len cls (splitOnCharL '|' v.data) ([], [])
      · rw [splitOnCharL_length]
        omega

theorem emh_match_bound (found1 : List (List Char))
    (hfree : ∀ v ∈ found1, '|' ∉ v) :
    (splitOnCharL '|' (match found1 with
      | [] => "N/A"
      | found => clean_mounting_hole_core diaClsPy ⟨joinL ['|'] (found.take 8)⟩).data).length ≤ 8 := by
  cases found1 with
  | nil =>
    show (splitOnCharL '|' ("N/A" : String).data).length ≤ 8
    decide
  | cons f fs =>
    show (splitOnCharL '|'
      (clean_mounting_hole_core diaClsPy ⟨joinL ['|'] ((f :: fs).take 8)⟩).data).length ≤ 8
    refine Nat.le_trans
      (clean_mounting_hole_core_len diaClsPy ⟨joinL ['|'] ((f :: fs).take 8)⟩) ?_
    have hdata : ((⟨joinL ['|'] ((f :: fs).take 8)⟩ : String)).data =
        joinL ['|'] ((f :: fs).take 8) := rfl
    rw [hdata, splitOnCharL_length,
      joinL_count_sep '|' _ (fun p hp => hfree p (List.take_subset 8 (f :: fs) hp))]
    rw [List.length_take]
    omega

/-- **C10.** For every text and tables input, the result of
extract_mounting_hole splits on the pipe separator into at most 8
dimension entries: the discovery phase keeps only the first 8 values
found (found_values[:8]) before cleaning, so dimensions discovered
beyond the first 8 are silently dropped — a truncation limit the spec
does not state. -/
theorem C10_mounting_truncation (text : String) (tables : List Table)
    (h : extract_mounting_hole text tables ≠ "N/A") :
    (splitOnCharL '|' (extract_mounting_hole text tables).data).length ≤ 8 := by
  unfold extract_mounting_hole
  refine emh_match_bound _ ?_
  refine mountTables_inv tables _ ?_
  refine mountTextPass_inv text.data ([], []) ?_
  intro v hv
  exact absurd hv (List.not_mem_nil v)

/-- Witness for C10: a text carrying nine in-band dimension phrases keeps
exactly the first eight of them. -/
theorem C10_mounting_truncation_witness :
    extract_mounting_hole
      "11 to 2 12 to 2 13 to 2 14 to 2 15 to 2 16 to 2 17 to 2 18 to 2 19 to 2" [] ≠ "N/A" ∧
    (splitOnCharL '|' (extract_mounting_hole
      "11 to 2 12 to 2 13 to 2 14 to 2 15 to 2 16 to 2 17 to 2 18 to 2 19 to 2" []).data).length ≤ 8 :=
  ⟨by decide, C10_mounting_truncation _ [] (by decide)⟩


/-! ### Claim C8: SERIES confidence -/

theorem dfind_dset_self {α : Type} (m : List (String × α)) (k : String) (x : α) :
    dfind (dset m k x) k = some x := by
  induction m with
  | nil => simp [dset, dfind]
  | cons p t ih =>
    simp only [dset]
    by_cases hp : p.1 = k
    · rw [if_pos hp]
      simp [dfind]
    · rw [if_neg hp]
      unfold dfind at ih ⊢
      rw [List.find?_cons_of_neg _ (by simp [hp])]
      exact ih

theorem dfind_dset_other {α : Type} (m : List (String × α)) (k' k : String) (x : α)
    (h : k' ≠ k) :
    dfind (dset m k' x) k = dfind m k := by
  induction m with
  | nil =>
    simp only [dset]
    unfold dfind
    rw [List.find?_cons_of_neg _ (by simp [h])]
  | cons p t ih =>
    simp only [dset]
    by_cases hp : p.1 = k'
    · rw [if_pos hp]
      unfold dfind
      rw [List.find?_cons_of_neg _ (by simp [h]), List.find?_cons_of_neg _ (by simp [hp, h])]
    · rw [if_neg hp]
      unfold dfind at ih ⊢
      by_cases hpk : p.1 = k
      · rw [List.find?_cons_of_pos _ (by simp [hpk]), List.find?_cons_of_pos _ (by simp [hpk])]
      · rw [List.find?_cons_of_neg _ (by simp [hpk]), List.find?_cons_of_neg _ (by simp [hpk])]
        exact ih

theorem analyze_keeps (pages : Option (List String)) :
    ∀ (l : List (String × Option String)) (acc : List (String × FieldConf)),
      (∀ p ∈ l, p.1 ≠ "SERIES") →
      dfind (l.foldl
        (fun acc fv =>
          if ['_'].isPrefixOf fv.1.data then acc
          else dset acc fv.1 (analyze_field_conf fv.1 fv.2 pages)) acc) "SERIES" =
      dfind acc "SERIES" := by
  intro l
  induction l with
  | nil => intro acc _; rfl
  | cons fv t ih =>
    intro acc hne
    simp only [List.foldl_cons]
    rw [ih _ (fun p hp => hne p (List.mem_cons_of_mem fv hp))]
    by_cases hu : ['_'].isPrefixOf fv.1.data = true
    · rw [if_pos hu]
    · rw [if_neg hu]
      exact dfind_dset_other acc fv.1 "SERIES" _ (hne fv (List.mem_cons_self fv t))

theorem analyze_series_helper (pages : Option (List String)) :
    ∀ (l : List (String × Option String)) (acc : List (String × FieldConf))
      (v : Option String),
      (l.map Prod.fst).Nodup →
      dfind l "SERIES" = some v → v ≠ some "N/A" →
      dfind (l.foldl
        (fun acc fv =>
          if ['_'].isPrefixOf fv.1.data then acc
          else dset acc fv.1 (analyze_field_conf fv.1 fv.2 pages)) acc) "SERIES" =
      some ⟨"high", "\u00F0\u0178\u0178\u00A2", "Extracted from filename",
        some "Filename", none⟩ := by
  intro l
  induction l with
  | nil =>
    intro acc v _ hfind _
    exact absurd hfind (by simp [dfind])
  | cons fv t ih =>
    intro acc v hnd hfind hv
    simp only [List.map_cons, List.nodup_cons] at hnd
    simp only [List.foldl_cons]
    by_cases hk : fv.1 = "SERIES"
    · have hveq : fv.2 = v := by
        unfold dfind at hfind
        rw [List.find?_cons_of_pos _ (by simp [hk])] at hfind
        simpa using hfind
      have hus : ['_'].isPrefixOf fv.1.data = false := by rw [hk]; decide
      rw [if_neg (by simp [hus])]
      rw [hk, hveq]
      have hentry : analyze_field_conf "SERIES" v pages =
          ⟨"high", "\u00F0\u0178\u0178\u00A2", "Extracted from filename",
            some "Filename", none⟩ := by
        unfold analyze_field_conf
        rw [if_neg hv, if_pos rfl]
      rw [hentry]
      refine Eq.trans (analyze_keeps pages t _ ?_) (dfind_dset_self acc "SERIES" _)
      intro p hp hctr
      exact hnd.1 (hk ▸ hctr ▸ List.mem_map_of_mem Prod.fst hp)
    · have hfind2 : dfind t "SERIES" = some v := by
        unfold dfind at hfind ⊢
        rw [List.find?_cons_of_neg _ (by simp [hk])] at hfind
        exact hfind
      exact ih _ v hnd.2 hfind2 hv

/-- **C8 (counterexample).** When the SERIES value is itself the string
"N/A" (which extract_series_from_filename returns for an empty basename),
the first branch of analyze_extraction_confidence fires: SERIES is
classified "low" with source None, not "high" with source "Filename" as
the claim states for every SERIES value. -/
theorem C8_counterexample :
    analyze_extraction_confidence [("SERIES", some "N/A")] none =
      [("SERIES", ⟨"low", "\u00F0\u0178\u201D\u00B4", "Value not found in PDF",
        none, none⟩)] ∧
    ("low" : String) ≠ "high" := ⟨rfl, by decide⟩

/-- **C8 (amended).** For every record whose keys are distinct and whose
SERIES value is not the string "N/A", analyze_extraction_confidence gives
the SERIES field confidence "high" with source "Filename" (and the fixed
reason and icon of that branch); when the SERIES value is "N/A" the N/A
branch wins instead and yields "low". -/
theorem C8_series_confidence (result : List (String × Option String))
    (pages : Option (List String)) (v : Option String)
    (hnd : (result.map Prod.fst).Nodup)
    (hfind : dfind result "SERIES" = some v)
    (hv : v ≠ some "N/A") :
    dfind (analyze_extraction_confidence result pages) "SERIES" =
      some ⟨"high", "\u00F0\u0178\u0178\u00A2", "Extracted from filename",
        some "Filename", none⟩ := by
  unfold analyze_extraction_confidence
  exact analyze_series_helper pages result [] v hnd hfind hv

/-- Witness for the amended C8 theorem on a concrete two-field record. -/
theorem C8_series_confidence_witness :
    dfind (analyze_extraction_confidence
        [("SERIES", some "HS1T"), ("VOLTAGE", some "N/A")] none) "SERIES" =
      some ⟨"high", "\u00F0\u0178\u0178\u00A2", "Extracted from filename",
        some "Filename", none⟩ :=
  C8_series_confidence [("SERIES", some "HS1T"), ("VOLTAGE", some "N/A")] none
    (some "HS1T") (by decide) (by decide) (by decide)


/-! ### Claim C5: strict LED-color context -/

theorem led_fold_noop (cond : String → Bool) :
    ∀ l : List String, (∀ c ∈ l, cond c = false) →
    ∀ fc : List String,
      l.foldl (fun fc color =>
        if cond color then
          (if fc.contains (proper_capitalize color) then fc
           else fc ++ [proper_capitalize color])
        else fc) fc = fc := by
  intro l
  induction l with
  | nil => intro _ fc; rfl
  | cons x xs ih =>
    intro h fc
    simp only [List.foldl_cons]
    rw [if_neg (by simp [h x (List.mem_cons_self x xs)])]
    exact ih (fun c hc => h c (List.mem_cons_of_mem x hc)) fc

/-- **C5.** When the table phase accepts no color, no color satisfies any
of the eleven strict LED-context text patterns on the lowercased text, and
no color occurs as a word in the ordering-information section,
extract_led_color returns "N/A": a bare color word in free text is never
accepted on its own. -/
theorem C5_led_color_strict (text : String) (tables : List Table)
    (htb : ledTablePhase tables = ([], []))
    (htext : ∀ c ∈ ledColors, ledTextMatch c.data (lowL text.data) = false)
    (hord : ∀ c ∈ ledColors,
      searchAtoms [.bnd, .lit c.data, .bnd] none
        (lowL (search_ordering_info text tables).data) = false) :
    extract_led_color text tables = "N/A" := by
  unfold extract_led_color
  rw [htb]
  dsimp only
  rw [led_fold_noop _ ledColors htext]
  by_cases hot : (lowL (search_ordering_info text tables).data).isEmpty = true
  · rw [if_pos hot]
    rfl
  · rw [if_neg hot]
    rw [led_fold_noop _ ledColors hord]
    rfl

/-- Witness for C5: the spec scenario "the lens is red" with no tables
keeps LED COLOR at "N/A". -/
theorem C5_led_color_strict_witness :
    ledTablePhase [] = ([], []) ∧
    extract_led_color "the lens is red" [] = "N/A" :=
  ⟨rfl, C5_led_color_strict "the lens is red" [] rfl (by decide) (by decide)⟩


/-! ### Claim C1: total-field invariant of extract_from_buffer -/

theorem dset_self_isSome {α : Type} (m : List (String × α)) (k : String) (v : α) :
    (dfind (dset m k v) k).isSome = true := by
  rw [dfind_dset_self]
  rfl

theorem dset_keep_isSome {α : Type} (m : List (String × α)) (k k2 : String) (v : α)
    (h : (dfind m k2).isSome = true) : (dfind (dset m k v) k2).isSome = true := by
  by_cases he : k = k2
  · subst he
    exact dset_self_isSome m k v
  · rw [dfind_dset_other m k k2 v he]
    exact h

/-- **C1 (counterexample).** On a document whose PDF open raises, the
deterministic extract_from_buffer returns a specs record holding only
SERIES: every other schema field, e.g. MOUNTING HOLE, is absent from the
mapping, not present as "N/A"/null. -/
theorem C1_counterexample :
    (extract_from_buffer none "HS1T.pdf").1 = [("SERIES", some "HS1T")] ∧
    dfind (extract_from_buffer none "HS1T.pdf").1 "MOUNTING HOLE" = none :=
  ⟨rfl, rfl⟩

/-- **C1 (amended).** When the buffer parses (and the filename yields a
series without raising), the specs record contains every schema field:
SERIES, MOUNTING HOLE, VOLTAGE, SEALING, LED COLOR, TYPE OF ILLUMINATION,
BEZEL STYLE, TERMINALS and BEZEL FINISH are all present. On a parse
failure only SERIES survives, and on an IndexError from the filename the
record is empty. -/
theorem C1_fields_present (text : String) (tables : List Table)
    (filename series : String)
    (hser : extract_series_from_filename filename = .ok series) :
    ∀ col ∈ ["SERIES", "MOUNTING HOLE", "VOLTAGE", "SEALING", "LED COLOR",
             "TYPE OF ILLUMINATION", "BEZEL STYLE", "TERMINALS", "BEZEL FINISH"],
      (dfind (extract_from_buffer (some (text, tables)) filename).1 col).isSome = true := by
  intro col hcol
  unfold extract_from_buffer
  rw [hser]
  dsimp only
  simp only [List.mem_cons, List.mem_singleton, List.not_mem_nil, or_false] at hcol
  rcases hcol with rfl | rfl | rfl | rfl | rfl | rfl | rfl | rfl | rfl <;>
    (repeat first
      | exact dset_self_isSome _ _ _
      | apply dset_keep_isSome) <;>
    simp [dfind]

/-- Witness for the amended C1 theorem: a successfully parsed empty
document still carries the MOUNTING HOLE key. -/
theorem C1_fields_present_witness :
    (dfind (extract_from_buffer (some ("", [])) "HS1T.pdf").1 "MOUNTING HOLE").isSome = true :=
  C1_fields_present "" [] "HS1T.pdf" "HS1T" rfl "MOUNTING HOLE" (by decide)


/-! ## Claim C2: the dedup invariant of extract_voltage -/

theorem vgood_digit {c : Char} (h : c.isDigit = true) : vgoodChar c := by
  refine ⟨?_, ?_, ?_⟩ <;> rintro rfl <;> revert h <;> decide

theorem vgood_dot : vgoodChar '.' := ⟨by decide, by decide, by decide⟩

theorem vgood_slash : vgoodChar '/' := ⟨by decide, by decide, by decide⟩

theorem vgood_ws {c : Char} (h : pyWs c = true) : vgoodChar c := by
  refine ⟨?_, ?_, ?_⟩ <;> rintro rfl <;> revert h <;> decide

theorem vgood_alnum {c : Char} (h : c.isAlphanum = true) : vgoodChar c := by
  refine ⟨?_, ?_, ?_⟩ <;> rintro rfl <;> revert h <;> decide

theorem vgood_low {c x : Char} (h : lowC c = x)
    (hx : x ≠ ':' ∧ x ≠ '|' ∧ x ≠ '\x7d') : vgoodChar c := by
  refine ⟨fun he => ?_, fun he => ?_, fun he => ?_⟩
  · exact hx.1 (by rw [← h, he]; decide)
  · exact hx.2.1 (by rw [← h, he]; decide)
  · exact hx.2.2 (by rw [← h, he]; decide)

theorem vgood_wsRun {s : List Char} : ∀ c ∈ (takeRun pyWs s).1, vgoodChar c :=
  fun c hc => vgood_ws (takeRun_chars c hc)

theorem vgood_numG {s g r : List Char} (h : numGroup s = some (g, r)) :
    ∀ c ∈ g, vgoodChar c :=
  fun c hc => (numGroup_chars h c hc).elim vgood_digit (fun he => he ▸ vgood_dot)

theorem vTail_vgood {s : List Char} {k : Nat} {txt : List Char}
    (h : vTail s = some (k, txt)) : ∀ c ∈ txt, vgoodChar c := by
  simp only [vTail] at h
  split at h
  · rename_i v r2 hr1
    split at h
    · rename_i hv
      split at h
      · rename_i a b rest
        split at h
        · rename_i hab
          injection h with hp
          injection hp with hk htxt
          rw [← htxt]
          intro c hc
          rcases List.mem_append.mp hc with hc | hc
          · exact vgood_ws (takeRun_chars c hc)
          · rcases List.mem_cons.mp hc with hc | hc
            · exact hc ▸ vgood_low hv (by refine ⟨?_, ?_, ?_⟩ <;> decide)
            · rcases List.mem_append.mp hc with hc | hc
              · exact vgood_ws (takeRun_chars c hc)
              · rcases List.mem_cons.mp hc with hc | hc
                · rcases hab.1 with hd | hd
                  · exact hc ▸ vgood_low hd (by refine ⟨?_, ?_, ?_⟩ <;> decide)
                  · exact hc ▸ vgood_low hd (by refine ⟨?_, ?_, ?_⟩ <;> decide)
                · rcases List.mem_cons.mp hc with hc | hc
                  · exact hc ▸ vgood_low hab.2 (by refine ⟨?_, ?_, ?_⟩ <;> decide)
                  · exact absurd hc (List.not_mem_nil c)
        · exact Option.noConfusion h
      · exact Option.noConfusion h
    · exact Option.noConfusion h
  · exact Option.noConfusion h

theorem mVolt1_vgood {s : List Char} {k : Nat} {txt : List Char}
    (h : mVolt1 s = some (k, txt)) : ∀ c ∈ txt, vgoodChar c := by
  simp only [mVolt1] at h
  split at h
  · exact Option.noConfusion h
  · rename_i g1 r1 hg1
    split at h
    · rename_i r3 hr2
      split at h
      · exact Option.noConfusion h
      · rename_i g2 r5 hg2
        split at h
        · exact Option.noConfusion h
        · rename_i tl ttxt htl
          injection h with hp
          injection hp with hk htxt
          rw [← htxt]
          intro c hc
          rcases List.mem_append.mp hc with hc | hc
          · rcases List.mem_append.mp hc with hc | hc
            · exact vgood_numG hg1 c hc
            · exact vgood_ws (takeRun_chars c hc)
          · rcases List.mem_cons.mp hc with hc | hc
            · exact hc ▸ vgood_slash
            · rcases List.mem_append.mp hc with hc | hc
              · rcases List.mem_append.mp hc with hc | hc
                · exact vgood_ws (takeRun_chars c hc)
                · exact vgood_numG hg2 c hc
              · exact vTail_vgood htl c hc
    · exact Option.noConfusion h

theorem mVolt2_vgood {s : List Char} {k : Nat} {txt : List Char}
    (h : mVolt2 s = some (k, txt)) : ∀ c ∈ txt, vgoodChar c := by
  simp only [mVolt2] at h
  split at h
  · exact Option.noConfusion h
  · rename_i g r hg
    split at h
    · exact Option.noConfusion h
    · rename_i tl ttxt htl
      injection h with hp
      injection hp with hk htxt
      rw [← htxt]
      intro c hc
      rcases List.mem_append.mp hc with hc | hc
      · exact vgood_numG hg c hc
      · exact vTail_vgood htl c hc

theorem mVolt3_vgood {s : List Char} {k : Nat} {txt : List Char}
    (h : mVolt3 s = some (k, txt)) : ∀ c ∈ txt, vgoodChar c := by
  simp only [mVolt3] at h
  split at h
  · exact Option.noConfusion h
  · rename_i g r hg
    split at h
    · rename_i v a b rest
      split at h
      · rename_i hvab
        injection h with hp
        injection hp with hk htxt
        rw [← htxt]
        intro c hc
        rcases List.mem_append.mp hc with hc | hc
        · rcases List.mem_append.mp hc with hc | hc
          · exact vgood_numG hg c hc
          · exact vgood_ws (takeRun_chars c hc)
        · rcases List.mem_cons.mp hc with hc | hc
          · exact hc ▸ vgood_low hvab.1 (by refine ⟨?_, ?_, ?_⟩ <;> decide)
          · rcases List.mem_cons.mp hc with hc | hc
            · rcases hvab.2.1 with hd | hd
              · exact hc ▸ vgood_low hd (by refine ⟨?_, ?_, ?_⟩ <;> decide)
              · exact hc ▸ vgood_low hd (by refine ⟨?_, ?_, ?_⟩ <;> decide)
            · rcases List.mem_cons.mp hc with hc | hc
              · exact hc ▸ vgood_low hvab.2.2 (by refine ⟨?_, ?_, ?_⟩ <;> decide)
              · exact absurd hc (List.not_mem_nil c)
      · exact Option.noConfusion h
    · exact Option.noConfusion h

theorem mVolt4_vgood {s : List Char} {k : Nat} {txt : List Char}
    (h : mVolt4 s = some (k, txt)) : ∀ c ∈ txt, vgoodChar c := by
  simp only [mVolt4] at h
  split at h
  · exact Option.noConfusion h
  · rename_i g1 r1 hg1
    split at h
    · rename_i t1 o1 r3
      split at h
      · rename_i hto
        split at h
        · exact Option.noConfusion h
        · rename_i g2 r5 hg2
          split at h
          · exact Option.noConfusion h
          · rename_i tl ttxt htl
            injection h with hp
            injection hp with hk htxt
            rw [← htxt]
            intro c hc
            rcases List.mem_append.mp hc with hc | hc
            · rcases List.mem_append.mp hc with hc | hc
              · exact vgood_numG hg1 c hc
              · exact vgood_ws (takeRun_chars c hc)
            · rcases List.mem_cons.mp hc with hc | hc
              · exact hc ▸ vgood_low hto.1 (by refine ⟨?_, ?_, ?_⟩ <;> decide)
              · rcases List.mem_cons.mp hc with hc | hc
                · exact hc ▸ vgood_low hto.2 (by refine ⟨?_, ?_, ?_⟩ <;> decide)
                · rcases List.mem_append.mp hc with hc | hc
                  · rcases List.mem_append.mp hc with hc | hc
                    · exact vgood_ws (takeRun_chars c hc)
                    · exact vgood_numG hg2 c hc
                  · exact vTail_vgood htl c hc
      · exact Option.noConfusion h
    · exact Option.noConfusion h

theorem mVolt5_vgood {dashSet s : List Char} {k : Nat} {txt : List Char}
    (hd : ∀ d ∈ dashSet, vgoodChar d)
    (h : mVolt5 dashSet s = some (k, txt)) : ∀ c ∈ txt, vgoodChar c := by
  simp only [mVolt5] at h
  split at h
  · exact Option.noConfusion h
  · rename_i g1 r1 hg1
    split at h
    · rename_i d r2
      split at h
      · rename_i hdc
        split at h
        · exact Option.noConfusion h
        · rename_i g2 r3 hg2
          split at h
          · exact Option.noConfusion h
          · rename_i tl ttxt htl
            injection h with hp
            injection hp with hk htxt
            rw [← htxt]
            intro c hc
            rcases List.mem_append.mp hc with hc | hc
            · exact vgood_numG hg1 c hc
            · rcases List.mem_cons.mp hc with hc | hc
              · exact hc ▸ hd d (List.mem_of_elem_eq_true hdc)
              · rcases List.mem_append.mp hc with hc | hc
                · exact vgood_numG hg2 c hc
                · exact vTail_vgood htl c hc
      · exact Option.noConfusion h
    · exact Option.noConfusion h

theorem voltMatchers_vgood {dashSet : List Char} (hd : ∀ d ∈ dashSet, vgoodChar d) :
    ∀ m ∈ voltMatchers dashSet, ∀ s k txt, m s = some (k, txt) → ∀ c ∈ txt, vgoodChar c := by
  intro m hm
  simp only [voltMatchers, List.mem_cons, List.not_mem_nil, or_false] at hm
  rcases hm with rfl | rfl | rfl | rfl | rfl
  · exact fun s k txt h => mVolt1_vgood h
  · exact fun s k txt h => mVolt2_vgood h
  · exact fun s k txt h => mVolt3_vgood h
  · exact fun s k txt h => mVolt4_vgood h
  · exact fun s k txt h => mVolt5_vgood hd h


theorem scanSub_chars_or {P : Char → Prop} {m : List Char → Option (Nat × List Char)}
    (hm : ∀ u k r, m u = some (k, r) → ∀ c ∈ r, P c) :
    ∀ (fuel : Nat) (s : List Char) (c : Char), c ∈ scanSub m fuel s → c ∈ s ∨ P c := by
  intro fuel
  induction fuel with
  | zero => intro s c hc; exact Or.inl hc
  | succ f ih =>
    intro s c hc
    cases s with
    | nil => exact Or.inl hc
    | cons a t =>
      simp only [scanSub] at hc
      cases hmc : m (a :: t) with
      | none =>
        rw [hmc] at hc
        replace hc : c ∈ a :: scanSub m f t := hc
        rcases List.mem_cons.mp hc with hc | hc
        · exact Or.inl (hc ▸ List.mem_cons_self a t)
        · rcases ih t c hc with h2 | h2
          · exact Or.inl (List.mem_cons_of_mem a h2)
          · exact Or.inr h2
      | some p =>
        obtain ⟨k, rep⟩ := p
        rw [hmc] at hc
        replace hc : c ∈ rep ++ scanSub m f (List.drop (k - 1) t) := hc
        rcases List.mem_append.mp hc with hc | hc
        · exact Or.inr (hm _ k rep hmc c hc)
        · rcases ih _ c hc with h2 | h2
          · exact Or.inl (List.mem_cons_of_mem a (List.mem_of_mem_drop h2))
          · exact Or.inr h2

theorem mNum_rep_vgood (x : Char) (hx : vgoodChar (uppC x)) :
    ∀ u k r, mNum x u = some (k, r) → ∀ c ∈ r, vgoodChar c := by
  intro u k r h
  simp only [mNum] at h
  split at h
  · exact Option.noConfusion h
  · rename_i g rest hg
    split at h
    · split at h
      · injection h with hp
        injection hp with hk hr
        rw [← hr]
        intro c hc
        rcases List.mem_append.mp hc with hc | hc
        · exact vgood_numG hg c hc
        · rcases List.mem_cons.mp hc with hc | hc
          · exact hc ▸ ⟨by decide, by decide, by decide⟩
          · rcases List.mem_cons.mp hc with hc | hc
            · exact hc ▸ ⟨by decide, by decide, by decide⟩
            · rcases List.mem_cons.mp hc with hc | hc
              · exact hc ▸ hx
              · rcases List.mem_cons.mp hc with hc | hc
                · exact hc ▸ ⟨by decide, by decide, by decide⟩
                · exact absurd hc (List.not_mem_nil c)
      · exact Option.noConfusion h
    · exact Option.noConfusion h

theorem mVws_rep_vgood (x : Char) (hx : vgoodChar x) :
    ∀ u k r, mVws x u = some (k, r) → ∀ c ∈ r, vgoodChar c := by
  intro u k r h
  simp only [mVws] at h
  split at h
  · rename_i rest
    split at h
    · exact Option.noConfusion h
    · split at h
      · split at h
        · injection h with hp
          injection hp with hk hr
          rw [← hr]
          intro c hc
          rcases List.mem_cons.mp hc with hc | hc
          · exact hc ▸ ⟨by decide, by decide, by decide⟩
          · rcases List.mem_cons.mp hc with hc | hc
            · exact hc ▸ ⟨by decide, by decide, by decide⟩
            · rcases List.mem_cons.mp hc with hc | hc
              · exact hc ▸ hx
              · rcases List.mem_cons.mp hc with hc | hc
                · exact hc ▸ ⟨by decide, by decide, by decide⟩
                · exact absurd hc (List.not_mem_nil c)
        · exact Option.noConfusion h
      · exact Option.noConfusion h
  · exact Option.noConfusion h

theorem mSlash_rep_vgood :
    ∀ u k r, mSlash u = some (k, r) → ∀ c ∈ r, vgoodChar c := by
  intro u k r h
  simp only [mSlash] at h
  split at h
  · exact Option.noConfusion h
  · rename_i d1 rest hne hd1
    split at h
    · rename_i rest3 hr2
      split at h
      · exact Option.noConfusion h
      · rename_i d2 rest5 hne2 hd2
        injection h with hp
        injection hp with hk hr
        rw [← hr]
        intro c hc
        have hdig1 : ∀ c ∈ d1, c.isDigit = true := by
          intro c2 hc2
          have := @takeRun_chars Char.isDigit u
          rw [hd1] at this
          exact this c2 hc2
        have hdig2 : ∀ c ∈ d2, c.isDigit = true := by
          intro c2 hc2
          have := @takeRun_chars Char.isDigit (takeRun pyWs rest3).2
          rw [hd2] at this
          exact this c2 hc2
        rcases List.mem_append.mp hc with hc | hc
        · exact vgood_digit (hdig1 c hc)
        · rcases List.mem_cons.mp hc with hc | hc
          · exact hc ▸ vgood_slash
          · exact vgood_digit (hdig2 c hc)
    · exact Option.noConfusion h

theorem sv_vgood {s : List Char} (h : ∀ c ∈ s, vgoodChar c) :
    ∀ c ∈ (standardize_voltage ⟨s⟩).data, vgoodChar c := by
  intro c hc
  unfold standardize_voltage at hc
  split at hc
  · exact h c hc
  · replace hc : c ∈ runSub mSlash (runSub (mVws 'A') (runSub (mVws 'D')
      (runSub (mNum 'a') (runSub (mNum 'd') (stripL s))))) := hc
    unfold runSub at hc
    rcases scanSub_chars_or mSlash_rep_vgood _ _ c hc with hc | hg
    · rcases scanSub_chars_or (mVws_rep_vgood 'A' ⟨by decide, by decide, by decide⟩)
        _ _ c hc with hc | hg
      · rcases scanSub_chars_or (mVws_rep_vgood 'D' ⟨by decide, by decide, by decide⟩)
          _ _ c hc with hc | hg
        · rcases scanSub_chars_or (mNum_rep_vgood 'a' ⟨by decide, by decide, by decide⟩)
            _ _ c hc with hc | hg
          · rcases scanSub_chars_or (mNum_rep_vgood 'd' ⟨by decide, by decide, by decide⟩)
              _ _ c hc with hc | hg
            · exact h c (stripL_subset c hc)
            · exact hg
          · exact hg
        · exact hg
      · exact hg
    · exact hg


theorem takeWhile_all {p : Char → Bool} {l : List Char} (h : ∀ c ∈ l, p c = true) :
    l.takeWhile p = l := by
  induction l with
  | nil => rfl
  | cons a t ih =>
    rw [List.takeWhile_cons, if_pos (h a (List.mem_cons_self a t)),
        ih (fun c hc => h c (List.mem_cons_of_mem a hc))]

theorem takeWhile_append_left {p : Char → Bool} :
    ∀ (l1 l2 : List Char), (∃ c ∈ l1, p c = false) →
      (l1 ++ l2).takeWhile p = l1.takeWhile p := by
  intro l1
  induction l1 with
  | nil =>
    rintro l2 ⟨c, hc, _⟩
    exact absurd hc (List.not_mem_nil c)
  | cons a t ih =>
    rintro l2 ⟨c, hc, hp⟩
    by_cases hpa : p a = true
    · rw [List.cons_append, List.takeWhile_cons, if_pos hpa, List.takeWhile_cons, if_pos hpa]
      have hct : c ∈ t := by
        rcases List.mem_cons.mp hc with hc | hc
        · subst hc
          rw [hp] at hpa
          exact Bool.noConfusion hpa
        · exact hc
      rw [ih l2 ⟨c, hct, hp⟩]
    · rw [List.cons_append, List.takeWhile_cons, if_neg hpa, List.takeWhile_cons, if_neg hpa]

theorem lastIdxOf_append_last (c : Char) (l : List Char) (h : c ∉ l) :
    lastIdxOf c (l ++ [c]) = some l.length := by
  induction l with
  | nil => simp [lastIdxOf]
  | cons a t ih =>
    have hat : c ∉ t := fun hm => h (List.mem_cons_of_mem a hm)
    simp only [List.cons_append, lastIdxOf, List.append_eq]
    rw [ih hat]
    rfl

theorem lastIdxOf_none (c : Char) (l : List Char) (h : c ∉ l) : lastIdxOf c l = none := by
  induction l with
  | nil => rfl
  | cons a t ih =>
    have hat : c ∉ t := fun hm => h (List.mem_cons_of_mem a hm)
    have haa : ¬(a = c) := fun he => h (he ▸ List.mem_cons_self a t)
    simp only [lastIdxOf]
    rw [ih hat, if_neg haa]

theorem braceGroup_closed (content : List Char) (hne : content ≠ [])
    (hnb : '\x7d' ∉ content) (hnl : '\n' ∉ content) :
    braceGroup ('\x7b' :: (content ++ ['\x7d'])) = some content := by
  have ht : ((content ++ ['\x7d']).takeWhile (fun c => c ≠ '\n')) = content ++ ['\x7d'] := by
    apply takeWhile_all
    intro c hc
    rcases List.mem_append.mp hc with hc | hc
    · have : c ≠ '\n' := fun he => hnl (he ▸ hc)
      simp [this]
    · rw [List.mem_singleton.mp hc]
      decide
  simp only [braceGroup]
  rw [ht, lastIdxOf_append_last '\x7d' content hnb]
  show (if 1 ≤ content.length then some ((content ++ ['\x7d']).take content.length)
        else none) = some content
  rw [if_pos (by cases content with | nil => exact absurd rfl hne | cons a t => simp),
      List.take_left]

theorem braceGroup_open (content : List Char) (hnb : '\x7d' ∉ content)
    (hnl : '\n' ∈ content) :
    braceGroup ('\x7b' :: (content ++ ['\x7d'])) = none := by
  have ht : ((content ++ ['\x7d']).takeWhile (fun c => c ≠ '\n')) =
      content.takeWhile (fun c => c ≠ '\n') := by
    apply takeWhile_append_left
    exact ⟨'\n', hnl, by simp⟩
  have hsub : '\x7d' ∉ content.takeWhile (fun c => c ≠ '\n') :=
    fun hm => hnb ((List.takeWhile_sublist _).subset hm)
  simp only [braceGroup]
  rw [ht, lastIdxOf_none '\x7d' _ hsub]

theorem stripL_id_of_all {l : List Char} (h : ∀ c ∈ l, pyWs c = false) : stripL l = l := by
  unfold stripL
  have h1 : l.dropWhile pyWs = l := by
    cases l with
    | nil => rfl
    | cons a t =>
      rw [List.dropWhile_cons, if_neg (by simp [h a (List.mem_cons_self a t)])]
  rw [h1]
  have h2 : l.reverse.dropWhile pyWs = l.reverse := by
    cases hr : l.reverse with
    | nil => rfl
    | cons a t =>
      have ha : a ∈ l := by
        rw [← List.mem_reverse, hr]
        exact List.mem_cons_self a t
      rw [List.dropWhile_cons, if_neg (by simp [h a ha])]
  rw [h2, List.reverse_reverse]

theorem dropWhile_append_cases {p : Char → Bool} :
    ∀ (l1 l2 : List Char), (l1 ++ l2).dropWhile p =
      if (l1.dropWhile p).isEmpty then l2.dropWhile p else l1.dropWhile p ++ l2 := by
  intro l1
  induction l1 with
  | nil => intro l2; simp
  | cons a t ih =>
    intro l2
    by_cases hp : p a = true
    · rw [List.cons_append, List.dropWhile_cons, if_pos hp, List.dropWhile_cons, if_pos hp, ih]
    · rw [List.cons_append, List.dropWhile_cons, if_neg hp, List.dropWhile_cons, if_neg hp]
      simp

theorem stripL_shape_b {cd val : List Char} (h1 : cd ≠ [])
    (h2 : ∀ c ∈ cd, pyWs c = false) :
    ∃ val2, stripL (cd ++ ':' :: val) = cd ++ ':' :: val2 ∧ ∀ c ∈ val2, c ∈ val := by
  unfold stripL
  have hA : (cd ++ ':' :: val).dropWhile pyWs = cd ++ ':' :: val := by
    cases cd with
    | nil => exact absurd rfl h1
    | cons a t =>
      have hna : ¬(pyWs a = true) := by simp [h2 a (List.mem_cons_self a t)]
      rw [List.cons_append, List.dropWhile_cons, if_neg hna]
  rw [hA]
  have hrev : (cd ++ ':' :: val).reverse = val.reverse ++ ':' :: cd.reverse := by
    simp [List.reverse_append]
  rw [hrev, dropWhile_append_cases]
  by_cases hve : (val.reverse.dropWhile pyWs).isEmpty = true
  · rw [if_pos hve, List.dropWhile_cons, if_neg (by decide)]
    refine ⟨[], by simp, ?_⟩
    intro c hc
    exact absurd hc (List.not_mem_nil c)
  · rw [if_neg hve]
    refine ⟨(val.reverse.dropWhile pyWs).reverse, by simp, ?_⟩
    intro c hc
    rw [List.mem_reverse] at hc
    have h3 := (List.dropWhile_sublist _).subset hc
    exact List.mem_reverse.mp h3

theorem splitFirstColon_append {cd val : List Char} (h : ':' ∉ cd) :
    splitFirstColon (cd ++ ':' :: val) = (cd, val) := by
  induction cd with
  | nil => simp [splitFirstColon]
  | cons a t ih =>
    have hat : ':' ∉ t := fun hm => h (List.mem_cons_of_mem a hm)
    have haa : ¬(a = ':') := fun he => h (List.mem_cons.mpr (Or.inl he.symm))
    simp only [List.cons_append, splitFirstColon, List.append_eq]
    rw [if_neg haa, ih hat]

theorem splitOnCharL_single {sep : Char} {x : List Char} (h : sep ∉ x) :
    splitOnCharL sep x = [x] := by
  induction x with
  | nil => rfl
  | cons a t ih =>
    have hat : sep ∉ t := fun hm => h (List.mem_cons_of_mem a hm)
    have haa : ¬(a = sep) := fun he => h (List.mem_cons.mpr (Or.inl he.symm))
    simp only [splitOnCharL]
    rw [if_neg haa, ih hat]

theorem splitOnCharL_append_sep {sep : Char} {x rest : List Char} (h : sep ∉ x) :
    splitOnCharL sep (x ++ sep :: rest) = x :: splitOnCharL sep rest := by
  induction x with
  | nil =>
    simp [splitOnCharL]
  | cons a t ih =>
    have hat : sep ∉ t := fun hm => h (List.mem_cons_of_mem a hm)
    have haa : ¬(a = sep) := fun he => h (List.mem_cons.mpr (Or.inl he.symm))
    simp only [List.cons_append, splitOnCharL, List.append_eq]
    rw [if_neg haa, ih hat]

theorem splitOnCharL_joinL (sep : Char) :
    ∀ parts : List (List Char), parts ≠ [] → (∀ p ∈ parts, sep ∉ p) →
      splitOnCharL sep (joinL [sep] parts) = parts := by
  intro parts
  induction parts with
  | nil => intro h _; exact absurd rfl h
  | cons x r ih =>
    intro _ hfree
    cases r with
    | nil => exact splitOnCharL_single (hfree x (List.mem_cons_self x []))
    | cons y r2 =>
      have hj : joinL [sep] (x :: y :: r2) = x ++ sep :: joinL [sep] (y :: r2) := by
        simp [joinL, List.append_assoc]
      rw [hj, splitOnCharL_append_sep (hfree x (List.mem_cons_self x _)),
          ih (by simp) (fun p hp => hfree p (List.mem_cons_of_mem x hp))]

theorem take_ne_nil2 {α : Type} {l : List α} (n : Nat) (h : l ≠ []) (hn : n ≠ 0) :
    l.take n ≠ [] := by
  cases l with
  | nil => exact absurd rfl h
  | cons a t =>
    cases n with
    | zero => exact absurd rfl hn
    | succ m => simp [List.take]


theorem containsC_iff {α : Type} [BEq α] [LawfulBEq α] {l : List α} {c : α} :
    l.contains c = true ↔ c ∈ l := by
  simp [List.contains]

theorem pyWs_of_alnum {c : Char} (h : c.isAlphanum = true) : pyWs c = false := by
  cases hw : pyWs c
  · rfl
  · exfalso
    rcases (isAlphanum_iff c).mp h with ⟨a, b⟩ | ⟨a, b⟩ | ⟨a, b⟩ <;>
      rcases (pyWs_iff c).mp hw with h9 | h9 | h9 | h9 | h9 | h9 <;> omega

theorem uppC_alnum {c : Char} (h : c.isAlphanum = true) : (uppC c).isAlphanum = true := by
  rw [isAlphanum_iff] at h
  have hg : (uppC c).isAlphanum = c.toUpper.isAlphanum := rfl
  rw [hg, isAlphanum_iff, uppC_toNat]
  by_cases h9 : 97 ≤ c.toNat ∧ c.toNat ≤ 122
  · rw [if_pos h9]
    omega
  · rw [if_neg h9]
    omega

theorem forall2_mem_left {α β : Type} {R : α → β → Prop} :
    ∀ {l1 : List α} {l2 : List β}, List.Forall₂ R l1 l2 → ∀ x ∈ l1, ∃ y ∈ l2, R x y := by
  intro l1 l2 h
  induction h with
  | nil =>
    intro x hx
    exact absurd hx (List.not_mem_nil x)
  | cons h1 h2 ih =>
    rename_i a b t1 t2
    intro x hx
    rcases List.mem_cons.mp hx with hx | hx
    · exact ⟨b, List.mem_cons_self b t2, hx ▸ h1⟩
    · obtain ⟨y, hy, hR⟩ := ih x hx
      exact ⟨y, List.mem_cons_of_mem b hy, hR⟩

theorem isEmpty_false_ne_nil {α : Type} {l : List α} (h : ¬l.isEmpty = true) : l ≠ [] := by
  cases l with
  | nil => exact absurd rfl h
  | cons a t => simp

theorem joinL_mem {sep : Char} :
    ∀ (parts : List (List Char)), ∀ c ∈ joinL [sep] parts, c = sep ∨ ∃ p ∈ parts, c ∈ p := by
  intro parts
  induction parts with
  | nil =>
    intro c hc
    exact absurd hc (List.not_mem_nil c)
  | cons x r ih =>
    intro c hc
    cases r with
    | nil => exact Or.inr ⟨x, List.mem_cons_self x [], hc⟩
    | cons y r2 =>
      replace hc : c ∈ x ++ [sep] ++ joinL [sep] (y :: r2) := hc
      rcases List.mem_append.mp hc with hc | hc
      · rcases List.mem_append.mp hc with hc | hc
        · exact Or.inr ⟨x, List.mem_cons_self x _, hc⟩
        · exact Or.inl (List.mem_singleton.mp hc)
      · rcases ih c hc with hc | ⟨p, hp, hcp⟩
        · exact Or.inl hc
        · exact Or.inr ⟨p, List.mem_cons_of_mem x hp, hcp⟩

theorem joinL_ne_nil_of_head {sep : Char} {p : List Char} {rest : List (List Char)}
    (h : p ≠ []) : joinL [sep] (p :: rest) ≠ [] := by
  cases rest with
  | nil => exact h
  | cons y r2 =>
    intro he
    replace he : p ++ [sep] ++ joinL [sep] (y :: r2) = [] := he
    rcases List.append_eq_nil.mp he with ⟨he1, _⟩
    rcases List.append_eq_nil.mp he1 with ⟨hp, _⟩
    exact h hp



theorem forall2_append_single {α β : Type} {R : α → β → Prop} {l1 : List α} {l2 : List β}
    (h : List.Forall₂ R l1 l2) {a : α} {b : β} (hab : R a b) :
    List.Forall₂ R (l1 ++ [a]) (l2 ++ [b]) := by
  induction h with
  | nil => exact List.Forall₂.cons hab List.Forall₂.nil
  | cons h1 h2 ih => exact List.Forall₂.cons h1 ih

theorem cadv_pairwise_of_J {l1 l2 : List (List Char)}
    (h : List.Forall₂ (fun seg vl => lowL (segValue seg) = vl ∧ '|' ∉ seg) l1 l2)
    (hp : l2.Pairwise (fun a b => a ≠ b)) :
    l1.Pairwise (fun a b => lowL (segValue a) ≠ lowL (segValue b)) := by
  induction h with
  | nil => exact List.Pairwise.nil
  | cons h1 h3 ih =>
    rcases List.pairwise_cons.mp hp with ⟨hb, hp2⟩
    refine List.Pairwise.cons ?_ (ih hp2)
    intro x hx
    obtain ⟨y, hy, hR⟩ := forall2_mem_left h3 x hx
    rw [h1.1, hR.1]
    exact hb y hy

theorem dset_forall {α : Type} {P : String × α → Prop} :
    ∀ (m : List (String × α)) (k : String) (v : α),
      (∀ p ∈ m, P p) → P (k, v) → ∀ p ∈ dset m k v, P p := by
  intro m
  induction m with
  | nil =>
    intro k v _ hkv p hp
    rw [List.mem_singleton.mp hp]
    exact hkv
  | cons a t ih =>
    intro k v hm hkv p hp
    simp only [dset] at hp
    by_cases he : a.1 = k
    · rw [if_pos he] at hp
      rcases List.mem_cons.mp hp with hp | hp
      · rw [hp]
        exact hkv
      · exact hm p (List.mem_cons_of_mem a hp)
    · rw [if_neg he] at hp
      rcases List.mem_cons.mp hp with hp | hp
      · rw [hp]
        exact hm a (List.mem_cons_self a t)
      · exact ih k v (fun q hq => hm q (List.mem_cons_of_mem a hq)) hkv p hp

theorem dedupInvariant_NA : dedupInvariant "N/A" := by
  unfold dedupInvariant
  have h : fieldSegments "N/A" = [] := rfl
  rw [h]
  exact List.Pairwise.nil

theorem fieldSegments_brace {cleaned : List (List Char)} (hne : cleaned ≠ [])
    (hfree : ∀ p ∈ cleaned, '|' ∉ p) :
    fieldSegments ⟨'\x7b' :: (joinL ['|'] cleaned ++ ['\x7d'])⟩ = cleaned := by
  unfold fieldSegments
  show (if (joinL ['|'] cleaned ++ ['\x7d']).getLast? = some '\x7d'
        then splitOnCharL '|' (joinL ['|'] cleaned ++ ['\x7d']).dropLast else []) = cleaned
  rw [List.getLast?_concat, if_pos rfl, List.dropLast_concat,
      splitOnCharL_joinL '|' cleaned hne hfree]

theorem cadvStep_no_colon {vt : String} {st : List (List Char) × List (List Char)}
    {item0 : List Char} (hci : (stripL item0).contains ':' = false) :
    cadvStep vt st item0 =
      if (stripL item0).isEmpty = true then st
      else if st.2.contains (lowL (cadvTransform vt (stripL item0))) = true then st
      else (st.1 ++ [cadvTransform vt (stripL item0)],
            st.2 ++ [lowL (cadvTransform vt (stripL item0))]) := by
  have hm : ':' ∉ stripL item0 := fun h => by
    rw [containsC_iff.mpr h] at hci
    exact Bool.noConfusion hci
  simp [cadvStep, hm]

theorem cadvStep_colon {vt : String} {st : List (List Char) × List (List Char)}
    {item0 cd val2 : List Char} (hstrip : stripL item0 = cd ++ ':' :: val2)
    (hcd : ':' ∉ cd) (hcdws : ∀ c ∈ cd, pyWs c = false) :
    cadvStep vt st item0 =
      if st.2.contains (lowL (cadvTransform vt (stripL val2))) = true then st
      else if cd.isEmpty = true
        then (st.1 ++ [cadvTransform vt (stripL val2)],
              st.2 ++ [lowL (cadvTransform vt (stripL val2))])
        else (st.1 ++ [cd ++ ':' :: cadvTransform vt (stripL val2)],
              st.2 ++ [lowL (cadvTransform vt (stripL val2))]) := by
  have hie : (cd ++ ':' :: val2).isEmpty = false := by
    cases cd with
    | nil => rfl
    | cons a t => rfl
  have hct : (cd ++ ':' :: val2).contains ':' = true :=
    containsC_iff.mpr (List.mem_append.mpr (Or.inr (List.mem_cons_self ':' val2)))
  simp [cadvStep, hstrip, hie, hct, splitFirstColon_append hcd, stripL_id_of_all hcdws]

theorem cadvStep_inv (vt : String)
    (htr : ∀ v, (∀ c ∈ v, vgoodChar c) → ∀ c ∈ cadvTransform vt v, vgoodChar c)
    (st : List (List Char) × List (List Char)) (item0 : List Char)
    (hgood : (∀ c ∈ item0, vgoodChar c) ∨
      ∃ cd val, item0 = cd ++ ':' :: val ∧ cd ≠ [] ∧
        (∀ c ∈ cd, c.isAlphanum = true) ∧ (∀ c ∈ val, vgoodChar c))
    (hJ : cadvJ st) (hP : st.2.Pairwise (fun a b => a ≠ b)) :
    cadvJ (cadvStep vt st item0) ∧ (cadvStep vt st item0).2.Pairwise (fun a b => a ≠ b) := by
  rcases hgood with hv | ⟨cd, val, rfl, hcdne, hcdal, hval⟩
  · have hsub : ∀ c ∈ stripL item0, vgoodChar c := fun c hc => hv c (stripL_subset c hc)
    have hci : (stripL item0).contains ':' = false := by
      cases hc : (stripL item0).contains ':'
      · rfl
      · exact absurd rfl ((hsub ':' (containsC_iff.mp hc)).1)
    rw [cadvStep_no_colon hci]
    split
    · exact ⟨hJ, hP⟩
    · split
      · exact ⟨hJ, hP⟩
      · rename_i hnc
        have hvg : ∀ c ∈ cadvTransform vt (stripL item0), vgoodChar c := htr _ hsub
        have hvc : (cadvTransform vt (stripL item0)).contains ':' = false := by
          cases hc : (cadvTransform vt (stripL item0)).contains ':'
          · rfl
          · exact absurd rfl ((hvg ':' (containsC_iff.mp hc)).1)
        constructor
        · refine forall2_append_single hJ ⟨?_, ?_⟩
          · have hseg : segValue (cadvTransform vt (stripL item0)) =
                cadvTransform vt (stripL item0) := by
              unfold segValue
              rw [hvc]
              simp
            rw [hseg]
          · intro hc
            exact (hvg '|' hc).2.1 rfl
        · rw [List.pairwise_append]
          refine ⟨hP, List.Pairwise.cons (fun b hb => absurd hb (List.not_mem_nil b))
            List.Pairwise.nil, ?_⟩
          intro a ha b hb
          rw [List.mem_singleton.mp hb]
          intro he
          refine hnc ((containsC_iff (l := st.2)).mpr ?_)
          rw [← he]
          exact ha
  · have hcdws : ∀ c ∈ cd, pyWs c = false := fun c hc => pyWs_of_alnum (hcdal c hc)
    have hcdcol : ':' ∉ cd := fun hm => (vgood_alnum (hcdal ':' hm)).1 rfl
    obtain ⟨val2, hstrip, hsubv⟩ := @stripL_shape_b cd val hcdne hcdws
    rw [cadvStep_colon hstrip hcdcol hcdws]
    have hv2 : ∀ c ∈ stripL val2, vgoodChar c :=
      fun c hc => hval c (hsubv c (stripL_subset c hc))
    have hvg : ∀ c ∈ cadvTransform vt (stripL val2), vgoodChar c := htr _ hv2
    split
    · exact ⟨hJ, hP⟩
    · rename_i hnc
      rw [if_neg (fun he => by
        rw [show cd.isEmpty = false from by
          cases cd with
          | nil => exact absurd rfl hcdne
          | cons a t => rfl] at he
        exact Bool.false_ne_true he)]
      constructor
      · refine forall2_append_single hJ ⟨?_, ?_⟩
        · have hct2 : (cd ++ ':' :: cadvTransform vt (stripL val2)).contains ':' = true :=
            containsC_iff.mpr (List.mem_append.mpr (Or.inr (List.mem_cons_self ':' _)))
          have hseg : segValue (cd ++ ':' :: cadvTransform vt (stripL val2)) =
              cadvTransform vt (stripL val2) := by
            unfold segValue
            rw [hct2]
            simp [splitFirstColon_append hcdcol]
          rw [hseg]
        · intro hc
          rcases List.mem_append.mp hc with hc | hc
          · exact (vgood_alnum (hcdal '|' hc)).2.1 rfl
          · rcases List.mem_cons.mp hc with hc | hc
            · exact absurd hc (by decide)
            · exact (hvg '|' hc).2.1 rfl
      · rw [List.pairwise_append]
        refine ⟨hP, List.Pairwise.cons (fun b hb => absurd hb (List.not_mem_nil b))
          List.Pairwise.nil, ?_⟩
        intro a ha b hb
        rw [List.mem_singleton.mp hb]
        intro he
        refine hnc ((containsC_iff (l := st.2)).mpr ?_)
        rw [← he]
        exact ha


theorem cadv_parts_dedup (vt : String)
    (htr : ∀ v, (∀ c ∈ v, vgoodChar c) → ∀ c ∈ cadvTransform vt v, vgoodChar c)
    (parts : List (List Char)) (hne : parts ≠ [])
    (hj : joinL ['|'] parts ≠ [])
    (hgoods : ∀ p ∈ parts, (∀ c ∈ p, vgoodChar c) ∨
      ∃ cd val, p = cd ++ ':' :: val ∧ cd ≠ [] ∧
        (∀ c ∈ cd, c.isAlphanum = true) ∧ (∀ c ∈ val, vgoodChar c))
    (hnl : '\n' ∉ (clean_and_dedupe_values
      ⟨'\x7b' :: (joinL ['|'] parts ++ ['\x7d'])⟩ vt).data) :
    dedupInvariant (clean_and_dedupe_values
      ⟨'\x7b' :: (joinL ['|'] parts ++ ['\x7d'])⟩ vt) := by
  have hpgood : ∀ p ∈ parts, ('\x7d' ∉ p ∧ '|' ∉ p) := by
    intro p hp
    rcases hgoods p hp with hv | ⟨cd, val, rfl, _, hcdal, hval⟩
    · exact ⟨fun hm => (hv _ hm).2.2 rfl, fun hm => (hv _ hm).2.1 rfl⟩
    · constructor
      · intro hm
        rcases List.mem_append.mp hm with hm | hm
        · exact (vgood_alnum (hcdal _ hm)).2.2 rfl
        · rcases List.mem_cons.mp hm with hm | hm
          · exact absurd hm (by decide)
          · exact (hval _ hm).2.2 rfl
      · intro hm
        rcases List.mem_append.mp hm with hm | hm
        · exact (vgood_alnum (hcdal _ hm)).2.1 rfl
        · rcases List.mem_cons.mp hm with hm | hm
          · exact absurd hm (by decide)
          · exact (hval _ hm).2.1 rfl
  have hnb : '\x7d' ∉ joinL ['|'] parts := by
    intro hm
    rcases joinL_mem parts _ hm with hm | ⟨p, hp, hcp⟩
    · exact absurd hm (by decide)
    · exact (hpgood p hp).1 hcp
  have hpipe : ∀ p ∈ parts, '|' ∉ p := fun p hp => (hpgood p hp).2
  have hs1 : ¬((⟨'\x7b' :: (joinL ['|'] parts ++ ['\x7d'])⟩ : String) = "") := by
    intro h0
    exact List.noConfusion (congrArg String.data h0)
  have hs2 : ¬((⟨'\x7b' :: (joinL ['|'] parts ++ ['\x7d'])⟩ : String) = "N/A") := by
    intro h0
    have h1 := congrArg String.data h0
    have h2 : ("N/A" : String).data = ['N', '/', 'A'] := rfl
    rw [h2] at h1
    injection h1 with h3 _
    exact absurd h3 (by decide)
  have hd : (⟨'\x7b' :: (joinL ['|'] parts ++ ['\x7d'])⟩ : String).data
      = '\x7b' :: (joinL ['|'] parts ++ ['\x7d']) := rfl
  by_cases hnlj : '\n' ∈ joinL ['|'] parts
  · exfalso
    have hid : clean_and_dedupe_values ⟨'\x7b' :: (joinL ['|'] parts ++ ['\x7d'])⟩ vt
        = ⟨'\x7b' :: (joinL ['|'] parts ++ ['\x7d'])⟩ := by
      simp only [clean_and_dedupe_values]
      rw [if_neg hs1, if_neg hs2, braceGroup_open _ hnb hnlj]
    rw [hid] at hnl
    exact hnl (List.mem_cons_of_mem _ (List.mem_append.mpr (Or.inl hnlj)))
  · simp only [clean_and_dedupe_values]
    rw [if_neg hs1, if_neg hs2, braceGroup_closed _ hj hnb hnlj]
    show dedupInvariant
      (match (List.foldl (cadvStep vt) ([], []) (splitOnCharL '|' (joinL ['|'] parts))).1 with
      | [] => "N/A"
      | cleaned => ⟨'\x7b' :: (joinL ['|'] cleaned ++ ['\x7d'])⟩)
    rw [splitOnCharL_joinL '|' parts hne hpipe]
    have hI : cadvJ (parts.foldl (cadvStep vt) ([], [])) ∧
        (parts.foldl (cadvStep vt) ([], [])).2.Pairwise (fun a b => a ≠ b) := by
      refine foldl_inv (fun st => cadvJ st ∧ st.2.Pairwise (fun a b => a ≠ b))
        (cadvStep vt) parts ([], []) ⟨List.Forall₂.nil, List.Pairwise.nil⟩ ?_
      intro a b hb ha
      exact cadvStep_inv vt htr a b (hgoods b hb) ha.1 ha.2
    have hJ1 : List.Forall₂ (fun seg vl => lowL (segValue seg) = vl ∧ '|' ∉ seg)
        (parts.foldl (cadvStep vt) ([], [])).1 (parts.foldl (cadvStep vt) ([], [])).2 := hI.1
    cases hf : (parts.foldl (cadvStep vt) ([], [])).1 with
    | nil => exact dedupInvariant_NA
    | cons c cs =>
      rw [hf] at hJ1
      have hfree2 : ∀ p ∈ c :: cs, '|' ∉ p := by
        intro p hp
        obtain ⟨y, _, hR⟩ := forall2_mem_left hJ1 p hp
        exact hR.2
      unfold dedupInvariant
      rw [fieldSegments_brace (by simp) hfree2]
      exact cadv_pairwise_of_J hJ1 hI.2



theorem cadvTransform_voltage_vgood :
    ∀ v, (∀ c ∈ v, vgoodChar c) → ∀ c ∈ cadvTransform "voltage" v, vgoodChar c := by
  intro v hv c hc
  have he : cadvTransform "voltage" v = (standardize_voltage ⟨v⟩).data := by
    unfold cadvTransform
    rw [if_pos rfl]
  rw [he] at hc
  exact sv_vgood hv c hc

theorem joinL_ne_nil_of_all {sep : Char} {parts : List (List Char)} (hne : parts ≠ [])
    (hall : ∀ p ∈ parts, p ≠ []) : joinL [sep] parts ≠ [] := by
  cases parts with
  | nil => exact absurd rfl hne
  | cons p rest => exact joinL_ne_nil_of_head (hall p (List.mem_cons_self p rest))

theorem ets_entries_prop (matchers : List (List Char → Option (Nat × List Char)))
    (text : List Char)
    (hm : ∀ m ∈ matchers, ∀ s k txt, m s = some (k, txt) → ∀ c ∈ txt, vgoodChar c) :
    ∀ mt ∈ exhaustive_text_search matchers text, mt ≠ [] ∧ ∀ c ∈ mt, vgoodChar c := by
  unfold exhaustive_text_search
  refine foldl_inv (fun acc => ∀ mt ∈ acc, mt ≠ [] ∧ ∀ c ∈ mt, vgoodChar c) _ matchers []
    (fun mt hmt => absurd hmt (List.not_mem_nil mt)) ?_
  intro acc m hmmem hacc
  refine foldl_inv (fun acc2 => ∀ mt ∈ acc2, mt ≠ [] ∧ ∀ c ∈ mt, vgoodChar c) _
    (runFind m text) acc hacc ?_
  intro acc2 mt hmt hacc2
  have hmtv : ∀ c ∈ mt, vgoodChar c := runFind_prop (hm m hmmem) text mt hmt
  intro x hx
  replace hx : x ∈ (if (stripL mt).isEmpty then acc2
    else if acc2.contains (stripL mt) then acc2 else acc2 ++ [stripL mt]) := hx
  by_cases hie : (stripL mt).isEmpty = true
  · rw [if_pos hie] at hx
    exact hacc2 x hx
  · rw [if_neg hie] at hx
    by_cases hdup : acc2.contains (stripL mt) = true
    · rw [if_pos hdup] at hx
      exact hacc2 x hx
    · rw [if_neg hdup] at hx
      rcases List.mem_append.mp hx with hx | hx
      · exact hacc2 x hx
      · rw [List.mem_singleton.mp hx]
        exact ⟨isEmpty_false_ne_nil hie, fun c hc => hmtv c (stripL_subset c hc)⟩

theorem addVoltage_prop {fv : List (List Char)} {mc : List Char}
    (hfv : ∀ v ∈ fv, v ≠ [] ∧ ∀ c ∈ v, vgoodChar c) (hmc : ∀ c ∈ mc, vgoodChar c) :
    ∀ v ∈ addVoltage fv mc, v ≠ [] ∧ ∀ c ∈ v, vgoodChar c := by
  intro v hv
  unfold addVoltage at hv
  by_cases hie : mc.isEmpty = true
  · rw [if_pos hie] at hv
    exact hfv v hv
  · rw [if_neg hie] at hv
    by_cases h000 : mc.take 3 = ['0', '0', '0']
    · rw [if_pos h000] at hv
      exact hfv v hv
    · rw [if_neg h000] at hv
      by_cases hany : fv.any (fun v2 => lowL v2 = lowL mc) = true
      · rw [if_pos hany] at hv
        exact hfv v hv
      · rw [if_neg hany] at hv
        rcases List.mem_append.mp hv with hv | hv
        · exact hfv v hv
        · rw [List.mem_singleton.mp hv]
          exact ⟨isEmpty_false_ne_nil hie, hmc⟩

theorem found0_prop {dashSet : List Char} (hd : ∀ d ∈ dashSet, vgoodChar d)
    (text : List Char) :
    ∀ v ∈ (exhaustive_text_search (voltMatchers dashSet) text).foldl
        (fun fv mt => addVoltage fv (standardize_voltage ⟨mt⟩).data) [],
      v ≠ [] ∧ ∀ c ∈ v, vgoodChar c := by
  have hets := ets_entries_prop (voltMatchers dashSet) text (voltMatchers_vgood hd)
  refine foldl_inv (fun fv => ∀ v ∈ fv, v ≠ [] ∧ ∀ c ∈ v, vgoodChar c) _ _ []
    (fun v hv => absurd hv (List.not_mem_nil v)) ?_
  intro a b hb ha
  exact addVoltage_prop ha (sv_vgood (hets b hb).2)

theorem voltCodeCapture_prop {adj : Option (Option String)} {mc : List Char}
    {codes : List (String × String)}
    (hc : ∀ p ∈ codes, p.1.data ≠ [] ∧ (∀ c ∈ p.1.data, c.isAlphanum = true) ∧
      ∀ c ∈ p.2.data, vgoodChar c)
    (hmc : ∀ c ∈ mc, vgoodChar c) :
    ∀ p ∈ voltCodeCapture adj mc codes, p.1.data ≠ [] ∧
      (∀ c ∈ p.1.data, c.isAlphanum = true) ∧ ∀ c ∈ p.2.data, vgoodChar c := by
  intro p hp
  unfold voltCodeCapture at hp
  split at hp
  · rename_i pc
    split at hp
    · exact hc p hp
    · replace hp : p ∈ (if (stripL pc.data).length ≤ 3 ∧ 1 ≤ (stripL pc.data).length ∧
            (stripL pc.data).all Char.isAlphanum = true
          then dset codes ⟨uppL (stripL pc.data)⟩ ⟨mc⟩ else codes) := hp
      by_cases hguard : (stripL pc.data).length ≤ 3 ∧ 1 ≤ (stripL pc.data).length ∧
          (stripL pc.data).all Char.isAlphanum = true
      · rw [if_pos hguard] at hp
        refine dset_forall codes _ _ hc ⟨?_, ?_, ?_⟩ p hp
        · intro he
          replace he : uppL (stripL pc.data) = [] := he
          have hlen := congrArg List.length he
          rw [show (uppL (stripL pc.data)).length = (stripL pc.data).length from
            List.length_map _ _, List.length_nil] at hlen
          have := hguard.2.1
          omega
        · intro c hcm
          obtain ⟨x, hx, rfl⟩ := List.mem_map.mp hcm
          exact uppC_alnum (List.all_eq_true.mp hguard.2.2 x hx)
        · exact hmc
      · rw [if_neg hguard] at hp
        exact hc p hp
  · exact hc p hp

theorem voltCellStep_prop {dashSet : List Char} (hd : ∀ d ∈ dashSet, vgoodChar d)
    {prev next : Option (Option String)} {st : List (List Char) × List (String × String)}
    (hst : VInv st) (cellText : List Char) :
    VInv (voltCellStep dashSet prev next st cellText) := by
  unfold voltCellStep
  refine foldl_inv VInv _ (voltMatchers dashSet) st hst ?_
  intro a m hm ha
  refine foldl_inv VInv _ (runFind m cellText) a ha ?_
  intro a2 mt hmt ha2
  have hmtv : ∀ c ∈ mt, vgoodChar c :=
    runFind_prop (voltMatchers_vgood hd m hm) cellText mt hmt
  have hmcv : ∀ c ∈ (standardize_voltage ⟨stripL mt⟩).data, vgoodChar c :=
    sv_vgood (fun c hc => hmtv c (stripL_subset c hc))
  show VInv (if ((standardize_voltage ⟨stripL mt⟩).data).isEmpty then a2
    else if (standardize_voltage ⟨stripL mt⟩).data.take 3 = ['0', '0', '0'] then a2
    else
      ((if a2.1.any (fun v => lowL v = lowL (standardize_voltage ⟨stripL mt⟩).data) then a2.1
        else a2.1 ++ [(standardize_voltage ⟨stripL mt⟩).data]),
       voltCodeCapture next (standardize_voltage ⟨stripL mt⟩).data
         (voltCodeCapture prev (standardize_voltage ⟨stripL mt⟩).data a2.2)))
  split
  · exact ha2
  · split
    · exact ha2
    · rename_i hie h000
      refine ⟨?_, ?_⟩
      · split
        · exact ha2.1
        · intro v hv
          rcases List.mem_append.mp hv with hv | hv
          · exact ha2.1 v hv
          · rw [List.mem_singleton.mp hv]
            exact ⟨isEmpty_false_ne_nil hie, hmcv⟩
      · exact voltCodeCapture_prop (voltCodeCapture_prop ha2.2 hmcv) hmcv

theorem voltRowWalk_prop {dashSet : List Char} (hd : ∀ d ∈ dashSet, vgoodChar d)
    {row : List (Option String)} {st : List (List Char) × List (String × String)}
    (hst : VInv st) : VInv (voltRowWalk dashSet row st) := by
  unfold voltRowWalk
  refine foldl_inv VInv _ row.enum st hst ?_
  intro a ic hic ha
  show VInv (match ic.2 with
    | none => a
    | some s =>
      if s = "" then a
      else voltCellStep dashSet
        (if 1 ≤ ic.1 then row.get? (ic.1 - 1) else none)
        (if ic.1 + 1 < row.length then row.get? (ic.1 + 1) else none) a s.data)
  cases hio : ic.2 with
  | none => exact ha
  | some s =>
    show VInv (if s = "" then a
      else voltCellStep dashSet
        (if 1 ≤ ic.1 then row.get? (ic.1 - 1) else none)
        (if ic.1 + 1 < row.length then row.get? (ic.1 + 1) else none) a s.data)
    by_cases hse : s = ""
    · rw [if_pos hse]
      exact ha
    · rw [if_neg hse]
      exact voltCellStep_prop hd ha s.data


/-- C2 (amended for the newline caveat): whenever extract_voltage returns a
rendered voltage string that contains no newline character, no two
pipe-separated segments of that string have value parts equal under
case-insensitive comparison. -/
theorem C2_voltage_dedup (text : String) (tables : List Table) (r : String)
    (h : extract_voltage text tables = some r) (hnl : '\n' ∉ r.data) :
    dedupInvariant r := by
  have hdset : ∀ d ∈ ['-', '–'], vgoodChar d := by
    intro d hd
    rcases List.mem_cons.mp hd with rfl | hd
    · exact ⟨by decide, by decide, by decide⟩
    · rcases List.mem_cons.mp hd with rfl | hd
      · exact ⟨by decide, by decide, by decide⟩
      · exact absurd hd (List.not_mem_nil d)
  have hfin : VInv (tables.foldl
      (fun st tb => tb.foldl (fun st2 row => voltRowWalk ['-', '–'] row st2) st)
      ((exhaustive_text_search (voltMatchers ['-', '–']) text.data).foldl
        (fun fv mt => addVoltage fv (standardize_voltage ⟨mt⟩).data) [],
       ([] : List (String × String)))) := by
    refine foldl_inv VInv _ tables _
      ⟨found0_prop hdset text.data, fun p hp => absurd hp (List.not_mem_nil p)⟩ ?_
    intro a tb htb ha
    refine foldl_inv VInv _ tb a ha ?_
    intro a2 row hrow ha2
    exact voltRowWalk_prop hdset ha2
  simp only [extract_voltage, extract_voltage_core] at h
  split at h
  · rename_i hc2
    injection h with h
    subst h
    refine cadv_parts_dedup "voltage" cadvTransform_voltage_vgood _ ?_ ?_ ?_ hnl
    · intro hme
      have hn2 := List.map_eq_nil.mp hme
      rw [hn2] at hc2
      exact Bool.noConfusion hc2
    · refine joinL_ne_nil_of_all ?_ ?_
      · intro hme
        have hn2 := List.map_eq_nil.mp hme
        rw [hn2] at hc2
        exact Bool.noConfusion hc2
      · intro p hp
        obtain ⟨q, hq, rfl⟩ := List.mem_map.mp hp
        intro he
        rcases List.append_eq_nil.mp he with ⟨_, he2⟩
        exact List.noConfusion he2
    · intro p hp
      obtain ⟨q, hq, rfl⟩ := List.mem_map.mp hp
      obtain ⟨hq1, hq2, hq3⟩ := hfin.2 q hq
      exact Or.inr ⟨q.1.data, q.2.data, rfl, hq1, hq2, hq3⟩
  · rename_i hc2
    split at h
    · rename_i hc1
      injection h with h
      subst h
      refine cadv_parts_dedup "voltage" cadvTransform_voltage_vgood _ ?_ ?_ ?_ hnl
      · refine take_ne_nil2 12 ?_ (by decide)
        intro hme
        rw [hme] at hc1
        exact Bool.noConfusion hc1
      · refine joinL_ne_nil_of_all ?_ ?_
        · refine take_ne_nil2 12 ?_ (by decide)
          intro hme
          rw [hme] at hc1
          exact Bool.noConfusion hc1
        · intro p hp
          exact (hfin.1 p (List.take_subset 12 _ hp)).1
      · intro p hp
        exact Or.inl (hfin.1 p (List.take_subset 12 _ hp)).2
    · exact Option.noConfusion h


/-- Witness for the amended C2 theorem at a concrete page text. -/
theorem C2_voltage_dedup_witness :
    dedupInvariant "\x7b24V DC\x7d" :=
  C2_voltage_dedup "24VDC 24V DC" [] "\x7b24V DC\x7d" (by decide) (by decide)


/-! ## Claim C6: idempotence of clean_and_dedupe_values (amended) -/

theorem stripL_last {y : List Char} : ∀ x ∈ (stripL y).getLast?, pyWs x = false := by
  intro x hx
  unfold stripL at hx
  rw [List.getLast?_reverse] at hx
  exact dropWhile_head_not x hx

theorem stripL_id_of_ends {l : List Char}
    (hh : ∀ c ∈ l.head?, pyWs c = false)
    (hl : ∀ c ∈ l.getLast?, pyWs c = false) : stripL l = l := by
  unfold stripL
  rw [dropWhile_self hh]
  rw [dropWhile_self (fun c hc => hl c (by rwa [List.head?_reverse] at hc)),
      List.reverse_reverse]

theorem getLast_append_cons {α : Type} (l1 : List α) (a : α) (l2 : List α) :
    (l1 ++ a :: l2).getLast? = (a :: l2).getLast? := by
  induction l1 with
  | nil => rfl
  | cons x t ih =>
    cases t with
    | nil => rw [List.singleton_append, List.getLast?_cons_cons]
    | cons y t2 =>
      rw [List.cons_append, List.cons_append, List.getLast?_cons_cons]
      rw [List.cons_append] at ih
      exact ih

theorem cadvTransform_generic (v : List Char) : cadvTransform "generic" v = v := by
  unfold cadvTransform
  rw [if_neg (by decide), if_neg (by decide)]

theorem segValue_no_colon {it : List Char} (h : it.contains ':' = false) :
    segValue it = it := by
  unfold segValue
  rw [h]
  simp

theorem cadv_NA (t : String) : clean_and_dedupe_values "N/A" t = "N/A" := by
  unfold clean_and_dedupe_values
  rw [if_neg (by decide), if_pos rfl]

theorem cadvStep_shape (st : List (List Char) × List (List Char)) (item0 : List Char)
    (hgood : (∀ c ∈ item0, vgoodChar c) ∨
      ∃ cd val, item0 = cd ++ ':' :: val ∧ cd ≠ [] ∧
        (∀ c ∈ cd, c.isAlphanum = true) ∧ (∀ c ∈ val, vgoodChar c))
    (hnl : '\n' ∉ item0)
    (hsh : ∀ it ∈ st.1, cadvItemShape it) :
    ∀ it ∈ (cadvStep "generic" st item0).1, cadvItemShape it := by
  rcases hgood with hv | ⟨cd, val, rfl, hcdne, hcdal, hval⟩
  · have hsub : ∀ c ∈ stripL item0, vgoodChar c := fun c hc => hv c (stripL_subset c hc)
    have hci : (stripL item0).contains ':' = false := by
      cases hc : (stripL item0).contains ':'
      · rfl
      · exact absurd rfl ((hsub ':' (containsC_iff.mp hc)).1)
    rw [cadvStep_no_colon hci]
    by_cases hie : (stripL item0).isEmpty = true
    · rw [if_pos hie]
      exact hsh
    · rw [if_neg hie]
      by_cases hdup : st.2.contains (lowL (cadvTransform "generic" (stripL item0))) = true
      · rw [if_pos hdup]
        exact hsh
      · rw [if_neg hdup]
        intro it hit
        replace hit : it ∈ st.1 ++ [cadvTransform "generic" (stripL item0)] := hit
        rcases List.mem_append.mp hit with hit | hit
        · exact hsh it hit
        · rw [List.mem_singleton.mp hit, cadvTransform_generic]
          exact ⟨isEmpty_false_ne_nil hie,
            fun hm => hnl (stripL_subset _ hm),
            fun hm => (hsub _ hm).2.2 rfl,
            fun hm => (hsub _ hm).2.1 rfl,
            Or.inl ⟨hci, stripL_idem item0⟩⟩
  · have hcdws : ∀ c ∈ cd, pyWs c = false := fun c hc => pyWs_of_alnum (hcdal c hc)
    have hcdcol : ':' ∉ cd := fun hm => (vgood_alnum (hcdal ':' hm)).1 rfl
    obtain ⟨val2, hstrip, hsubv⟩ := @stripL_shape_b cd val hcdne hcdws
    rw [cadvStep_colon hstrip hcdcol hcdws]
    by_cases hdup : st.2.contains (lowL (cadvTransform "generic" (stripL val2))) = true
    · rw [if_pos hdup]
      exact hsh
    · rw [if_neg hdup, if_neg (fun he : cd.isEmpty = true => by
        rw [show cd.isEmpty = false from by
          cases cd with
          | nil => exact absurd rfl hcdne
          | cons a t => rfl] at he
        exact Bool.noConfusion he)]
      intro it hit
      replace hit : it ∈ st.1 ++ [cd ++ ':' :: cadvTransform "generic" (stripL val2)] := hit
      rcases List.mem_append.mp hit with hit | hit
      · exact hsh it hit
      · rw [List.mem_singleton.mp hit, cadvTransform_generic]
        have hvin : ∀ c ∈ stripL val2, c ∈ val := fun c hc => hsubv c (stripL_subset c hc)
        refine ⟨?_, ?_, ?_, ?_, Or.inr ⟨cd, stripL val2, rfl, hcdne, hcdal, stripL_idem val2⟩⟩
        · intro he
          rcases List.append_eq_nil.mp he with ⟨_, h2⟩
          exact List.noConfusion h2
        · intro hm
          rcases List.mem_append.mp hm with hm | hm
          · exact hnl (List.mem_append.mpr (Or.inl hm))
          · rcases List.mem_cons.mp hm with hm | hm
            · exact absurd hm (by decide)
            · exact hnl (List.mem_append.mpr (Or.inr (List.mem_cons_of_mem ':' (hvin _ hm))))
        · intro hm
          rcases List.mem_append.mp hm with hm | hm
          · exact (vgood_alnum (hcdal _ hm)).2.2 rfl
          · rcases List.mem_cons.mp hm with hm | hm
            · exact absurd hm (by decide)
            · exact (hval _ (hvin _ hm)).2.2 rfl
        · intro hm
          rcases List.mem_append.mp hm with hm | hm
          · exact (vgood_alnum (hcdal _ hm)).2.1 rfl
          · rcases List.mem_cons.mp hm with hm | hm
            · exact absurd hm (by decide)
            · exact (hval _ (hvin _ hm)).2.1 rfl

theorem cadvStep_replay (st : List (List Char) × List (List Char)) (it : List Char)
    (hsh : cadvItemShape it) :
    cadvStep "generic" st it =
      if st.2.contains (lowL (segValue it)) = true then st
      else (st.1 ++ [it], st.2 ++ [lowL (segValue it)]) := by
  obtain ⟨hne, hnl, hnb, hnp, hA | ⟨cd, v, rfl, hcdne, hcdal, hvs⟩⟩ := hsh
  · obtain ⟨hci, hstr⟩ := hA
    rw [cadvStep_no_colon (by rw [hstr]; exact hci)]
    rw [hstr, cadvTransform_generic, segValue_no_colon hci]
    rw [if_neg (fun he : it.isEmpty = true => by
      rw [show it.isEmpty = false from by
        cases it with
        | nil => exact absurd rfl hne
        | cons a t => rfl] at he
      exact Bool.noConfusion he)]
  · have hcdws : ∀ c ∈ cd, pyWs c = false := fun c hc => pyWs_of_alnum (hcdal c hc)
    have hcdcol : ':' ∉ cd := fun hm => (vgood_alnum (hcdal ':' hm)).1 rfl
    have hstr : stripL (cd ++ ':' :: v) = cd ++ ':' :: v := by
      apply stripL_id_of_ends
      · intro c hc
        cases cd with
        | nil => exact absurd rfl hcdne
        | cons c0 t =>
          rw [List.cons_append] at hc
          have : c0 = c := by
            have h2 : (c0 :: (t ++ ':' :: v)).head? = some c0 := rfl
            rw [Option.mem_def, h2] at hc
            injection hc
          rw [← this]
          exact pyWs_of_alnum (hcdal c0 (List.mem_cons_self c0 t))
      · intro c hc
        rw [getLast_append_cons] at hc
        cases hv2 : v with
        | nil =>
          rw [hv2] at hc
          have : (':' : Char) = c := by
            have h2 : ([':'] : List Char).getLast? = some ':' := rfl
            rw [Option.mem_def, h2] at hc
            injection hc
          rw [← this]
          decide
        | cons a t =>
          rw [hv2, List.getLast?_cons_cons] at hc
          have hc2 : c ∈ (stripL v).getLast? := by
            rw [hvs, hv2]
            exact hc
          exact stripL_last c hc2
    rw [cadvStep_colon hstr hcdcol hcdws]
    rw [hvs, cadvTransform_generic]
    have hseg : segValue (cd ++ ':' :: v) = v := by
      unfold segValue
      rw [show (cd ++ ':' :: v).contains ':' = true from
        containsC_iff.mpr (List.mem_append.mpr (Or.inr (List.mem_cons_self ':' v)))]
      simp [splitFirstColon_append hcdcol]
    rw [hseg]
    rw [if_neg (fun he : cd.isEmpty = true => by
      rw [show cd.isEmpty = false from by
        cases cd with
        | nil => exact absurd rfl hcdne
        | cons a t => rfl] at he
      exact Bool.noConfusion he)]

theorem joinL_mem_of {sep : Char} :
    ∀ (parts : List (List Char)) (p : List Char), p ∈ parts → ∀ c ∈ p, c ∈ joinL [sep] parts := by
  intro parts
  induction parts with
  | nil =>
    intro p hp
    exact absurd hp (List.not_mem_nil p)
  | cons x r ih =>
    intro p hp c hc
    cases r with
    | nil =>
      rcases List.mem_cons.mp hp with rfl | hp
      · exact hc
      · exact absurd hp (List.not_mem_nil p)
    | cons y r2 =>
      show c ∈ x ++ [sep] ++ joinL [sep] (y :: r2)
      rcases List.mem_cons.mp hp with rfl | hp
      · exact List.mem_append.mpr (Or.inl (List.mem_append.mpr (Or.inl hc)))
      · exact List.mem_append.mpr (Or.inr (ih p hp c hc))

theorem cadv_replay_fold :
    ∀ (cleaned seen pre1 pre2 : List (List Char)),
      List.Forall₂ (fun seg vl => lowL (segValue seg) = vl ∧ '|' ∉ seg) cleaned seen →
      (pre2 ++ seen).Pairwise (fun a b => a ≠ b) →
      (∀ it ∈ cleaned, cadvItemShape it) →
      cleaned.foldl (cadvStep "generic") (pre1, pre2) = (pre1 ++ cleaned, pre2 ++ seen) := by
  intro cleaned
  induction cleaned with
  | nil =>
    intro seen pre1 pre2 hJ _ _
    cases hJ
    simp
  | cons it rest ih =>
    intro seen pre1 pre2 hJ hP hsh
    cases hJ with
    | cons h1 h2 =>
      rename_i vl seen2
      rw [List.foldl_cons, cadvStep_replay _ _ (hsh it (List.mem_cons_self it rest)), h1.1]
      have hvnotin : vl ∉ pre2 := by
        intro hm
        rcases List.pairwise_append.mp hP with ⟨_, _, hx⟩
        exact hx vl hm vl (List.mem_cons_self vl seen2) rfl
      rw [if_neg (fun hc => hvnotin (containsC_iff.mp hc))]
      have hP2 : ((pre2 ++ [vl]) ++ seen2).Pairwise (fun a b => a ≠ b) := by
        rw [List.append_assoc]
        exact hP
      rw [ih seen2 (pre1 ++ [it]) (pre2 ++ [vl]) h2 hP2
        (fun q hq => hsh q (List.mem_cons_of_mem it hq))]
      simp [List.append_assoc]

/-- C6 (amended): on a braced input whose pipe-separated segments are
well-shaped (wholly parse-neutral, or a non-empty alphanumeric code joined by
a colon to a parse-neutral value) and newline-free, clean_and_dedupe_values
with value_type generic is idempotent: a second application returns the
first application's output unchanged. -/
theorem C6_cadv_idem_generic (parts : List (List Char)) (hne : parts ≠ [])
    (hj : joinL ['|'] parts ≠ [])
    (hnl : '\n' ∉ joinL ['|'] parts)
    (hgoods : ∀ p ∈ parts, (∀ c ∈ p, vgoodChar c) ∨
      ∃ cd val, p = cd ++ ':' :: val ∧ cd ≠ [] ∧
        (∀ c ∈ cd, c.isAlphanum = true) ∧ (∀ c ∈ val, vgoodChar c)) :
    clean_and_dedupe_values (clean_and_dedupe_values
        ⟨'\x7b' :: (joinL ['|'] parts ++ ['\x7d'])⟩ "generic") "generic"
      = clean_and_dedupe_values ⟨'\x7b' :: (joinL ['|'] parts ++ ['\x7d'])⟩ "generic" := by
  have hpgood : ∀ p ∈ parts, ('\x7d' ∉ p ∧ '|' ∉ p) := by
    intro p hp
    rcases hgoods p hp with hv | ⟨cd, val, rfl, _, hcdal, hval⟩
    · exact ⟨fun hm => (hv _ hm).2.2 rfl, fun hm => (hv _ hm).2.1 rfl⟩
    · constructor
      · intro hm
        rcases List.mem_append.mp hm with hm | hm
        · exact (vgood_alnum (hcdal _ hm)).2.2 rfl
        · rcases List.mem_cons.mp hm with hm | hm
          · exact absurd hm (by decide)
          · exact (hval _ hm).2.2 rfl
      · intro hm
        rcases List.mem_append.mp hm with hm | hm
        · exact (vgood_alnum (hcdal _ hm)).2.1 rfl
        · rcases List.mem_cons.mp hm with hm | hm
          · exact absurd hm (by decide)
          · exact (hval _ hm).2.1 rfl
  have hnb : '\x7d' ∉ joinL ['|'] parts := by
    intro hm
    rcases joinL_mem parts _ hm with hm | ⟨p, hp, hcp⟩
    · exact absurd hm (by decide)
    · exact (hpgood p hp).1 hcp
  have hpipe : ∀ p ∈ parts, '|' ∉ p := fun p hp => (hpgood p hp).2
  have hpnl : ∀ p ∈ parts, '\n' ∉ p := by
    intro p hp hm
    exact hnl (joinL_mem_of parts p hp '\n' hm)
  have hs1 : ¬((⟨'\x7b' :: (joinL ['|'] parts ++ ['\x7d'])⟩ : String) = "") := by
    intro h0
    exact List.noConfusion (congrArg String.data h0)
  have hs2 : ¬((⟨'\x7b' :: (joinL ['|'] parts ++ ['\x7d'])⟩ : String) = "N/A") := by
    intro h0
    have h1 := congrArg String.data h0
    have h2 : ("N/A" : String).data = ['N', '/', 'A'] := rfl
    rw [h2] at h1
    injection h1 with h3 _
    exact absurd h3 (by decide)
  have htr : ∀ v, (∀ c ∈ v, vgoodChar c) → ∀ c ∈ cadvTransform "generic" v, vgoodChar c := by
    intro v hv c hc
    rw [cadvTransform_generic] at hc
    exact hv c hc
  simp only [clean_and_dedupe_values]
  rw [if_neg hs1, if_neg hs2, braceGroup_closed _ hj hnb hnl]
  show clean_and_dedupe_values
      (match (List.foldl (cadvStep "generic") ([], [])
        (splitOnCharL '|' (joinL ['|'] parts))).1 with
      | [] => "N/A"
      | cleaned => ⟨'\x7b' :: (joinL ['|'] cleaned ++ ['\x7d'])⟩) "generic" =
    (match (List.foldl (cadvStep "generic") ([], [])
        (splitOnCharL '|' (joinL ['|'] parts))).1 with
      | [] => "N/A"
      | cleaned => ⟨'\x7b' :: (joinL ['|'] cleaned ++ ['\x7d'])⟩)
  rw [splitOnCharL_joinL '|' parts hne hpipe]
  have hI : cadvJ (parts.foldl (cadvStep "generic") ([], [])) ∧
      (parts.foldl (cadvStep "generic") ([], [])).2.Pairwise (fun a b => a ≠ b) := by
    refine foldl_inv (fun st => cadvJ st ∧ st.2.Pairwise (fun a b => a ≠ b))
      (cadvStep "generic") parts ([], []) ⟨List.Forall₂.nil, List.Pairwise.nil⟩ ?_
    intro a b hb ha
    exact cadvStep_inv "generic" htr a b (hgoods b hb) ha.1 ha.2
  have hSh : ∀ it ∈ (parts.foldl (cadvStep "generic") ([], [])).1, cadvItemShape it := by
    refine foldl_inv (fun st => ∀ it ∈ st.1, cadvItemShape it)
      (cadvStep "generic") parts ([], [])
      (fun it hit => absurd hit (List.not_mem_nil it)) ?_
    intro a b hb ha
    exact cadvStep_shape a b (hgoods b hb) (hpnl b hb) ha
  have hJ1 : List.Forall₂ (fun seg vl => lowL (segValue seg) = vl ∧ '|' ∉ seg)
      (parts.foldl (cadvStep "generic") ([], [])).1
      (parts.foldl (cadvStep "generic") ([], [])).2 := hI.1
  cases hf : (parts.foldl (cadvStep "generic") ([], [])).1 with
  | nil => exact cadv_NA "generic"
  | cons c cs =>
    rw [hf] at hJ1 hSh
    have hP2 := hI.2
    -- second application on the rendered output
    have hcne : (c : List Char) ≠ [] := (hSh c (List.mem_cons_self c cs)).1
    have hjoin2 : joinL ['|'] (c :: cs) ≠ [] := joinL_ne_nil_of_head hcne
    have hnb2 : '\x7d' ∉ joinL ['|'] (c :: cs) := by
      intro hm
      rcases joinL_mem (c :: cs) _ hm with hm | ⟨p, hp, hcp⟩
      · exact absurd hm (by decide)
      · exact (hSh p hp).2.2.1 hcp
    have hnl2 : '\n' ∉ joinL ['|'] (c :: cs) := by
      intro hm
      rcases joinL_mem (c :: cs) _ hm with hm | ⟨p, hp, hcp⟩
      · exact absurd hm (by decide)
      · exact (hSh p hp).2.1 hcp
    have hpipe2 : ∀ p ∈ c :: cs, '|' ∉ p := fun p hp => (hSh p hp).2.2.2.1
    have hs1b : ¬((⟨'\x7b' :: (joinL ['|'] (c :: cs) ++ ['\x7d'])⟩ : String) = "") := by
      intro h0
      exact List.noConfusion (congrArg String.data h0)
    have hs2b : ¬((⟨'\x7b' :: (joinL ['|'] (c :: cs) ++ ['\x7d'])⟩ : String) = "N/A") := by
      intro h0
      have h1 := congrArg String.data h0
      have h2 : ("N/A" : String).data = ['N', '/', 'A'] := rfl
      rw [h2] at h1
      injection h1 with h3 _
      exact absurd h3 (by decide)
    simp only [clean_and_dedupe_values]
    rw [if_neg hs1b, if_neg hs2b, braceGroup_closed _ hjoin2 hnb2 hnl2]
    show (match (List.foldl (cadvStep "generic") ([], [])
        (splitOnCharL '|' (joinL ['|'] (c :: cs)))).1 with
      | [] => "N/A"
      | cleaned => (⟨'\x7b' :: (joinL ['|'] cleaned ++ ['\x7d'])⟩ : String)) =
      ⟨'\x7b' :: (joinL ['|'] (c :: cs) ++ ['\x7d'])⟩
    rw [splitOnCharL_joinL '|' (c :: cs) (by simp) hpipe2]
    rw [show (c :: cs).foldl (cadvStep "generic") ([], []) =
      ([] ++ c :: cs, [] ++ (parts.foldl (cadvStep "generic") ([], [])).2) from
      cadv_replay_fold (c :: cs) _ [] [] hJ1 (by simpa using hP2) hSh]
    rfl

/-- Witness for the amended C6 theorem at a concrete braced input. -/
theorem C6_cadv_idem_generic_witness :
    clean_and_dedupe_values (clean_and_dedupe_values "\x7bA:x|y\x7d" "generic") "generic"
      = clean_and_dedupe_values "\x7bA:x|y\x7d" "generic" :=
  C6_cadv_idem_generic [['A', ':', 'x'], ['y']] (by decide) (by decide) (by decide)
    (by
      intro p hp
      rcases List.mem_cons.mp hp with rfl | hp
      · refine Or.inr ⟨['A'], ['x'], rfl, by decide, ?_, ?_⟩
        · intro c hc
          rw [List.mem_singleton.mp hc]
          decide
        · intro c hc
          rw [List.mem_singleton.mp hc]
          exact ⟨by decide, by decide, by decide⟩
      · rcases List.mem_cons.mp hp with rfl | hp
        · refine Or.inl ?_
          intro c hc
          rw [List.mem_singleton.mp hc]
          exact ⟨by decide, by decide, by decide⟩
        · exact absurd hp (List.not_mem_nil p))


/-! # Claim C7: idempotence of standardize_voltage -/

/-! ## Generic suffix and run machinery for the idempotence development -/

theorem takeRun_eq7 (p : Char → Bool) (s : List Char) :
    takeRun p s = (s.takeWhile p, s.dropWhile p) := by
  induction s with
  | nil => rfl
  | cons a t ih =>
    unfold takeRun
    rw [ih]
    by_cases hp : p a
    · simp [hp, List.takeWhile_cons, List.dropWhile_cons]
    · simp [hp, List.takeWhile_cons, List.dropWhile_cons]

theorem takeRun_chars7 {p : Char → Bool} {s : List Char} :
    ∀ c ∈ (takeRun p s).1, p c = true := by
  rw [takeRun_eq7]
  exact fun c hc => List.mem_takeWhile_imp hc

theorem dropWhile_head_not7 {p : Char → Bool} {s : List Char} :
    ∀ c ∈ (s.dropWhile p).head?, p c = false := by
  induction s with
  | nil => simp [List.dropWhile]
  | cons a t ih =>
    simp only [List.dropWhile]
    cases h : p a with
    | true => simpa [h] using ih
    | false => simpa [h] using h

theorem takeWhile_append_all {p : Char → Bool} {r q : List Char}
    (hr : ∀ ch ∈ r, p ch = true) (hq : ∀ y, q.head? = some y → p y = false) :
    (r ++ q).takeWhile p = r := by
  induction r with
  | nil =>
    cases q with
    | nil => rfl
    | cons y t =>
      rw [List.nil_append, List.takeWhile_cons, if_neg (by simp [hq y rfl])]
  | cons a r2 ih =>
    rw [List.cons_append, List.takeWhile_cons,
        if_pos (hr a (List.mem_cons_self a r2)),
        ih (fun ch hch => hr ch (List.mem_cons_of_mem a hch))]

theorem dropWhile_append_all {p : Char → Bool} {r q : List Char}
    (hr : ∀ ch ∈ r, p ch = true) (hq : ∀ y, q.head? = some y → p y = false) :
    (r ++ q).dropWhile p = q := by
  induction r with
  | nil =>
    cases q with
    | nil => rfl
    | cons y t =>
      rw [List.nil_append, List.dropWhile_cons, if_neg (by simp [hq y rfl])]
  | cons a r2 ih =>
    rw [List.cons_append, List.dropWhile_cons,
        if_pos (hr a (List.mem_cons_self a r2)),
        ih (fun ch hch => hr ch (List.mem_cons_of_mem a hch))]

theorem takeRun_compute {p : Char → Bool} {r q : List Char} (hr : ∀ ch ∈ r, p ch = true)
    (hq : ∀ y, q.head? = some y → p y = false) : takeRun p (r ++ q) = (r, q) := by
  rw [takeRun_eq7, takeWhile_append_all hr hq, dropWhile_append_all hr hq]

theorem takeRun_split (p : Char → Bool) (s : List Char) :
    s = (takeRun p s).1 ++ (takeRun p s).2 := by
  rw [takeRun_eq7]
  exact (List.takeWhile_append_dropWhile _ _).symm

theorem takeRun_rest_head {p : Char → Bool} {s : List Char} :
    ∀ y, (takeRun p s).2.head? = some y → p y = false := by
  rw [takeRun_eq7]
  intro y hy
  exact dropWhile_head_not7 y hy

theorem drop_len_plus {α : Type} : ∀ (l1 l2 : List α) (n : Nat),
    List.drop (l1.length + n) (l1 ++ l2) = List.drop n l2 := by
  intro l1
  induction l1 with
  | nil => intro l2 n; simp
  | cons a t ih =>
    intro l2 n
    rw [List.cons_append]
    rw [show (a :: t).length + n = (t.length + n) + 1 from by
      simp [List.length_cons]
      omega]
    rw [List.drop_succ_cons, ih]

theorem suffix_append_cases {α : Type} {u a b : List α} (h : u <:+ a ++ b) :
    u <:+ b ∨ ∃ a2, a2 <:+ a ∧ a2 ≠ [] ∧ u = a2 ++ b := by
  induction a with
  | nil => exact Or.inl (by simpa using h)
  | cons x a2 ih =>
    rw [List.cons_append] at h
    rcases (List.suffix_cons_iff).mp h with h | h
    · exact Or.inr ⟨x :: a2, List.suffix_refl _, by simp, by rw [h, List.cons_append]⟩
    · rcases ih h with h | ⟨a3, h1, h2, h3⟩
      · exact Or.inl h
      · exact Or.inr ⟨a3, h1.trans (List.suffix_cons x _), h2, h3⟩

theorem scanSub_fix {m : List Char → Option (Nat × List Char)} {s0 : List Char}
    (h : ∀ c t, (c :: t) <:+ s0 → ∀ k rep, m (c :: t) = some (k, rep) →
      rep ++ List.drop (k - 1) t = c :: t) :
    ∀ fuel s, s <:+ s0 → scanSub m fuel s = s := by
  intro fuel
  induction fuel with
  | zero => intro s _; rfl
  | succ f ih =>
    intro s hs
    cases s with
    | nil => rfl
    | cons c t =>
      simp only [scanSub]
      cases hm : m (c :: t) with
      | none =>
        show c :: scanSub m f t = c :: t
        rw [ih t ((List.suffix_cons c t).trans hs)]
      | some pr =>
        obtain ⟨k, rep⟩ := pr
        show rep ++ scanSub m f (List.drop (k - 1) t) = c :: t
        rw [ih (List.drop (k - 1) t) ((List.drop_suffix _ _).trans
          ((List.suffix_cons c t).trans hs))]
        exact h c t hs k rep hm

theorem scanSub_head {m : List Char → Option (Nat × List Char)}
    (hh : ∀ c t k rep, m (c :: t) = some (k, rep) → ∃ r2, rep = c :: r2) :
    ∀ fuel c t, ∃ o2, scanSub m fuel (c :: t) = c :: o2 := by
  intro fuel c t
  cases fuel with
  | zero => exact ⟨t, rfl⟩
  | succ f =>
    simp only [scanSub]
    cases hm : m (c :: t) with
    | none => exact ⟨scanSub m f t, rfl⟩
    | some pr =>
      obtain ⟨k, rep⟩ := pr
      obtain ⟨r2, hr⟩ := hh c t k rep hm
      refine ⟨r2 ++ scanSub m f (List.drop (k - 1) t), ?_⟩
      show rep ++ scanSub m f (List.drop (k - 1) t) =
        c :: (r2 ++ scanSub m f (List.drop (k - 1) t))
      rw [hr, List.cons_append]

theorem scanSub_head_eq {m : List Char → Option (Nat × List Char)}
    (hh : ∀ c t k rep, m (c :: t) = some (k, rep) → ∃ r2, rep = c :: r2)
    (fuel : Nat) (s : List Char) : (scanSub m fuel s).head? = s.head? := by
  cases s with
  | nil => cases fuel <;> rfl
  | cons c t =>
    obtain ⟨o2, ho⟩ := scanSub_head hh fuel c t
    rw [ho]
    rfl

theorem scanSub_first {m : List Char → Option (Nat × List Char)} :
    ∀ (fuel : Nat) (s : List Char), s.length ≤ fuel →
      ((∀ u, u <:+ s → u ≠ [] → m u = none) ∧ scanSub m fuel s = s) ∨
      ∃ p q k rep fuel2, s = p ++ q ∧ q ≠ [] ∧
        (∀ p2, p2 <:+ p → p2 ≠ [] → m (p2 ++ q) = none) ∧
        m q = some (k, rep) ∧
        ∀ c t, q = c :: t →
          scanSub m fuel s = p ++ (rep ++ scanSub m fuel2 (List.drop (k - 1) t)) ∧
          (List.drop (k - 1) t).length ≤ fuel2 := by
  intro fuel
  induction fuel with
  | zero =>
    intro s hs
    rw [Nat.le_zero] at hs
    rw [List.length_eq_zero] at hs
    subst hs
    exact Or.inl ⟨fun u hu hne => absurd (List.suffix_nil.mp hu) hne, rfl⟩
  | succ f ih =>
    intro s hs
    cases s with
    | nil => exact Or.inl ⟨fun u hu hne => absurd (List.suffix_nil.mp hu) hne, rfl⟩
    | cons c t =>
      cases hm : m (c :: t) with
      | some pr =>
        obtain ⟨k, rep⟩ := pr
        refine Or.inr ⟨[], c :: t, k, rep, f, rfl, by simp, ?_, hm, ?_⟩
        · intro p2 hp2 hne
          exact absurd (List.suffix_nil.mp hp2) hne
        · intro c2 t2 hq
          injection hq with h1 h2
          subst h1
          subst h2
          constructor
          · simp only [scanSub]
            rw [hm]
            rfl
          · calc (List.drop (k - 1) t).length ≤ t.length := by
                  rw [List.length_drop]
                  omega
              _ ≤ f := by
                  simp only [List.length_cons] at hs
                  omega
      | none =>
        have hts : t.length ≤ f := Nat.le_of_succ_le_succ hs
        rcases ih t hts with ⟨hall, heq⟩ | ⟨p, q, k, rep, fuel2, ht, hqne, hpre, hmq, hrest⟩
        · refine Or.inl ⟨?_, ?_⟩
          · intro u hu hne
            rcases List.suffix_cons_iff.mp hu with hu | hu
            · rw [hu]
              exact hm
            · exact hall u hu hne
          · simp only [scanSub]
            rw [hm, heq]
        · refine Or.inr ⟨c :: p, q, k, rep, fuel2, by rw [ht, List.cons_append], hqne, ?_, hmq, ?_⟩
          · intro p2 hp2 hne
            rcases List.suffix_cons_iff.mp hp2 with hp2 | hp2
            · rw [hp2, List.cons_append, ← ht]
              exact hm
            · exact hpre p2 hp2 hne
          · intro c2 t2 hq
            obtain ⟨he, hf2⟩ := hrest c2 t2 hq
            refine ⟨?_, hf2⟩
            simp only [scanSub]
            rw [hm, he, List.cons_append]

/-! ## Character class facts for the voltage matchers -/

theorem digit_toNat {c : Char} (h : c.isDigit = true) : 48 ≤ c.toNat ∧ c.toNat ≤ 57 := by
  simp [Char.isDigit] at h
  exact ⟨h.1, h.2⟩

theorem digit_ne {c d : Char} (h : c.isDigit = true)
    (hd : d.toNat < 48 ∨ 57 < d.toNat) : c ≠ d := by
  intro he
  have hr := digit_toNat h
  rw [he] at hr
  omega

theorem digit_lowC {c : Char} (h : c.isDigit = true) : lowC c = c := by
  have hr := digit_toNat h
  unfold lowC Char.toLower
  rw [if_neg]
  omega

theorem digit_not_ws {c : Char} (h : c.isDigit = true) : pyWs c = false := by
  have hr := digit_toNat h
  cases hw : pyWs c with
  | false => rfl
  | true =>
    unfold pyWs at hw
    simp only [Bool.or_eq_true, decide_eq_true_eq] at hw
    rcases hw with ((((hw | hw) | hw) | hw) | hw) | hw <;> · rw [hw] at hr; revert hr; decide

theorem digit_lowC_ne {c d : Char} (h : c.isDigit = true)
    (hd : d.toNat < 48 ∨ 57 < d.toNat) : lowC c ≠ d := by
  rw [digit_lowC h]
  exact digit_ne h hd

/-! ## Failure automata for the three voltage substitution patterns -/

/-! ## Run-walk lemmas for the automata -/

theorem npFail_s1_digits {x : Char} {e : List Char} (he : ∀ c ∈ e, c.isDigit = true)
    (r : List Char) : npFail x .s1 (e ++ r) = npFail x .s1 r := by
  induction e with
  | nil => rfl
  | cons a t ih =>
    rw [List.cons_append]
    show npFail x .s1 (a :: (t ++ r)) = _
    simp only [npFail]
    rw [if_pos (he a (List.mem_cons_self a t))]
    exact ih (fun c hc => he c (List.mem_cons_of_mem a hc))

theorem npFail_s2_digits {x : Char} {e : List Char} (he : ∀ c ∈ e, c.isDigit = true)
    (r : List Char) : npFail x .s2 (e ++ r) = npFail x .s2 r := by
  induction e with
  | nil => rfl
  | cons a t ih =>
    rw [List.cons_append]
    show npFail x .s2 (a :: (t ++ r)) = _
    simp only [npFail]
    rw [if_pos (he a (List.mem_cons_self a t))]
    exact ih (fun c hc => he c (List.mem_cons_of_mem a hc))

theorem npFail_s4_ws {x : Char} {w : List Char} (hw : ∀ c ∈ w, pyWs c = true)
    (r : List Char) : npFail x .s4 (w ++ r) = npFail x .s4 r := by
  induction w with
  | nil => rfl
  | cons a t ih =>
    rw [List.cons_append]
    show npFail x .s4 (a :: (t ++ r)) = _
    simp only [npFail]
    rw [if_pos (hw a (List.mem_cons_self a t))]
    exact ih (fun c hc => hw c (List.mem_cons_of_mem a hc))

theorem vB_wB_ws {x : Char} {w : List Char} (hw : ∀ c ∈ w, pyWs c = true)
    (r : List Char) : vB x .wB (w ++ r) = vB x .wB r := by
  induction w with
  | nil => rfl
  | cons a t ih =>
    rw [List.cons_append]
    show vB x .wB (a :: (t ++ r)) = _
    simp only [vB]
    rw [if_pos (hw a (List.mem_cons_self a t))]
    exact ih (fun c hc => hw c (List.mem_cons_of_mem a hc))

theorem slFail_sA_digits {e : List Char} (he : ∀ c ∈ e, c.isDigit = true)
    (r : List Char) : slFail .sA (e ++ r) = slFail .sA r := by
  induction e with
  | nil => rfl
  | cons a t ih =>
    rw [List.cons_append]
    show slFail .sA (a :: (t ++ r)) = _
    simp only [slFail]
    rw [if_pos (he a (List.mem_cons_self a t))]
    exact ih (fun c hc => he c (List.mem_cons_of_mem a hc))

theorem slFail_sB_ws {w : List Char} (hw : ∀ c ∈ w, pyWs c = true)
    (r : List Char) : slFail .sB (w ++ r) = slFail .sB r := by
  induction w with
  | nil => rfl
  | cons a t ih =>
    rw [List.cons_append]
    show slFail .sB (a :: (t ++ r)) = _
    simp only [slFail]
    rw [if_pos (hw a (List.mem_cons_self a t))]
    exact ih (fun c hc => hw c (List.mem_cons_of_mem a hc))

theorem slFail_sC_ws {w : List Char} (hw : ∀ c ∈ w, pyWs c = true)
    (r : List Char) : slFail .sC (w ++ r) = slFail .sC r := by
  induction w with
  | nil => rfl
  | cons a t ih =>
    rw [List.cons_append]
    show slFail .sC (a :: (t ++ r)) = _
    simp only [slFail]
    rw [if_pos (hw a (List.mem_cons_self a t))]
    exact ih (fun c hc => hw c (List.mem_cons_of_mem a hc))

/-! ## Matcher computation and inversion lemmas -/

theorem takeWhile_append_pass {p : Char → Bool} {d : List Char} (hd : ∀ c ∈ d, p c = true)
    (q : List Char) : (d ++ q).takeWhile p = d ++ q.takeWhile p := by
  induction d with
  | nil => rfl
  | cons a t ih =>
    rw [List.cons_append, List.takeWhile_cons, if_pos (hd a (List.mem_cons_self a t)),
        ih (fun c hc => hd c (List.mem_cons_of_mem a hc)), List.cons_append]

theorem dropWhile_append_pass {p : Char → Bool} {d : List Char} (hd : ∀ c ∈ d, p c = true)
    (q : List Char) : (d ++ q).dropWhile p = q.dropWhile p := by
  induction d with
  | nil => rfl
  | cons a t ih =>
    rw [List.cons_append, List.dropWhile_cons, if_pos (hd a (List.mem_cons_self a t)),
        ih (fun c hc => hd c (List.mem_cons_of_mem a hc))]

theorem takeRun_append_pass {p : Char → Bool} {d : List Char} (hd : ∀ c ∈ d, p c = true)
    (q : List Char) :
    takeRun p (d ++ q) = (d ++ (takeRun p q).1, (takeRun p q).2) := by
  rw [takeRun_eq7, takeRun_eq7, takeWhile_append_pass hd, dropWhile_append_pass hd]

theorem mNum_nil {x : Char} : mNum x [] = none := rfl

theorem numGroup_nil : numGroup [] = none := rfl

theorem numGroup_no_digit {c : Char} {t : List Char} (hc : c.isDigit = false) :
    numGroup (c :: t) = none := by
  unfold numGroup
  rw [takeRun_eq7, List.takeWhile_cons, if_neg (by simp [hc])]

theorem mNum_no_digit {x c : Char} {t : List Char} (hc : c.isDigit = false) :
    mNum x (c :: t) = none := by
  unfold mNum
  rw [numGroup_no_digit hc]

theorem mVws_nil {x : Char} : mVws x [] = none := rfl

theorem mVws_no_V {x c : Char} {t : List Char} (hc : c ≠ 'V') :
    mVws x (c :: t) = none := by
  unfold mVws
  split
  · rename_i heq
    exact absurd (List.cons.injEq .. ▸ congrArg id heq) (by simp [hc])
  · rfl

theorem mSlash_nil : mSlash [] = none := rfl

theorem mSlash_no_digit {c : Char} {t : List Char} (hc : c.isDigit = false) :
    mSlash (c :: t) = none := by
  unfold mSlash
  rw [takeRun_eq7, List.takeWhile_cons, if_neg (by simp [hc])]

theorem numGroup_run_dot {s d1 r2 : List Char} (hne : d1 ≠ [])
    (h : takeRun Char.isDigit s = (d1, '.' :: r2)) :
    numGroup s = some (d1 ++ '.' :: (takeRun Char.isDigit r2).1,
      (takeRun Char.isDigit r2).2) := by
  unfold numGroup
  rw [h]
  cases d1 with
  | nil => exact absurd rfl hne
  | cons d0 d' => rfl

theorem numGroup_run_plain {s d1 r : List Char} (hne : d1 ≠ [])
    (h : takeRun Char.isDigit s = (d1, r)) (hr : r.head? ≠ some '.') :
    numGroup s = some (d1, r) := by
  unfold numGroup
  rw [h]
  split
  · simp_all
  · rename_i pr d1x rx hni heq
    injection heq with h1 h2
    subst h1
    subst h2
    split
    · exact absurd rfl hr
    · rfl

theorem ngTail_dot {q e1 r2 : List Char} (h : takeRun Char.isDigit q = (e1, '.' :: r2)) :
    ngTail q = (e1 ++ '.' :: (takeRun Char.isDigit r2).1, (takeRun Char.isDigit r2).2) := by
  unfold ngTail
  rw [h]
  split
  · rename_i e1x r2x heq
    injection heq with h1 h2
    injection h2 with h3 h4
    subst h1
    subst h4
    rcases hT : takeRun Char.isDigit r2 with ⟨e2, r3⟩
    rfl
  · rename_i hno heq
    injection heq with h1 h2
    exact absurd (hno r2 h2.symm) (by simp)

theorem ngTail_plain {q e1 r : List Char} (h : takeRun Char.isDigit q = (e1, r))
    (hr : r.head? ≠ some '.') : ngTail q = (e1, r) := by
  unfold ngTail
  rw [h]
  split
  · rename_i e1x r2x heq
    injection heq with h1 h2
    exact absurd (show r.head? = some '.' from by rw [h2]; rfl) hr
  · rename_i hno heq
    exact heq.symm

theorem numGroup_withPre {d q : List Char} (hne : d ≠ []) (hd : ∀ c ∈ d, c.isDigit = true) :
    numGroup (d ++ q) = some (d ++ (ngTail q).1, (ngTail q).2) := by
  rcases hq : takeRun Char.isDigit q with ⟨e1, r⟩
  have hdq : takeRun Char.isDigit (d ++ q) = (d ++ e1, r) := by
    rw [takeRun_append_pass hd, hq]
  have hde : d ++ e1 ≠ [] := by
    cases d with
    | nil => exact absurd rfl hne
    | cons a t => simp
  cases r with
  | nil =>
    rw [numGroup_run_plain hde hdq (by simp), ngTail_plain hq (by simp)]
  | cons r0 r1 =>
    by_cases h0 : r0 = '.'
    · subst h0
      rw [numGroup_run_dot hde hdq, ngTail_dot hq]
      simp [List.append_assoc]
    · have hh : (r0 :: r1).head? ≠ some '.' := by simp [h0]
      rw [numGroup_run_plain hde hdq hh, ngTail_plain hq hh]

theorem mNum_eq_win {x : Char} {s g r : List Char} (hg : numGroup s = some (g, r)) :
    mNum x s = (if winOK x r then
      some (g.length + (takeRun pyWs r).1.length + 3, g ++ ['V', ' ', uppC x, 'C'])
    else none) := by
  unfold mNum
  rw [hg]
  split
  · rename_i heq
    exact absurd heq (by simp)
  · rename_i gx rx heq
    injection heq with h1
    injection h1 with h2 h3
    subst h2
    subst h3
    rcases hW : takeRun pyWs r with ⟨w, rest2⟩
    unfold winOK
    rw [hW]
    cases rest2 with
    | nil => rfl
    | cons a t1 =>
      cases t1 with
      | nil => rfl
      | cons b t2 =>
        cases t2 with
        | nil => rfl
        | cons c2 t3 =>
          by_cases h1 : lowC a = 'v'
          · by_cases h2 : lowC b = lowC x
            · by_cases h3 : lowC c2 = 'c'
              · simp [h1, h2, h3]
              · simp [h1, h2, h3]
            · simp [h1, h2]
          · simp [h1]

/-! ## Bridging the number automaton to mNum -/

theorem winOK_cons_ws {x c : Char} {t : List Char} (hw : pyWs c = true) :
    winOK x (c :: t) = winOK x t := by
  unfold winOK
  rw [takeRun_eq7, takeRun_eq7]
  simp only [List.dropWhile_cons, hw, if_true]

theorem takeRun_stop {p : Char → Bool} {c : Char} {t : List Char} (hc : p c = false) :
    takeRun p (c :: t) = ([], c :: t) := by
  rw [takeRun_eq7, List.takeWhile_cons, List.dropWhile_cons]
  simp [hc]

theorem npFail_s4_eq_win {x : Char} : ∀ r : List Char, npFail x .s4 r = !(winOK x r) := by
  intro r
  induction r with
  | nil => rfl
  | cons c t ih =>
    by_cases hw : pyWs c = true
    · rw [winOK_cons_ws hw]
      show (if pyWs c = true then npFail x .s4 t else _) = _
      rw [if_pos hw]
      exact ih
    · have hw2 : pyWs c = false := by simpa using hw
      have hwin : winOK x (c :: t) = (match t with
        | b :: c2 :: _ => lowC c = 'v' && lowC b = lowC x && lowC c2 = 'c'
        | _ => false) := by
        unfold winOK
        rw [takeRun_stop hw2]
        cases t with
        | nil => rfl
        | cons b t2 =>
          cases t2 with
          | nil => rfl
          | cons c2 t3 => rfl
      rw [hwin]
      show (if pyWs c = true then npFail x .s4 t
        else if lowC c = 'v' then npFail x .s6 t else true) = _
      rw [if_neg hw]
      cases t with
      | nil =>
        by_cases h1 : lowC c = 'v'
        · rw [if_pos h1]
          rfl
        · rw [if_neg h1]
          rfl
      | cons b t2 =>
        cases t2 with
        | nil =>
          by_cases h1 : lowC c = 'v'
          · rw [if_pos h1]
            show (if lowC b = lowC x then npFail x .s7 [] else true) = _
            by_cases h2 : lowC b = lowC x
            · rw [if_pos h2]
              rfl
            · rw [if_neg h2]
              rfl
          · rw [if_neg h1]
            rfl
        | cons c2 t3 =>
          by_cases h1 : lowC c = 'v'
          · rw [if_pos h1]
            show (if lowC b = lowC x then npFail x .s7 (c2 :: t3) else true) = _
            by_cases h2 : lowC b = lowC x
            · rw [if_pos h2]
              show (if lowC c2 = 'c' then false else true) = _
              by_cases h3 : lowC c2 = 'c'
              · rw [if_pos h3]
                simp [h1, h2, h3]
              · rw [if_neg h3]
                simp [h3]
            · rw [if_neg h2]
              simp [h2]
          · rw [if_neg h1]
            simp [h1]

theorem npFail_s2_eq_s4 {x c : Char} {t : List Char} (h : c.isDigit = false) :
    npFail x .s2 (c :: t) = npFail x .s4 (c :: t) := by
  show (if c.isDigit = true then npFail x .s2 t
      else if pyWs c = true then npFail x .s4 t
      else if lowC c = 'v' then npFail x .s6 t else true) = _
  rw [if_neg (by simp [h])]
  rfl

theorem npFail_s1_eq_s4 {x c : Char} {t : List Char} (h1 : c.isDigit = false)
    (h2 : c ≠ '.') : npFail x .s1 (c :: t) = npFail x .s4 (c :: t) := by
  show (if c.isDigit = true then npFail x .s1 t
      else if c = '.' then npFail x .s2 t
      else if pyWs c = true then npFail x .s4 t
      else if lowC c = 'v' then npFail x .s6 t else true) = _
  rw [if_neg (by simp [h1]), if_neg h2]
  rfl

theorem npFail_s1_eq_win {x : Char} (q : List Char) :
    npFail x .s1 q = !(winOK x (ngTail q).2) := by
  rcases hq : takeRun Char.isDigit q with ⟨e1, r⟩
  have hch : ∀ c ∈ e1, c.isDigit = true := by
    intro c hc
    exact takeRun_chars7 c (by rw [hq]; exact hc)
  have hsplit : q = e1 ++ r := by
    have h := takeRun_split Char.isDigit q
    rw [hq] at h
    exact h
  have hrh : ∀ y, r.head? = some y → y.isDigit = false := by
    intro y hy
    exact takeRun_rest_head y (by rw [hq]; exact hy)
  conv_lhs => rw [hsplit]
  rw [npFail_s1_digits hch]
  cases r with
  | nil =>
    rw [ngTail_plain hq (by simp)]
    rfl
  | cons r0 r1 =>
    have hr0 : r0.isDigit = false := hrh r0 rfl
    by_cases h0 : r0 = '.'
    · subst h0
      rw [ngTail_dot hq]
      show (if ('.').isDigit = true then npFail x .s1 r1
        else if ('.') = '.' then npFail x .s2 r1
        else if pyWs '.' = true then npFail x .s4 r1
        else if lowC '.' = 'v' then npFail x .s6 r1 else true) = _
      rw [if_neg (by decide), if_pos rfl]
      rcases hq2 : takeRun Char.isDigit r1 with ⟨e2, r3⟩
      have hch2 : ∀ c ∈ e2, c.isDigit = true := by
        intro c hc
        exact takeRun_chars7 c (by rw [hq2]; exact hc)
      have hsplit2 : r1 = e2 ++ r3 := by
        have h := takeRun_split Char.isDigit r1
        rw [hq2] at h
        exact h
      conv_lhs => rw [hsplit2]
      rw [npFail_s2_digits hch2]
      cases r3 with
      | nil => rfl
      | cons c3 t3 =>
        have hc3 : c3.isDigit = false := by
          exact takeRun_rest_head c3 (by rw [hq2]; rfl)
        rw [npFail_s2_eq_s4 hc3, npFail_s4_eq_win]
    · rw [ngTail_plain hq (by simp [h0])]
      rw [npFail_s1_eq_s4 hr0 h0, npFail_s4_eq_win]

theorem mNum_prefix_none_iff {x : Char} {d q : List Char} (hne : d ≠ [])
    (hd : ∀ c ∈ d, c.isDigit = true) :
    (mNum x (d ++ q) = none ↔ npFail x .s1 q = true) := by
  rw [mNum_eq_win (numGroup_withPre hne hd), npFail_s1_eq_win]
  by_cases hw : winOK x (ngTail q).2 = true
  · rw [if_pos hw, hw]
    simp
  · have hw2 : winOK x (ngTail q).2 = false := by
      cases h : winOK x (ngTail q).2 with
      | false => rfl
      | true => exact absurd h hw
    rw [if_neg (by simp [hw2]), hw2]
    simp

/-! ## Inversion lemmas for the three matchers -/

theorem ngTail_split (q : List Char) : q = (ngTail q).1 ++ (ngTail q).2 := by
  rcases hq : takeRun Char.isDigit q with ⟨e1, r⟩
  have hsp := takeRun_split Char.isDigit q
  rw [hq] at hsp
  cases r with
  | nil => rw [ngTail_plain hq (by simp)]; exact hsp
  | cons r0 r1 =>
    by_cases h0 : r0 = '.'
    · subst h0
      rw [ngTail_dot hq]
      have hsp2 := takeRun_split Char.isDigit r1
      rw [hsp, List.append_assoc]
      simp only [List.cons_append]
      rw [← hsp2]
    · rw [ngTail_plain hq (by simp [h0])]
      exact hsp

theorem ngTail_shape (q : List Char) : ∃ e1 e2, (∀ c ∈ e1, c.isDigit = true) ∧
    (∀ c ∈ e2, c.isDigit = true) ∧
    ((ngTail q).1 = e1 ∨ (ngTail q).1 = e1 ++ '.' :: e2) := by
  rcases hq : takeRun Char.isDigit q with ⟨e1, r⟩
  have hch : ∀ c ∈ e1, c.isDigit = true := by
    intro c hc
    exact takeRun_chars7 c (by rw [hq]; exact hc)
  cases r with
  | nil => exact ⟨e1, [], hch, by simp, Or.inl (by rw [ngTail_plain hq (by simp)])⟩
  | cons r0 r1 =>
    by_cases h0 : r0 = '.'
    · subst h0
      refine ⟨e1, (takeRun Char.isDigit r1).1, hch, fun c hc => takeRun_chars7 c hc,
        Or.inr ?_⟩
      rw [ngTail_dot hq]
    · exact ⟨e1, [], hch, by simp, Or.inl (by rw [ngTail_plain hq (by simp [h0])])⟩

theorem mVws_some_inv {x : Char} {s : List Char} {k : Nat} {rep : List Char}
    (h : mVws x s = some (k, rep)) :
    ∃ w r, s = 'V' :: (w ++ x :: 'C' :: r) ∧ w ≠ [] ∧ (∀ c ∈ w, pyWs c = true) ∧
      k = 1 + w.length + 2 ∧ rep = ['V', ' ', x, 'C'] := by
  cases s with
  | nil => exact absurd h (by rw [mVws_nil]; simp)
  | cons c t =>
    by_cases hc : c = 'V'
    · subst hc
      simp only [mVws] at h
      rcases hW : takeRun pyWs t with ⟨w, rest2⟩
      rw [hW] at h
      by_cases hwe : w.isEmpty = true
      · rw [if_pos hwe] at h
        exact absurd h (by simp)
      · rw [if_neg hwe] at h
        cases rest2 with
        | nil => exact absurd h (by simp)
        | cons a t1 =>
          cases t1 with
          | nil => exact absurd h (by simp)
          | cons b t2 =>
            replace h : (if a = x ∧ b = 'C' then
                some (1 + w.length + 2, ['V', ' ', x, 'C']) else none) = some (k, rep) := h
            by_cases hab : a = x ∧ b = 'C'
            · rw [if_pos hab] at h
              injection h with h1
              injection h1 with h2 h3
              have hsp := takeRun_split pyWs t
              rw [hW] at hsp
              rw [hab.1, hab.2] at hsp
              refine ⟨w, t2, by rw [hsp], ?_, ?_, h2.symm, h3.symm⟩
              · intro hwn
                rw [hwn] at hwe
                exact hwe rfl
              · intro ch hch
                exact takeRun_chars7 ch (by rw [hW]; exact hch)
            · rw [if_neg hab] at h
              exact absurd h (by simp)
    · exact absurd h (by rw [mVws_no_V hc]; simp)

theorem mNum_some_inv {x : Char} {s : List Char} {k : Nat} {rep : List Char}
    (h : mNum x s = some (k, rep)) :
    ∃ g w a b c2 r, s = g ++ (w ++ a :: b :: c2 :: r) ∧
      numGroup s = some (g, w ++ a :: b :: c2 :: r) ∧
      (∀ ch ∈ w, pyWs ch = true) ∧
      lowC a = 'v' ∧ lowC b = lowC x ∧ lowC c2 = 'c' ∧
      k = g.length + w.length + 3 ∧ rep = g ++ ['V', ' ', uppC x, 'C'] ∧
      g ≠ [] ∧
      ∃ d1 d2, d1 ≠ [] ∧ (∀ ch ∈ d1, ch.isDigit = true) ∧
        (∀ ch ∈ d2, ch.isDigit = true) ∧ (g = d1 ∨ g = d1 ++ '.' :: d2) := by
  cases s with
  | nil => exact absurd h (by rw [mNum_nil]; simp)
  | cons c t =>
    by_cases hcd : c.isDigit = true
    · have hg : numGroup (c :: t) = some ([c] ++ (ngTail t).1, (ngTail t).2) :=
        @numGroup_withPre [c] t (by simp)
          (by intro ch hch; rw [List.mem_singleton] at hch; rw [hch]; exact hcd)
      rw [mNum_eq_win hg] at h
      by_cases hwin : winOK x (ngTail t).2 = true
      · rw [if_pos hwin] at h
        injection h with h1
        injection h1 with h2 h3
        rcases hW : takeRun pyWs (ngTail t).2 with ⟨w, rest2⟩
        unfold winOK at hwin
        rw [hW] at hwin
        cases rest2 with
        | nil => exact absurd hwin (by simp)
        | cons a t1 =>
          cases t1 with
          | nil => exact absurd hwin (by simp)
          | cons b t2 =>
            cases t2 with
            | nil => exact absurd hwin (by simp)
            | cons c2 t3 =>
              simp only [Bool.and_eq_true, decide_eq_true_eq] at hwin
              obtain ⟨⟨hva, hvb⟩, hvc⟩ := hwin
              have hsp2 := takeRun_split pyWs (ngTail t).2
              rw [hW] at hsp2
              replace hsp2 : (ngTail t).2 = w ++ a :: b :: c2 :: t3 := hsp2
              have hse : c :: t = ([c] ++ (ngTail t).1) ++ (w ++ a :: b :: c2 :: t3) := by
                rw [← hsp2]
                rw [List.append_assoc]
                rw [← ngTail_split t]
                rfl
              obtain ⟨e1, e2, he1, he2, hor⟩ := ngTail_shape t
              refine ⟨[c] ++ (ngTail t).1, w, a, b, c2, t3, hse, by rw [← hsp2]; exact hg,
                (fun ch hch => takeRun_chars7 ch (by rw [hW]; exact hch)),
                hva, hvb, hvc, by rw [← h2, hW], by rw [← h3], by simp,
                c :: e1, e2, by simp, ?_, he2, ?_⟩
              · intro ch hch
                rcases List.mem_cons.mp hch with hch | hch
                · rw [hch]; exact hcd
                · exact he1 ch hch
              · rcases hor with hor | hor
                · exact Or.inl (by rw [hor, List.singleton_append])
                · exact Or.inr (by rw [hor]; simp)
      · rw [if_neg hwin] at h
        exact absurd h (by simp)
    · exact absurd h (by rw [mNum_no_digit (by simpa using hcd)]; simp)

theorem mSlash_some_inv {s : List Char} {k : Nat} {rep : List Char}
    (h : mSlash s = some (k, rep)) :
    ∃ d1 w1 w2 d2 r, s = d1 ++ (w1 ++ '/' :: (w2 ++ (d2 ++ r))) ∧
      d1 ≠ [] ∧ (∀ c ∈ d1, c.isDigit = true) ∧ (∀ c ∈ w1, pyWs c = true) ∧
      (∀ c ∈ w2, pyWs c = true) ∧ d2 ≠ [] ∧ (∀ c ∈ d2, c.isDigit = true) ∧
      (∀ y, r.head? = some y → y.isDigit = false) ∧
      k = d1.length + w1.length + 1 + w2.length + d2.length ∧ rep = d1 ++ '/' :: d2 := by
  rcases hR : takeRun Char.isDigit s with ⟨d1, rest⟩
  have hsp0 := takeRun_split Char.isDigit s
  rw [hR] at hsp0
  have hsp : s = d1 ++ rest := hsp0
  unfold mSlash at h
  rw [hR] at h
  cases d1 with
  | nil => exact absurd h (by simp)
  | cons dc dt =>
    replace h : (match takeRun pyWs rest with
      | (w1, rest2) =>
        match rest2 with
        | '/' :: rest3 =>
          match takeRun pyWs rest3 with
          | (w2, rest4) =>
            match takeRun Char.isDigit rest4 with
            | ([], _) => none
            | (d2, _) => some ((dc :: dt).length + w1.length + 1 + w2.length + d2.length,
                (dc :: dt) ++ '/' :: d2)
        | _ => none) = some (k, rep) := h
    rcases hW1 : takeRun pyWs rest with ⟨w1, rest2⟩
    rw [hW1] at h
    cases rest2 with
    | nil => exact absurd h (by simp)
    | cons r0 r1 =>
      by_cases hr0 : r0 = '/'
      · subst hr0
        replace h : (match takeRun pyWs r1 with
          | (w2, rest4) =>
            match takeRun Char.isDigit rest4 with
            | ([], _) => none
            | (d2, _) => some ((dc :: dt).length + w1.length + 1 + w2.length + d2.length,
                (dc :: dt) ++ '/' :: d2)) = some (k, rep) := h
        rcases hW2 : takeRun pyWs r1 with ⟨w2, rest4⟩
        rw [hW2] at h
        replace h : (match takeRun Char.isDigit rest4 with
          | ([], _) => none
          | (d2, _) => some ((dc :: dt).length + w1.length + 1 + w2.length + d2.length,
              (dc :: dt) ++ '/' :: d2)) = some (k, rep) := h
        rcases hD2 : takeRun Char.isDigit rest4 with ⟨d2, r5⟩
        rw [hD2] at h
        cases d2 with
        | nil => exact absurd h (by simp)
        | cons ec et =>
          replace h : some ((dc :: dt).length + w1.length + 1 + w2.length + (ec :: et).length,
              (dc :: dt) ++ '/' :: (ec :: et)) = some (k, rep) := h
          injection h with h1
          injection h1 with h2 h3
          have hsp1 := takeRun_split pyWs rest
          rw [hW1] at hsp1
          have hsp2 := takeRun_split pyWs r1
          rw [hW2] at hsp2
          have hsp3 := takeRun_split Char.isDigit rest4
          rw [hD2] at hsp3
          refine ⟨dc :: dt, w1, w2, ec :: et, r5, ?_, by simp, ?_, ?_, ?_, by simp, ?_, ?_,
            ?_, ?_⟩
          · rw [hsp, hsp1, hsp2, hsp3]
          · intro ch hch
            exact takeRun_chars7 ch (by rw [hR]; exact hch)
          · intro ch hch
            exact takeRun_chars7 ch (by rw [hW1]; exact hch)
          · intro ch hch
            exact takeRun_chars7 ch (by rw [hW2]; exact hch)
          · intro ch hch
            exact takeRun_chars7 ch (by rw [hD2]; exact hch)
          · intro y hy
            exact takeRun_rest_head y (by rw [hD2]; exact hy)
          · rw [← h2]
          · rw [← h3]
      · replace h : (match r0 :: r1 with
          | '/' :: rest3 =>
            match takeRun pyWs rest3 with
            | (w2, rest4) =>
              match takeRun Char.isDigit rest4 with
              | ([], _) => none
              | (d2, _) => some ((dc :: dt).length + w1.length + 1 + w2.length + d2.length,
                  (dc :: dt) ++ '/' :: d2)
          | _ => none) = some (k, rep) := h
        split at h
        · rename_i rest3 heq
          exact absurd (show r0 = '/' from by injection heq) hr0
        · exact absurd h (by simp)

/-! ## Step functions and cons equations for the automata -/

theorem npFail_cons (x : Char) (sg : NPh) (c : Char) (t : List Char) :
    npFail x sg (c :: t) = (match npStep x sg c with
      | some sg2 => npFail x sg2 t
      | none => npRes x sg c) := by
  cases sg with
  | s1 =>
    show (if c.isDigit = true then npFail x .s1 t
      else if c = '.' then npFail x .s2 t
      else if pyWs c = true then npFail x .s4 t
      else if lowC c = 'v' then npFail x .s6 t
      else true) = _
    simp only [npStep, npRes]
    by_cases h1 : c.isDigit = true
    · rw [if_pos h1, if_pos h1]
    · rw [if_neg h1, if_neg h1]
      by_cases h2 : c = '.'
      · rw [if_pos h2, if_pos h2]
      · rw [if_neg h2, if_neg h2]
        by_cases h3 : pyWs c = true
        · rw [if_pos h3, if_pos h3]
        · rw [if_neg h3, if_neg h3]
          by_cases h4 : lowC c = 'v'
          · rw [if_pos h4, if_pos h4]
          · rw [if_neg h4, if_neg h4]
  | s2 =>
    show (if c.isDigit = true then npFail x .s2 t
      else if pyWs c = true then npFail x .s4 t
      else if lowC c = 'v' then npFail x .s6 t
      else true) = _
    simp only [npStep, npRes]
    by_cases h1 : c.isDigit = true
    · rw [if_pos h1, if_pos h1]
    · rw [if_neg h1, if_neg h1]
      by_cases h3 : pyWs c = true
      · rw [if_pos h3, if_pos h3]
      · rw [if_neg h3, if_neg h3]
        by_cases h4 : lowC c = 'v'
        · rw [if_pos h4, if_pos h4]
        · rw [if_neg h4, if_neg h4]
  | s4 =>
    show (if pyWs c = true then npFail x .s4 t
      else if lowC c = 'v' then npFail x .s6 t
      else true) = _
    simp only [npStep, npRes]
    by_cases h3 : pyWs c = true
    · rw [if_pos h3, if_pos h3]
    · rw [if_neg h3, if_neg h3]
      by_cases h4 : lowC c = 'v'
      · rw [if_pos h4, if_pos h4]
      · rw [if_neg h4, if_neg h4]
  | s6 =>
    show (if lowC c = lowC x then npFail x .s7 t else true) = _
    simp only [npStep, npRes]
    by_cases h4 : lowC c = lowC x
    · rw [if_pos h4, if_pos h4]
    · rw [if_neg h4, if_neg h4]
  | s7 =>
    show (if lowC c = 'c' then false else true) = _
    simp only [npStep, npRes]

theorem vB_cons (x : Char) (sg : VSt) (c : Char) (t : List Char) :
    vB x sg (c :: t) = (match vStep x sg c with
      | some sg2 => vB x sg2 t
      | none => vRes x sg c) := by
  cases sg with
  | wE =>
    show (if pyWs c = true then (if c = ' ' then vB x .wS t else vB x .wB t) else true) = _
    simp only [vStep, vRes]
    by_cases h1 : pyWs c = true
    · rw [if_pos h1, if_pos h1]
      by_cases h2 : c = ' '
      · rw [if_pos h2, if_pos h2]
      · rw [if_neg h2, if_neg h2]
    · rw [if_neg h1, if_neg h1]
  | wS =>
    show (if pyWs c = true then vB x .wB t else true) = _
    simp only [vStep, vRes]
    by_cases h1 : pyWs c = true
    · rw [if_pos h1, if_pos h1]
    · rw [if_neg h1, if_neg h1]
  | wB =>
    show (if pyWs c = true then vB x .wB t else if c = x then vB x .bB t else true) = _
    simp only [vStep, vRes]
    by_cases h1 : pyWs c = true
    · rw [if_pos h1, if_pos h1]
    · rw [if_neg h1, if_neg h1]
      by_cases h2 : c = x
      · rw [if_pos h2, if_pos h2]
      · rw [if_neg h2, if_neg h2]
  | bB =>
    show (if c = 'C' then false else true) = _
    simp only [vStep, vRes]

theorem slFail_cons (sg : SSt) (c : Char) (t : List Char) :
    slFail sg (c :: t) = (match sStep sg c with
      | some sg2 => slFail sg2 t
      | none => sRes sg c) := by
  cases sg with
  | sA =>
    show (if c.isDigit = true then slFail .sA t
      else if pyWs c = true then slFail .sB t
      else if c = '/' then slFail .sC t
      else true) = _
    simp only [sStep, sRes]
    by_cases h1 : c.isDigit = true
    · rw [if_pos h1, if_pos h1]
    · rw [if_neg h1, if_neg h1]
      by_cases h2 : pyWs c = true
      · rw [if_pos h2, if_pos h2]
      · rw [if_neg h2, if_neg h2]
        by_cases h3 : c = '/'
        · rw [if_pos h3, if_pos h3]
        · rw [if_neg h3, if_neg h3]
  | sB =>
    show (if pyWs c = true then slFail .sB t
      else if c = '/' then slFail .sC t
      else true) = _
    simp only [sStep, sRes]
    by_cases h2 : pyWs c = true
    · rw [if_pos h2, if_pos h2]
    · rw [if_neg h2, if_neg h2]
      by_cases h3 : c = '/'
      · rw [if_pos h3, if_pos h3]
      · rw [if_neg h3, if_neg h3]
  | sC =>
    show (if pyWs c = true then slFail .sC t
      else if c.isDigit = true then false else true) = _
    simp only [sStep, sRes]
    by_cases h2 : pyWs c = true
    · rw [if_pos h2, if_pos h2]
    · rw [if_neg h2, if_neg h2]

/-! ## Transfer of automaton failure across substitution scans -/

theorem ws_not_digit {c : Char} (h : pyWs c = true) : c.isDigit = false := by
  unfold pyWs at h
  simp only [Bool.or_eq_true, decide_eq_true_eq] at h
  rcases h with ((((h | h) | h) | h) | h) | h <;> · rw [h]; decide

theorem np_transfer {x : Char} {m : List Char → Option (Nat × List Char)}
    (hkill : ∀ s k rep, m s = some (k, rep) → ∀ sg z, npFail x sg (rep ++ z) = true) :
    ∀ fuel t sg, npFail x sg t = true → npFail x sg (scanSub m fuel t) = true := by
  intro fuel
  induction fuel with
  | zero =>
    intro t sg h
    exact h
  | succ f ih =>
    intro t sg h
    cases t with
    | nil => exact h
    | cons c t2 =>
      simp only [scanSub]
      cases hm : m (c :: t2) with
      | some pr =>
        obtain ⟨k, rep⟩ := pr
        show npFail x sg (rep ++ scanSub m f (List.drop (k - 1) t2)) = true
        exact hkill _ k rep hm sg _
      | none =>
        show npFail x sg (c :: scanSub m f t2) = true
        rw [npFail_cons] at h
        rw [npFail_cons]
        cases hst : npStep x sg c with
        | some sg2 =>
          rw [hst] at h
          replace h : npFail x sg2 t2 = true := h
          show npFail x sg2 (scanSub m f t2) = true
          exact ih t2 sg2 h
        | none =>
          rw [hst] at h
          exact h

theorem vb_transfer {x : Char} {m : List Char → Option (Nat × List Char)}
    (hkill : ∀ s k rep, m s = some (k, rep) →
      ∃ h0 r0, rep = h0 :: r0 ∧ pyWs h0 = false ∧ h0 ≠ x ∧ h0 ≠ 'C') :
    ∀ fuel t sg, vB x sg t = true → vB x sg (scanSub m fuel t) = true := by
  intro fuel
  induction fuel with
  | zero =>
    intro t sg h
    exact h
  | succ f ih =>
    intro t sg h
    cases t with
    | nil => exact h
    | cons c t2 =>
      simp only [scanSub]
      cases hm : m (c :: t2) with
      | some pr =>
        obtain ⟨k, rep⟩ := pr
        show vB x sg (rep ++ scanSub m f (List.drop (k - 1) t2)) = true
        obtain ⟨h0, r0, hrep, hw0, hx0, hc0⟩ := hkill _ k rep hm
        rw [hrep, List.cons_append, vB_cons]
        cases sg with
        | wE =>
          simp only [vStep, vRes]
          rw [if_neg (by simp [hw0])]
        | wS =>
          simp only [vStep, vRes]
          rw [if_neg (by simp [hw0])]
        | wB =>
          simp only [vStep, vRes]
          rw [if_neg (by simp [hw0]), if_neg hx0]
        | bB =>
          simp only [vStep, vRes]
          rw [if_neg hc0]
      | none =>
        show vB x sg (c :: scanSub m f t2) = true
        rw [vB_cons] at h
        rw [vB_cons]
        cases hst : vStep x sg c with
        | some sg2 =>
          rw [hst] at h
          replace h : vB x sg2 t2 = true := h
          show vB x sg2 (scanSub m f t2) = true
          exact ih t2 sg2 h
        | none =>
          rw [hst] at h
          exact h

theorem slFail_sB_slash {wt z : List Char} (hw : ∀ c ∈ wt, pyWs c = true) :
    slFail .sB (wt ++ '/' :: z) = slFail .sC z := by
  rw [slFail_sB_ws hw, slFail_cons]
  simp only [sStep, sRes]
  rw [if_neg (by decide)]
  simp

theorem slFail_sA_slash {w1 z : List Char} (hw : ∀ c ∈ w1, pyWs c = true) :
    slFail .sA (w1 ++ '/' :: z) = slFail .sC z := by
  cases w1 with
  | nil =>
    rw [List.nil_append, slFail_cons]
    simp only [sStep, sRes]
    rw [if_neg (by decide), if_neg (by decide)]
    simp
  | cons ww wt =>
    have hww : pyWs ww = true := hw ww (List.mem_cons_self ww wt)
    rw [List.cons_append, slFail_cons]
    simp only [sStep, sRes]
    rw [if_neg (by simp [ws_not_digit hww]), if_pos hww]
    exact slFail_sB_slash (fun c hc => hw c (List.mem_cons_of_mem ww hc))

theorem slFail_sA_match_false {s : List Char} {k : Nat} {rep : List Char}
    (hm : mSlash s = some (k, rep)) : slFail .sA s = false := by
  obtain ⟨d1, w1, w2, d2, r, hse, hd1ne, hd1, hw1, hw2, hd2ne, hd2, hrh, hk, hrep⟩ :=
    mSlash_some_inv hm
  rw [hse, slFail_sA_digits hd1, slFail_sA_slash hw1, slFail_sC_ws hw2]
  cases d2 with
  | nil => exact absurd rfl hd2ne
  | cons ec et =>
    have hec : ec.isDigit = true := hd2 ec (List.mem_cons_self ec et)
    rw [List.cons_append, slFail_cons]
    simp only [sStep, sRes]
    rw [if_neg (by simp [digit_not_ws hec]), if_pos hec]

theorem sl_transfer :
    ∀ fuel t sg, slFail sg t = true → slFail sg (scanSub mSlash fuel t) = true := by
  intro fuel
  induction fuel with
  | zero =>
    intro t sg h
    exact h
  | succ f ih =>
    intro t sg h
    cases t with
    | nil => exact h
    | cons c t2 =>
      simp only [scanSub]
      cases hm : mSlash (c :: t2) with
      | some pr =>
        obtain ⟨k, rep⟩ := pr
        show slFail sg (rep ++ scanSub mSlash f (List.drop (k - 1) t2)) = true
        obtain ⟨d1, w1, w2, d2, r, hse, hd1ne, hd1, hw1, hw2, hd2ne, hd2, hrh, hk, hrep⟩ :=
          mSlash_some_inv hm
        cases sg with
        | sA => exact absurd h (by rw [slFail_sA_match_false hm]; simp)
        | sC =>
          exfalso
          cases d1 with
          | nil => exact absurd rfl hd1ne
          | cons dc dt =>
            rw [List.cons_append] at hse
            injection hse with he1 he2
            have hdc : c.isDigit = true := by
              rw [he1]
              exact hd1 dc (List.mem_cons_self dc dt)
            rw [slFail_cons] at h
            simp only [sStep, sRes] at h
            rw [if_neg (by simp [digit_not_ws hdc]), if_pos hdc] at h
            exact absurd h (by simp)
        | sB =>
          cases d1 with
          | nil => exact absurd rfl hd1ne
          | cons dc dt =>
            have hdc : dc.isDigit = true := hd1 dc (List.mem_cons_self dc dt)
            rw [hrep]
            simp only [List.cons_append, List.append_assoc]
            rw [slFail_cons]
            simp only [sStep, sRes]
            rw [if_neg (by simp [digit_not_ws hdc]), if_neg (digit_ne hdc (by decide))]
      | none =>
        show slFail sg (c :: scanSub mSlash f t2) = true
        rw [slFail_cons] at h
        rw [slFail_cons]
        cases hst : sStep sg c with
        | some sg2 =>
          rw [hst] at h
          replace h : slFail sg2 t2 = true := h
          show slFail sg2 (scanSub mSlash f t2) = true
          exact ih t2 sg2 h
        | none =>
          rw [hst] at h
          exact h

/-! ## Replacement texts kill the number automaton in every state -/

theorem np_lit_s4 {x : Char} (hx : x = 'd' ∨ x = 'a') (y : Char) (z : List Char) :
    npFail x .s4 ('V' :: ' ' :: y :: z) = true := by
  rw [npFail_cons]
  simp only [npStep, npRes]
  rw [if_neg (by decide), if_pos (by decide)]
  show npFail x .s6 (' ' :: y :: z) = true
  rw [npFail_cons]
  simp only [npStep, npRes]
  rcases hx with hx | hx <;> · subst hx; rw [if_neg (by decide)]

theorem np_kill_mVws {x y : Char} (hx : x = 'd' ∨ x = 'a') :
    ∀ s k rep, mVws y s = some (k, rep) → ∀ sg z, npFail x sg (rep ++ z) = true := by
  intro s k rep hm sg z
  obtain ⟨w, r, hse, hwne, hw, hk, hrep⟩ := mVws_some_inv hm
  rw [hrep]
  show npFail x sg ('V' :: ' ' :: y :: 'C' :: z) = true
  cases sg with
  | s1 =>
    rw [npFail_s1_eq_s4 (by decide) (by decide)]
    exact np_lit_s4 hx y ('C' :: z)
  | s2 =>
    rw [npFail_s2_eq_s4 (by decide)]
    exact np_lit_s4 hx y ('C' :: z)
  | s4 => exact np_lit_s4 hx y ('C' :: z)
  | s6 =>
    rw [npFail_cons]
    simp only [npStep, npRes]
    rcases hx with hx | hx <;> · subst hx; rw [if_neg (by decide)]
  | s7 =>
    rw [npFail_cons]
    simp only [npStep, npRes]
    rw [if_neg (by decide)]

theorem np_kill_head_digit {x dc : Char} {t : List Char} (hx : x = 'd' ∨ x = 'a')
    (hdc : dc.isDigit = true) :
    npFail x .s4 (dc :: t) = true ∧ npFail x .s6 (dc :: t) = true ∧
      npFail x .s7 (dc :: t) = true := by
  refine ⟨?_, ?_, ?_⟩
  · rw [npFail_cons]
    simp only [npStep, npRes]
    rw [if_neg (by simp [digit_not_ws hdc]), if_neg (digit_lowC_ne hdc (by decide))]
  · rw [npFail_cons]
    simp only [npStep, npRes]
    rcases hx with hx | hx
    · subst hx
      rw [if_neg (by rw [show lowC 'd' = 'd' from by decide]; exact digit_lowC_ne hdc (by decide))]
    · subst hx
      rw [if_neg (by rw [show lowC 'a' = 'a' from by decide]; exact digit_lowC_ne hdc (by decide))]
  · rw [npFail_cons]
    simp only [npStep, npRes]
    rw [if_neg (digit_lowC_ne hdc (by decide))]

theorem np_kill_mNum {x y : Char} (hx : x = 'd' ∨ x = 'a') (hy : y = 'd' ∨ y = 'a') :
    ∀ s k rep, mNum y s = some (k, rep) → ∀ sg z, npFail x sg (rep ++ z) = true := by
  intro s k rep hm sg z
  obtain ⟨g, w, a, b, c2, r, hse, hg, hwx, hva, hvb, hvc, hk, hrep, hgne,
    d1, d2, hd1ne, hd1, hd2, hor⟩ := mNum_some_inv hm
  rw [hrep]
  rw [List.append_assoc]
  have hlit : ∀ st : NPh, st = .s1 ∨ st = .s2 →
      npFail x st (['V', ' ', uppC y, 'C'] ++ z) = true := by
    intro st hst
    rcases hst with hst | hst <;> subst hst
    · rw [show (['V', ' ', uppC y, 'C'] ++ z) = 'V' :: ' ' :: uppC y :: 'C' :: z from rfl,
        npFail_s1_eq_s4 (by decide) (by decide)]
      exact np_lit_s4 hx (uppC y) ('C' :: z)
    · rw [show (['V', ' ', uppC y, 'C'] ++ z) = 'V' :: ' ' :: uppC y :: 'C' :: z from rfl,
        npFail_s2_eq_s4 (by decide)]
      exact np_lit_s4 hx (uppC y) ('C' :: z)
  cases sg with
  | s1 =>
    rcases hor with hor | hor <;> subst hor
    · rw [npFail_s1_digits hd1]
      exact hlit .s1 (Or.inl rfl)
    · rw [List.append_assoc, List.cons_append, npFail_s1_digits hd1]
      show (if ('.').isDigit = true then npFail x .s1 (d2 ++ (['V', ' ', uppC y, 'C'] ++ z))
        else if ('.') = '.' then npFail x .s2 (d2 ++ (['V', ' ', uppC y, 'C'] ++ z))
        else if pyWs '.' = true then npFail x .s4 (d2 ++ (['V', ' ', uppC y, 'C'] ++ z))
        else if lowC '.' = 'v' then npFail x .s6 (d2 ++ (['V', ' ', uppC y, 'C'] ++ z))
        else true) = true
      rw [if_neg (by decide), if_pos rfl]
      rw [npFail_s2_digits hd2]
      exact hlit .s2 (Or.inr rfl)
  | s2 =>
    rcases hor with hor | hor <;> subst hor
    · rw [npFail_s2_digits hd1]
      exact hlit .s2 (Or.inr rfl)
    · rw [List.append_assoc, List.cons_append, npFail_s2_digits hd1]
      show (if ('.').isDigit = true then npFail x .s2 (d2 ++ (['V', ' ', uppC y, 'C'] ++ z))
        else if pyWs '.' = true then npFail x .s4 (d2 ++ (['V', ' ', uppC y, 'C'] ++ z))
        else if lowC '.' = 'v' then npFail x .s6 (d2 ++ (['V', ' ', uppC y, 'C'] ++ z))
        else true) = true
      rw [if_neg (by decide), if_neg (by decide), if_neg (by decide)]
  | s4 =>
    cases d1 with
    | nil => exact absurd rfl hd1ne
    | cons dc dt =>
      have hdc : dc.isDigit = true := hd1 dc (List.mem_cons_self dc dt)
      rcases hor with hor | hor <;> subst hor <;>
        simp only [List.cons_append, List.append_assoc] <;>
        exact (np_kill_head_digit hx hdc).1
  | s6 =>
    cases d1 with
    | nil => exact absurd rfl hd1ne
    | cons dc dt =>
      have hdc : dc.isDigit = true := hd1 dc (List.mem_cons_self dc dt)
      rcases hor with hor | hor <;> subst hor <;>
        simp only [List.cons_append, List.append_assoc] <;>
        exact (np_kill_head_digit hx hdc).2.1
  | s7 =>
    cases d1 with
    | nil => exact absurd rfl hd1ne
    | cons dc dt =>
      have hdc : dc.isDigit = true := hd1 dc (List.mem_cons_self dc dt)
      rcases hor with hor | hor <;> subst hor <;>
        simp only [List.cons_append, List.append_assoc] <;>
        exact (np_kill_head_digit hx hdc).2.2

theorem np_kill_mSlash {x : Char} (hx : x = 'd' ∨ x = 'a') :
    ∀ s k rep, mSlash s = some (k, rep) → ∀ sg z, npFail x sg (rep ++ z) = true := by
  intro s k rep hm sg z
  obtain ⟨d1, w1, w2, d2, r, hse, hd1ne, hd1, hw1, hw2, hd2ne, hd2, hrh, hk, hrep⟩ :=
    mSlash_some_inv hm
  rw [hrep]
  simp only [List.append_assoc, List.cons_append]
  cases sg with
  | s1 =>
    rw [npFail_s1_digits hd1]
    show (if ('/').isDigit = true then npFail x .s1 (d2 ++ z)
      else if ('/') = '.' then npFail x .s2 (d2 ++ z)
      else if pyWs '/' = true then npFail x .s4 (d2 ++ z)
      else if lowC '/' = 'v' then npFail x .s6 (d2 ++ z)
      else true) = true
    rw [if_neg (by decide), if_neg (by decide), if_neg (by decide), if_neg (by decide)]
  | s2 =>
    rw [npFail_s2_digits hd1]
    show (if ('/').isDigit = true then npFail x .s2 (d2 ++ z)
      else if pyWs '/' = true then npFail x .s4 (d2 ++ z)
      else if lowC '/' = 'v' then npFail x .s6 (d2 ++ z)
      else true) = true
    rw [if_neg (by decide), if_neg (by decide), if_neg (by decide)]
  | s4 =>
    cases d1 with
    | nil => exact absurd rfl hd1ne
    | cons dc dt =>
      have hdc : dc.isDigit = true := hd1 dc (List.mem_cons_self dc dt)
      rw [List.cons_append]
      exact (np_kill_head_digit hx hdc).1
  | s6 =>
    cases d1 with
    | nil => exact absurd rfl hd1ne
    | cons dc dt =>
      have hdc : dc.isDigit = true := hd1 dc (List.mem_cons_self dc dt)
      rw [List.cons_append]
      exact (np_kill_head_digit hx hdc).2.1
  | s7 =>
    cases d1 with
    | nil => exact absurd rfl hd1ne
    | cons dc dt =>
      have hdc : dc.isDigit = true := hd1 dc (List.mem_cons_self dc dt)
      rw [List.cons_append]
      exact (np_kill_head_digit hx hdc).2.2

/-! ## NoNum: establishment and preservation -/

theorem NoNum_suffix {x : Char} {l u0 : List Char} (h : NoNum x l) (hu : u0 <:+ l) :
    NoNum x u0 :=
  fun u hs => h u (hs.trans hu)

theorem suffix_append_same {α : Type} {u v t : List α} (h : u <:+ v) :
    u ++ t <:+ v ++ t := by
  obtain ⟨p, hp⟩ := h
  exact ⟨p, by rw [← List.append_assoc, hp]⟩

theorem mNum_cons_none_iff {x c : Char} {t : List Char} (hcd : c.isDigit = true) :
    mNum x (c :: t) = none ↔ npFail x .s1 t = true := by
  have h := @mNum_prefix_none_iff x [c] t (by simp)
    (by intro ch hch; rw [List.mem_singleton] at hch; rw [hch]; exact hcd)
  simpa using h

theorem np_lit_suffix {x Y : Char} (hx : x = 'd' ∨ x = 'a') (hY : Y.isDigit = false) :
    ∀ u1 z, u1 <:+ ['V', ' ', Y, 'C'] → u1 ≠ [] → mNum x (u1 ++ z) = none := by
  intro u1 z hu hne
  rcases List.suffix_cons_iff.mp hu with h | h
  · subst h
    rw [List.cons_append]
    exact mNum_no_digit (by decide)
  rcases List.suffix_cons_iff.mp h with h | h
  · subst h
    rw [List.cons_append]
    exact mNum_no_digit (by decide)
  rcases List.suffix_cons_iff.mp h with h | h
  · subst h
    rw [List.cons_append]
    exact mNum_no_digit hY
  rcases List.suffix_cons_iff.mp h with h | h
  · subst h
    rw [List.cons_append]
    exact mNum_no_digit (by decide)
  · exact absurd (List.suffix_nil.mp h) hne

theorem np_s1_lit {x Y : Char} (hx : x = 'd' ∨ x = 'a') {dt : List Char}
    (hdt : ∀ c ∈ dt, c.isDigit = true) (z : List Char) :
    npFail x .s1 (dt ++ ('V' :: ' ' :: Y :: 'C' :: z)) = true := by
  rw [npFail_s1_digits hdt, npFail_s1_eq_s4 (by decide) (by decide)]
  exact np_lit_s4 hx Y ('C' :: z)

theorem np_s2_lit {x Y : Char} (hx : x = 'd' ∨ x = 'a') {dt : List Char}
    (hdt : ∀ c ∈ dt, c.isDigit = true) (z : List Char) :
    npFail x .s2 (dt ++ ('V' :: ' ' :: Y :: 'C' :: z)) = true := by
  rw [npFail_s2_digits hdt, npFail_s2_eq_s4 (by decide)]
  exact np_lit_s4 hx Y ('C' :: z)

theorem np_rep_suffix {x y : Char} (hx : x = 'd' ∨ x = 'a') (hy : y = 'd' ∨ y = 'a')
    {s : List Char} {k : Nat} {rep : List Char} (hm : mNum y s = some (k, rep)) :
    ∀ u1 z, u1 <:+ rep → u1 ≠ [] → mNum x (u1 ++ z) = none := by
  obtain ⟨g, w, a, b, c2, r, hse, hg, hwx, hva, hvb, hvc, hk, hrep, hgne,
    d1, d2, hd1ne, hd1, hd2, hor⟩ := mNum_some_inv hm
  have hY : (uppC y).isDigit = false := by
    rcases hy with hy | hy <;> · subst hy; decide
  intro u1 z hu hne
  rw [hrep] at hu
  rcases suffix_append_cases hu with hu | ⟨g2, hg2, hg2ne, hu1⟩
  · exact np_lit_suffix hx hY u1 z hu hne
  subst hu1
  rw [List.append_assoc]
  rcases hor with hor | hor
  · subst hor
    cases g2 with
    | nil => exact absurd rfl hg2ne
    | cons dc dt =>
      have hdc : dc.isDigit = true := hd1 dc (hg2.subset (List.mem_cons_self dc dt))
      have hdt : ∀ c ∈ dt, c.isDigit = true :=
        fun c hc => hd1 c (hg2.subset (List.mem_cons_of_mem dc hc))
      rw [List.cons_append]
      exact (mNum_cons_none_iff hdc).mpr (np_s1_lit hx hdt z)
  · subst hor
    rcases suffix_append_cases hg2 with hg2 | ⟨d11, hd11, hd11ne, hg2e⟩
    · rcases List.suffix_cons_iff.mp hg2 with hg2 | hg2
      · subst hg2
        rw [List.cons_append]
        exact mNum_no_digit (by decide)
      · cases g2 with
        | nil => exact absurd rfl hg2ne
        | cons dc dt =>
          have hdc : dc.isDigit = true := hd2 dc (hg2.subset (List.mem_cons_self dc dt))
          have hdt : ∀ c ∈ dt, c.isDigit = true :=
            fun c hc => hd2 c (hg2.subset (List.mem_cons_of_mem dc hc))
          rw [List.cons_append]
          exact (mNum_cons_none_iff hdc).mpr (np_s1_lit hx hdt z)
    · subst hg2e
      cases d11 with
      | nil => exact absurd rfl hd11ne
      | cons dc dt =>
        have hdc : dc.isDigit = true := hd1 dc (hd11.subset (List.mem_cons_self dc dt))
        have hdt : ∀ c ∈ dt, c.isDigit = true :=
          fun c hc => hd1 c (hd11.subset (List.mem_cons_of_mem dc hc))
        simp only [List.cons_append, List.append_assoc]
        refine (mNum_cons_none_iff hdc).mpr ?_
        rw [npFail_s1_digits hdt]
        show (if ('.').isDigit = true then npFail x .s1 (d2 ++ ('V' :: ' ' :: uppC y :: 'C' :: z))
          else if ('.') = '.' then npFail x .s2 (d2 ++ ('V' :: ' ' :: uppC y :: 'C' :: z))
          else if pyWs '.' = true then npFail x .s4 (d2 ++ ('V' :: ' ' :: uppC y :: 'C' :: z))
          else if lowC '.' = 'v' then npFail x .s6 (d2 ++ ('V' :: ' ' :: uppC y :: 'C' :: z))
          else true) = true
        rw [if_neg (by decide), if_pos rfl]
        exact np_s2_lit hx hd2 z

theorem np_est {x : Char} (hx : x = 'd' ∨ x = 'a') :
    ∀ fuel s, s.length ≤ fuel → NoNum x (scanSub (mNum x) fuel s) := by
  intro fuel
  induction fuel with
  | zero =>
    intro s hs u hu
    rw [Nat.le_zero, List.length_eq_zero] at hs
    subst hs
    rw [List.suffix_nil.mp hu]
    exact mNum_nil
  | succ f ih =>
    intro s hs
    cases s with
    | nil =>
      intro u hu
      replace hu : u <:+ ([] : List Char) := hu
      rw [List.suffix_nil.mp hu]
      exact mNum_nil
    | cons c t =>
      have hlt : t.length ≤ f := by
        simp only [List.length_cons] at hs
        omega
      intro u hu
      simp only [scanSub] at hu
      cases hm : mNum x (c :: t) with
      | none =>
        rw [hm] at hu
        replace hu : u <:+ c :: scanSub (mNum x) f t := hu
        rcases List.suffix_cons_iff.mp hu with hu | hu
        · subst hu
          by_cases hcd : c.isDigit = true
          · refine (mNum_cons_none_iff hcd).mpr ?_
            exact np_transfer (np_kill_mNum hx hx) f t .s1 ((mNum_cons_none_iff hcd).mp hm)
          · exact mNum_no_digit (by simpa using hcd)
        · exact ih t hlt u hu
      | some pr =>
        obtain ⟨k, rep⟩ := pr
        rw [hm] at hu
        replace hu : u <:+ rep ++ scanSub (mNum x) f (List.drop (k - 1) t) := hu
        rcases suffix_append_cases hu with hu | ⟨u1, hu1s, hu1ne, hueq⟩
        · refine ih (List.drop (k - 1) t) ?_ u hu
          calc (List.drop (k - 1) t).length ≤ t.length := by
                rw [List.length_drop]
                omega
            _ ≤ f := hlt
        · subst hueq
          exact np_rep_suffix hx hx hm u1 _ hu1s hu1ne

theorem no_num_scan {x : Char} {m : List Char → Option (Nat × List Char)}
    (hkill : ∀ s k rep, m s = some (k, rep) → ∀ sg z, npFail x sg (rep ++ z) = true)
    (hsuf : ∀ c t2 k rep (f : Nat), m (c :: t2) = some (k, rep) → NoNum x (c :: t2) →
      ∀ u1, u1 <:+ rep → u1 ≠ [] →
        mNum x (u1 ++ scanSub m f (List.drop (k - 1) t2)) = none) :
    ∀ fuel t, NoNum x t → NoNum x (scanSub m fuel t) := by
  intro fuel
  induction fuel with
  | zero =>
    intro t h
    exact h
  | succ f ih =>
    intro t h
    cases t with
    | nil => exact h
    | cons c t2 =>
      intro u hu
      simp only [scanSub] at hu
      cases hm : m (c :: t2) with
      | none =>
        rw [hm] at hu
        replace hu : u <:+ c :: scanSub m f t2 := hu
        rcases List.suffix_cons_iff.mp hu with hu | hu
        · subst hu
          by_cases hcd : c.isDigit = true
          · refine (mNum_cons_none_iff hcd).mpr ?_
            refine np_transfer hkill f t2 .s1 ?_
            exact (mNum_cons_none_iff hcd).mp (h (c :: t2) (List.suffix_refl _))
          · exact mNum_no_digit (by simpa using hcd)
        · exact ih t2 (NoNum_suffix h (List.suffix_cons c t2)) u hu
      | some pr =>
        obtain ⟨k, rep⟩ := pr
        rw [hm] at hu
        replace hu : u <:+ rep ++ scanSub m f (List.drop (k - 1) t2) := hu
        rcases suffix_append_cases hu with hu | ⟨u1, hu1s, hu1ne, hueq⟩
        · refine ih (List.drop (k - 1) t2)
            (NoNum_suffix h ((List.drop_suffix _ _).trans (List.suffix_cons c t2))) u hu
        · subst hueq
          exact hsuf c t2 k rep f hm h u1 hu1s hu1ne

theorem runSub_id_of_NoNum {x : Char} {l : List Char} (h : NoNum x l) :
    runSub (mNum x) l = l := by
  unfold runSub
  exact scanSub_fix
    (fun c t hs k rep hm => absurd hm (by rw [h (c :: t) hs]; simp))
    (l.length + 1) l (List.suffix_refl l)

/-! ## Per-pass suffix handlers for NoNum preservation -/

theorem np_suf_mVws {x y : Char} (hx : x = 'd' ∨ x = 'a') (hY : y.isDigit = false) :
    ∀ c t2 k rep (f : Nat), mVws y (c :: t2) = some (k, rep) → NoNum x (c :: t2) →
      ∀ u1, u1 <:+ rep → u1 ≠ [] →
        mNum x (u1 ++ scanSub (mVws y) f (List.drop (k - 1) t2)) = none := by
  intro c t2 k rep f hm hno u1 hu1 hne
  obtain ⟨w, r, hse, hwne, hw, hk, hrep⟩ := mVws_some_inv hm
  rw [hrep] at hu1
  exact np_lit_suffix hx hY u1 _ hu1 hne

theorem np_suf_mNum {x y : Char} (hx : x = 'd' ∨ x = 'a') (hy : y = 'd' ∨ y = 'a') :
    ∀ c t2 k rep (f : Nat), mNum y (c :: t2) = some (k, rep) → NoNum x (c :: t2) →
      ∀ u1, u1 <:+ rep → u1 ≠ [] →
        mNum x (u1 ++ scanSub (mNum y) f (List.drop (k - 1) t2)) = none := by
  intro c t2 k rep f hm hno u1 hu1 hne
  exact np_rep_suffix hx hy hm u1 _ hu1 hne

theorem drop_match_slash {c : Char} {t2 d1 w1 w2 d2 r : List Char} {k : Nat}
    (hse : c :: t2 = d1 ++ (w1 ++ '/' :: (w2 ++ (d2 ++ r))))
    (hd1ne : d1 ≠ [])
    (hk : k = d1.length + w1.length + 1 + w2.length + d2.length) :
    List.drop (k - 1) t2 = r := by
  cases d1 with
  | nil => exact absurd rfl hd1ne
  | cons dc0 dt0 =>
    rw [List.cons_append] at hse
    injection hse with hc0 ht2
    have hl : t2 = (dt0 ++ (w1 ++ '/' :: (w2 ++ d2))) ++ r := by
      rw [ht2]
      simp [List.append_assoc, List.cons_append]
    have hlen : (dt0 ++ (w1 ++ '/' :: (w2 ++ d2))).length = k - 1 := by
      simp only [List.length_append, List.length_cons, hk]
      omega
    have hd := drop_len_plus (dt0 ++ (w1 ++ '/' :: (w2 ++ d2))) r 0
    rw [Nat.add_zero, List.drop_zero] at hd
    rw [hl, ← hlen]
    exact hd

theorem np_suf_mSlash {x : Char} (hx : x = 'd' ∨ x = 'a') :
    ∀ c t2 k rep (f : Nat), mSlash (c :: t2) = some (k, rep) → NoNum x (c :: t2) →
      ∀ u1, u1 <:+ rep → u1 ≠ [] →
        mNum x (u1 ++ scanSub mSlash f (List.drop (k - 1) t2)) = none := by
  intro c t2 k rep f hm hno u1 hu1 hne
  obtain ⟨d1, w1, w2, d2, r, hse, hd1ne, hd1, hw1, hw2, hd2ne, hd2, hrh, hk, hrep⟩ :=
    mSlash_some_inv hm
  rw [drop_match_slash hse hd1ne hk]
  rw [hrep] at hu1
  rcases suffix_append_cases hu1 with hu1 | ⟨d11, hd11, hd11ne, hu1e⟩
  · rcases List.suffix_cons_iff.mp hu1 with hu1 | hu1
    · subst hu1
      rw [List.cons_append]
      exact mNum_no_digit (by decide)
    · cases u1 with
      | nil => exact absurd rfl hne
      | cons dc dt =>
        have hdc : dc.isDigit = true := hd2 dc (hu1.subset (List.mem_cons_self dc dt))
        have hdt : ∀ ch ∈ dt, ch.isDigit = true :=
          fun ch hch => hd2 ch (hu1.subset (List.mem_cons_of_mem dc hch))
        rw [List.cons_append]
        refine (mNum_cons_none_iff hdc).mpr ?_
        rw [npFail_s1_digits hdt]
        refine np_transfer (np_kill_mSlash hx) f r .s1 ?_
        have hsub : (dc :: dt) ++ r <:+ c :: t2 := by
          refine (suffix_append_same hu1).trans ?_
          refine ⟨d1 ++ (w1 ++ '/' :: w2), ?_⟩
          rw [hse]
          simp [List.append_assoc, List.cons_append]
        have hnone := hno _ hsub
        rw [List.cons_append] at hnone
        have hnp := (mNum_cons_none_iff hdc).mp hnone
        rw [npFail_s1_digits hdt] at hnp
        exact hnp
  · subst hu1e
    cases d11 with
    | nil => exact absurd rfl hd11ne
    | cons dc dt =>
      have hdc : dc.isDigit = true := hd1 dc (hd11.subset (List.mem_cons_self dc dt))
      have hdt : ∀ ch ∈ dt, ch.isDigit = true :=
        fun ch hch => hd1 ch (hd11.subset (List.mem_cons_of_mem dc hch))
      simp only [List.cons_append, List.append_assoc]
      refine (mNum_cons_none_iff hdc).mpr ?_
      rw [npFail_s1_digits hdt]
      show (if ('/').isDigit = true
          then npFail x .s1 (d2 ++ scanSub mSlash f r)
        else if ('/') = '.' then npFail x .s2 (d2 ++ scanSub mSlash f r)
        else if pyWs '/' = true then npFail x .s4 (d2 ++ scanSub mSlash f r)
        else if lowC '/' = 'v' then npFail x .s6 (d2 ++ scanSub mSlash f r)
        else true) = true
      rw [if_neg (by decide), if_neg (by decide), if_neg (by decide), if_neg (by decide)]

/-! ## Bridging the bad-whitespace automaton to mVws -/

theorem vb_wE_nonws {x : Char} {z : List Char}
    (hz : ∀ y, z.head? = some y → pyWs y = false) : vB x .wE z = true := by
  cases z with
  | nil => rfl
  | cons z0 z1 =>
    rw [vB_cons]
    simp only [vStep, vRes]
    rw [if_neg (by simp [hz z0 rfl])]

theorem vb_wS_nonws {x : Char} {z : List Char}
    (hz : ∀ y, z.head? = some y → pyWs y = false) : vB x .wS z = true := by
  cases z with
  | nil => rfl
  | cons z0 z1 =>
    rw [vB_cons]
    simp only [vStep, vRes]
    rw [if_neg (by simp [hz z0 rfl])]

theorem vb_wE_walk {x : Char} {w z : List Char} (hw : ∀ c ∈ w, pyWs c = true)
    (hne : w ≠ []) (hsp : w ≠ [' ']) : vB x .wE (w ++ z) = vB x .wB z := by
  cases w with
  | nil => exact absurd rfl hne
  | cons w0 wt =>
    have hw0 : pyWs w0 = true := hw w0 (List.mem_cons_self w0 wt)
    rw [List.cons_append, vB_cons]
    simp only [vStep, vRes]
    rw [if_pos hw0]
    by_cases h0 : w0 = ' '
    · rw [if_pos h0]
      cases wt with
      | nil => exact absurd (by rw [h0]) hsp
      | cons w1 wt2 =>
        have hw1 : pyWs w1 = true := hw w1 (List.mem_cons_of_mem w0 (List.mem_cons_self w1 wt2))
        show vB x .wS (w1 :: (wt2 ++ z)) = _
        rw [vB_cons]
        simp only [vStep, vRes]
        rw [if_pos hw1]
        show vB x .wB (wt2 ++ z) = _
        exact vB_wB_ws (fun c hc =>
          hw c (List.mem_cons_of_mem w0 (List.mem_cons_of_mem w1 hc))) z
    · rw [if_neg h0]
      show vB x .wB (wt ++ z) = _
      exact vB_wB_ws (fun c hc => hw c (List.mem_cons_of_mem w0 hc)) z

theorem vb_wB_match {x : Char} (hxw : pyWs x = false) (r2 : List Char) :
    vB x .wB (x :: 'C' :: r2) = false := by
  show (if pyWs x = true then vB x .wB ('C' :: r2)
    else if x = x then vB x .bB ('C' :: r2) else true) = false
  rw [if_neg (by simp [hxw]), if_pos rfl]
  show (if 'C' = 'C' then false else true) = false
  rw [if_pos rfl]

theorem vb_of_none {x : Char} (hxw : pyWs x = false) {r : List Char}
    (hm : mVws x ('V' :: r) = none) : vB x .wE r = true := by
  rcases hq : takeRun pyWs r with ⟨w, rest2⟩
  have hsp := takeRun_split pyWs r
  rw [hq] at hsp
  have hws : ∀ c ∈ w, pyWs c = true := by
    intro c hc
    exact takeRun_chars7 c (by rw [hq]; exact hc)
  have hrh : ∀ y, rest2.head? = some y → pyWs y = false := by
    intro y hy
    exact takeRun_rest_head y (by rw [hq]; exact hy)
  rw [hsp]
  by_cases hwnil : w = []
  · subst hwnil
    rw [List.nil_append]
    exact vb_wE_nonws hrh
  by_cases hwsp : w = [' ']
  · subst hwsp
    rw [List.singleton_append]
    show (if pyWs ' ' = true then (if ' ' = ' ' then vB x .wS rest2 else vB x .wB rest2)
      else true) = true
    rw [if_pos (by decide), if_pos rfl]
    exact vb_wS_nonws hrh
  rw [vb_wE_walk hws hwnil hwsp]
  cases rest2 with
  | nil => rfl
  | cons a t1 =>
    have ha : pyWs a = false := hrh a rfl
    rw [vB_cons]
    simp only [vStep, vRes]
    rw [if_neg (by simp [ha])]
    by_cases hax : a = x
    · rw [if_pos hax]
      cases t1 with
      | nil => rfl
      | cons b t2 =>
        by_cases hbC : b = 'C'
        · exfalso
          have hsome : mVws x ('V' :: r) = some (1 + w.length + 2, ['V', ' ', x, 'C']) := by
            simp only [mVws]
            rw [hq]
            replace hq : (if w.isEmpty = true then none
              else match a :: b :: t2 with
                | a1 :: b1 :: _ =>
                  if a1 = x ∧ b1 = 'C' then some (1 + w.length + 2, ['V', ' ', x, 'C'])
                  else none
                | _ => none) =
              (if w.isEmpty = true then none
              else if a = x ∧ b = 'C' then some (1 + w.length + 2, ['V', ' ', x, 'C'])
              else none) := rfl
            rw [hq, if_neg (by simp [hwnil]), if_pos ⟨hax, hbC⟩]
          exact absurd hm (by rw [hsome]; simp)
        · show vB x .bB (b :: t2) = true
          rw [vB_cons]
          simp only [vStep, vRes]
          rw [if_neg hbC]
    · rw [if_neg hax]

theorem vb_id_of_true {x : Char} (hxw : pyWs x = false) {r : List Char} {k : Nat}
    {rep : List Char} (hm : mVws x ('V' :: r) = some (k, rep))
    (hv : vB x .wE r = true) : rep = List.take k ('V' :: r) := by
  obtain ⟨w, r2, hse, hwne, hws, hk, hrep⟩ := mVws_some_inv hm
  injection hse with h1 h2
  by_cases hwsp : w = [' ']
  · subst hwsp
    rw [hrep, hk, h2]
    rfl
  · exfalso
    rw [h2, vb_wE_walk hws hwne hwsp, vb_wB_match hxw] at hv
    exact absurd hv (by simp)

theorem vb_of_id {x : Char} (hxw : pyWs x = false) {r : List Char} {k : Nat}
    {rep : List Char}
    (hm : mVws x ('V' :: r) = some (k, rep)) (hid : rep = List.take k ('V' :: r)) :
    vB x .wE r = true := by
  obtain ⟨w, r2, hse, hwne, hws, hk, hrep⟩ := mVws_some_inv hm
  injection hse with h1 h2
  have hwsp : w = [' '] := by
    have hklen : k ≤ ('V' :: r).length := by
      rw [h2, hk]
      simp only [List.length_cons, List.length_append, List.length_cons]
      omega
    have hlen : rep.length = k := by
      rw [hid, List.length_take]
      omega
    rw [hrep] at hlen
    have hw1 : w.length = 1 := by
      simp only [List.length_cons, List.length_nil] at hlen
      omega
    cases w with
    | nil => exact absurd rfl hwne
    | cons w0 wt =>
      cases wt with
      | nil =>
        have h0 : w0 = ' ' := by
          have htk : List.take k ('V' :: r) = 'V' :: w0 :: x :: 'C' :: [] := by
            rw [h2, hk]
            rfl
          have he : 'V' :: w0 :: x :: 'C' :: ([] : List Char) = ['V', ' ', x, 'C'] := by
            rw [← htk, ← hid]
            exact hrep
          injection he with hx1 he2
          injection he2 with hx2 he3
        rw [h0]
      | cons w1 wt2 =>
        simp only [List.length_cons] at hw1
        omega
  subst hwsp
  rw [h2, List.singleton_append]
  show (if pyWs ' ' = true then
      (if ' ' = ' ' then vB x .wS (x :: 'C' :: r2) else vB x .wB (x :: 'C' :: r2))
    else true) = true
  rw [if_pos (by decide), if_pos rfl]
  exact vb_wS_nonws (by
    intro y hy
    injection hy with hy2
    rw [← hy2]
    exact hxw)

/-! ## NoBadV: establishment and preservation -/

theorem NoBadV_suffix {x : Char} {l u0 : List Char} (h : NoBadV x l) (hu : u0 <:+ l) :
    NoBadV x u0 :=
  fun u k rep hs hm => h u k rep (hs.trans hu) hm

theorem vb_kill_mVws {x y : Char} (hx : x = 'D' ∨ x = 'A') :
    ∀ s k rep, mVws y s = some (k, rep) →
      ∃ h0 r0, rep = h0 :: r0 ∧ pyWs h0 = false ∧ h0 ≠ x ∧ h0 ≠ 'C' := by
  intro s k rep hm
  obtain ⟨w, r, hse, hwne, hw, hk, hrep⟩ := mVws_some_inv hm
  refine ⟨'V', [' ', y, 'C'], by rw [hrep], by decide, ?_, by decide⟩
  rcases hx with hx | hx <;> · subst hx; decide

theorem vb_kill_mSlash {x : Char} (hx : x = 'D' ∨ x = 'A') :
    ∀ s k rep, mSlash s = some (k, rep) →
      ∃ h0 r0, rep = h0 :: r0 ∧ pyWs h0 = false ∧ h0 ≠ x ∧ h0 ≠ 'C' := by
  intro s k rep hm
  obtain ⟨d1, w1, w2, d2, r, hse, hd1ne, hd1, hw1, hw2, hd2ne, hd2, hrh, hk, hrep⟩ :=
    mSlash_some_inv hm
  cases d1 with
  | nil => exact absurd rfl hd1ne
  | cons dc dt =>
    have hdc : dc.isDigit = true := hd1 dc (List.mem_cons_self dc dt)
    refine ⟨dc, dt ++ '/' :: d2, by rw [hrep, List.cons_append], digit_not_ws hdc, ?_, ?_⟩
    · rcases hx with hx | hx <;> · subst hx; exact digit_ne hdc (by decide)
    · exact digit_ne hdc (by decide)

theorem vb_rep_suffix {x Y : Char} (hxw : pyWs x = false) (hYw : pyWs Y = false)
    (hYV : Y ≠ 'V') :
    ∀ u1 Z, u1 <:+ ['V', ' ', Y, 'C'] → u1 ≠ [] → ∀ k2 rep2,
      mVws x (u1 ++ Z) = some (k2, rep2) → rep2 = List.take k2 (u1 ++ Z) := by
  intro u1 Z hu hne k2 rep2 hm2
  rcases List.suffix_cons_iff.mp hu with h | h
  · subst h
    simp only [List.cons_append, List.nil_append] at hm2 ⊢
    refine vb_id_of_true hxw hm2 ?_
    show (if pyWs ' ' = true then
        (if ' ' = ' ' then vB x .wS (Y :: 'C' :: Z) else vB x .wB (Y :: 'C' :: Z))
      else true) = true
    rw [if_pos (by decide), if_pos rfl]
    exact vb_wS_nonws (by
      intro y hy
      injection hy with hy2
      rw [← hy2]
      exact hYw)
  rcases List.suffix_cons_iff.mp h with h | h
  · subst h
    rw [List.cons_append] at hm2
    exact absurd hm2 (by rw [mVws_no_V (by decide)]; simp)
  rcases List.suffix_cons_iff.mp h with h | h
  · subst h
    rw [List.cons_append] at hm2
    exact absurd hm2 (by rw [mVws_no_V hYV]; simp)
  rcases List.suffix_cons_iff.mp h with h | h
  · subst h
    rw [List.cons_append] at hm2
    exact absurd hm2 (by rw [mVws_no_V (by decide)]; simp)
  · exact absurd (List.suffix_nil.mp h) hne

theorem vb_suf_mVws {x y : Char} (hx : x = 'D' ∨ x = 'A') (hy : y = 'D' ∨ y = 'A') :
    ∀ c t2 k rep (f : Nat), mVws y (c :: t2) = some (k, rep) → NoBadV x (c :: t2) →
      ∀ u1, u1 <:+ rep → u1 ≠ [] → ∀ k2 rep2,
        mVws x (u1 ++ scanSub (mVws y) f (List.drop (k - 1) t2)) = some (k2, rep2) →
        rep2 = List.take k2 (u1 ++ scanSub (mVws y) f (List.drop (k - 1) t2)) := by
  intro c t2 k rep f hm hno u1 hu1 hne k2 rep2 hm2
  obtain ⟨w, r, hse, hwne, hw, hk, hrep⟩ := mVws_some_inv hm
  rw [hrep] at hu1
  have hxw : pyWs x = false := by rcases hx with hx | hx <;> · subst hx; decide
  have hYw : pyWs y = false := by rcases hy with hy | hy <;> · subst hy; decide
  have hYV : y ≠ 'V' := by rcases hy with hy | hy <;> · subst hy; decide
  exact vb_rep_suffix hxw hYw hYV u1 _ hu1 hne k2 rep2 hm2

theorem vb_suf_mSlash {x : Char} :
    ∀ c t2 k rep (f : Nat), mSlash (c :: t2) = some (k, rep) → NoBadV x (c :: t2) →
      ∀ u1, u1 <:+ rep → u1 ≠ [] → ∀ k2 rep2,
        mVws x (u1 ++ scanSub mSlash f (List.drop (k - 1) t2)) = some (k2, rep2) →
        rep2 = List.take k2 (u1 ++ scanSub mSlash f (List.drop (k - 1) t2)) := by
  intro c t2 k rep f hm hno u1 hu1 hne k2 rep2 hm2
  obtain ⟨d1, w1, w2, d2, r, hse, hd1ne, hd1, hw1, hw2, hd2ne, hd2, hrh, hk, hrep⟩ :=
    mSlash_some_inv hm
  cases u1 with
  | nil => exact absurd rfl hne
  | cons h0 u1t =>
    have hmem : h0 ∈ rep := hu1.subset (List.mem_cons_self h0 u1t)
    rw [hrep] at hmem
    have hV : h0 ≠ 'V' := by
      rcases List.mem_append.mp hmem with hmem | hmem
      · exact digit_ne (hd1 h0 hmem) (by decide)
      · rcases List.mem_cons.mp hmem with hmem | hmem
        · subst hmem; decide
        · exact digit_ne (hd2 h0 hmem) (by decide)
    rw [List.cons_append] at hm2
    exact absurd hm2 (by rw [mVws_no_V hV]; simp)

theorem vb_est {x : Char} (hx : x = 'D' ∨ x = 'A') :
    ∀ fuel s, s.length ≤ fuel → NoBadV x (scanSub (mVws x) fuel s) := by
  have hxw : pyWs x = false := by rcases hx with hx | hx <;> · subst hx; decide
  intro fuel
  induction fuel with
  | zero =>
    intro s hs u k rep hu hm
    rw [Nat.le_zero, List.length_eq_zero] at hs
    subst hs
    rw [List.suffix_nil.mp hu] at hm
    exact absurd hm (by rw [mVws_nil]; simp)
  | succ f ih =>
    intro s hs
    cases s with
    | nil =>
      intro u k rep hu hm
      replace hu : u <:+ ([] : List Char) := hu
      rw [List.suffix_nil.mp hu] at hm
      exact absurd hm (by rw [mVws_nil]; simp)
    | cons c t =>
      have hlt : t.length ≤ f := by
        simp only [List.length_cons] at hs
        omega
      intro u k2 rep2 hu hm2
      simp only [scanSub] at hu
      cases hm : mVws x (c :: t) with
      | none =>
        rw [hm] at hu
        replace hu : u <:+ c :: scanSub (mVws x) f t := hu
        rcases List.suffix_cons_iff.mp hu with hu | hu
        · subst hu
          have hcV : c = 'V' := by
            obtain ⟨w, r, hse, hwne, hw, hk, hrep⟩ := mVws_some_inv hm2
            injection hse with h1 h2
          subst hcV
          refine vb_id_of_true hxw hm2 ?_
          exact vb_transfer (vb_kill_mVws hx) f t .wE (vb_of_none hxw hm)
        · exact ih t hlt u k2 rep2 hu hm2
      | some pr =>
        obtain ⟨k, rep⟩ := pr
        rw [hm] at hu
        replace hu : u <:+ rep ++ scanSub (mVws x) f (List.drop (k - 1) t) := hu
        rcases suffix_append_cases hu with hu | ⟨u1, hu1s, hu1ne, hueq⟩
        · refine ih (List.drop (k - 1) t) ?_ u k2 rep2 hu hm2
          calc (List.drop (k - 1) t).length ≤ t.length := by
                rw [List.length_drop]
                omega
            _ ≤ f := hlt
        · subst hueq
          obtain ⟨w, r, hse, hwne, hw, hk, hrep⟩ := mVws_some_inv hm
          rw [hrep] at hu1s
          have hYV : x ≠ 'V' := by rcases hx with hx | hx <;> · subst hx; decide
          exact vb_rep_suffix hxw hxw hYV u1 _ hu1s hu1ne k2 rep2 hm2

theorem no_badv_scan {x : Char} (hx : x = 'D' ∨ x = 'A')
    {m : List Char → Option (Nat × List Char)}
    (hkill : ∀ s k rep, m s = some (k, rep) →
      ∃ h0 r0, rep = h0 :: r0 ∧ pyWs h0 = false ∧ h0 ≠ x ∧ h0 ≠ 'C')
    (hsuf : ∀ c t2 k rep (f : Nat), m (c :: t2) = some (k, rep) → NoBadV x (c :: t2) →
      ∀ u1, u1 <:+ rep → u1 ≠ [] → ∀ k2 rep2,
        mVws x (u1 ++ scanSub m f (List.drop (k - 1) t2)) = some (k2, rep2) →
        rep2 = List.take k2 (u1 ++ scanSub m f (List.drop (k - 1) t2))) :
    ∀ fuel t, NoBadV x t → NoBadV x (scanSub m fuel t) := by
  have hxw : pyWs x = false := by rcases hx with hx | hx <;> · subst hx; decide
  intro fuel
  induction fuel with
  | zero =>
    intro t h
    exact h
  | succ f ih =>
    intro t h
    cases t with
    | nil => exact h
    | cons c t2 =>
      intro u k2 rep2 hu hm2
      simp only [scanSub] at hu
      cases hm : m (c :: t2) with
      | none =>
        rw [hm] at hu
        replace hu : u <:+ c :: scanSub m f t2 := hu
        rcases List.suffix_cons_iff.mp hu with hu | hu
        · subst hu
          have hcV : c = 'V' := by
            obtain ⟨w, r, hse, hwne, hw, hk, hrep⟩ := mVws_some_inv hm2
            injection hse with h1 h2
          subst hcV
          refine vb_id_of_true hxw hm2 ?_
          refine vb_transfer hkill f t2 .wE ?_
          cases hm0 : mVws x ('V' :: t2) with
          | none => exact vb_of_none hxw hm0
          | some pr0 =>
            obtain ⟨k0, rep0⟩ := pr0
            exact vb_of_id hxw hm0 (h _ k0 rep0 (List.suffix_refl _) hm0)
        · exact ih t2 (NoBadV_suffix h (List.suffix_cons c t2)) u k2 rep2 hu hm2
      | some pr =>
        obtain ⟨k, rep⟩ := pr
        rw [hm] at hu
        replace hu : u <:+ rep ++ scanSub m f (List.drop (k - 1) t2) := hu
        rcases suffix_append_cases hu with hu | ⟨u1, hu1s, hu1ne, hueq⟩
        · exact ih (List.drop (k - 1) t2)
            (NoBadV_suffix h ((List.drop_suffix _ _).trans (List.suffix_cons c t2)))
            u k2 rep2 hu hm2
        · subst hueq
          exact hsuf c t2 k rep f hm h u1 hu1s hu1ne k2 rep2 hm2

theorem runSub_id_of_NoBadV {x : Char} {l : List Char} (h : NoBadV x l) :
    runSub (mVws x) l = l := by
  unfold runSub
  refine scanSub_fix (fun c t hs k rep hm => ?_) (l.length + 1) l (List.suffix_refl l)
  have hid := h _ k rep hs hm
  obtain ⟨w, r2, hse, hwne, hws, hk, hkrep⟩ := mVws_some_inv hm
  rw [hid]
  have hk3 : ∃ j, k = j + 1 := by
    rw [hk]
    exact ⟨w.length + 2, by omega⟩
  obtain ⟨j, hj⟩ := hk3
  subst hj
  rw [show j + 1 - 1 = j from by omega, ← List.drop_succ_cons (l := t) (a := c)]
  exact List.take_append_drop (j + 1) (c :: t)

/-! ## Bridging the slash automaton to mSlash -/

theorem slFail_sA_eq_sB {r : List Char} (hr : ∀ y, r.head? = some y → y.isDigit = false) :
    slFail .sA r = slFail .sB r := by
  cases r with
  | nil => rfl
  | cons r0 r1 =>
    have h0 : r0.isDigit = false := hr r0 rfl
    show (if r0.isDigit = true then slFail .sA r1
      else if pyWs r0 = true then slFail .sB r1
      else if r0 = '/' then slFail .sC r1 else true) = _
    rw [if_neg (by simp [h0])]
    rfl

theorem mSlash_prefix_none_iff {d q : List Char} (hne : d ≠ [])
    (hd : ∀ c ∈ d, c.isDigit = true) :
    (mSlash (d ++ q) = none ↔ slFail .sA q = true) := by
  rcases hq : takeRun Char.isDigit q with ⟨e1, r⟩
  have hdq : takeRun Char.isDigit (d ++ q) = (d ++ e1, r) := by
    rw [takeRun_append_pass hd, hq]
  have hch : ∀ c ∈ e1, c.isDigit = true := by
    intro c hc
    exact takeRun_chars7 c (by rw [hq]; exact hc)
  have hsplit : q = e1 ++ r := by
    have h := takeRun_split Char.isDigit q
    rw [hq] at h
    exact h
  have hrh : ∀ y, r.head? = some y → y.isDigit = false := by
    intro y hy
    exact takeRun_rest_head y (by rw [hq]; exact hy)
  conv_rhs => rw [hsplit]
  rw [slFail_sA_digits hch, slFail_sA_eq_sB hrh]
  unfold mSlash
  rw [hdq]
  cases hde2 : d ++ e1 with
  | nil =>
    exfalso
    cases d with
    | nil => exact absurd rfl hne
    | cons a t => exact absurd hde2 (by simp)
  | cons dc dt =>
    show ((match takeRun pyWs r with
      | (w1, rest2) =>
        match rest2 with
        | '/' :: rest3 =>
          match takeRun pyWs rest3 with
          | (w2, rest4) =>
            match takeRun Char.isDigit rest4 with
            | ([], _) => none
            | (d2, _) => some ((dc :: dt).length + w1.length + 1 + w2.length + d2.length,
                (dc :: dt) ++ '/' :: d2)
        | _ => none) = none) ↔ slFail .sB r = true
    rcases hW1 : takeRun pyWs r with ⟨w1, rest2⟩
    have hsp1 : r = w1 ++ rest2 := by
      have h := takeRun_split pyWs r
      rw [hW1] at h
      exact h
    have hw1c : ∀ c ∈ w1, pyWs c = true := by
      intro c hc
      exact takeRun_chars7 c (by rw [hW1]; exact hc)
    have hr2h : ∀ y, rest2.head? = some y → pyWs y = false := by
      intro y hy
      exact takeRun_rest_head y (by rw [hW1]; exact hy)
    conv_rhs => rw [hsp1]
    rw [slFail_sB_ws hw1c]
    show ((match rest2 with
      | '/' :: rest3 =>
        match takeRun pyWs rest3 with
        | (w2, rest4) =>
          match takeRun Char.isDigit rest4 with
          | ([], _) => none
          | (d2, _) => some ((dc :: dt).length + w1.length + 1 + w2.length + d2.length,
              (dc :: dt) ++ '/' :: d2)
      | _ => none) = none) ↔ slFail .sB rest2 = true
    cases rest2 with
    | nil => simp [slFail]
    | cons r0 r1 =>
      have hr0w : pyWs r0 = false := hr2h r0 rfl
      by_cases h0 : r0 = '/'
      · subst h0
        show ((match takeRun pyWs r1 with
          | (w2, rest4) =>
            match takeRun Char.isDigit rest4 with
            | ([], _) => none
            | (d2, _) => some ((dc :: dt).length + w1.length + 1 + w2.length + d2.length,
                (dc :: dt) ++ '/' :: d2)) = none) ↔ slFail .sB ('/' :: r1) = true
        have hRB : slFail .sB ('/' :: r1) = slFail .sC r1 := by
          show (if pyWs '/' = true then slFail .sB r1
            else if ('/') = '/' then slFail .sC r1 else true) = _
          rw [if_neg (by decide), if_pos rfl]
        rw [hRB]
        rcases hW2 : takeRun pyWs r1 with ⟨w2, rest4⟩
        have hsp2 : r1 = w2 ++ rest4 := by
          have h := takeRun_split pyWs r1
          rw [hW2] at h
          exact h
        have hw2c : ∀ c ∈ w2, pyWs c = true := by
          intro c hc
          exact takeRun_chars7 c (by rw [hW2]; exact hc)
        have hr4h : ∀ y, rest4.head? = some y → pyWs y = false := by
          intro y hy
          exact takeRun_rest_head y (by rw [hW2]; exact hy)
        conv_rhs => rw [hsp2]
        rw [slFail_sC_ws hw2c]
        show ((match takeRun Char.isDigit rest4 with
          | ([], _) => none
          | (d2, _) => some ((dc :: dt).length + w1.length + 1 + w2.length + d2.length,
              (dc :: dt) ++ '/' :: d2)) = none) ↔ slFail .sC rest4 = true
        rcases hD2 : takeRun Char.isDigit rest4 with ⟨d2, r5⟩
        cases d2 with
        | nil =>
          cases rest4 with
          | nil => simp [slFail]
          | cons c4 t4 =>
            have hr5 : r5 = c4 :: t4 := by
              have h := takeRun_split Char.isDigit (c4 :: t4)
              rw [hD2, List.nil_append] at h
              exact h.symm
            have hc4 : c4.isDigit = false := by
              refine @takeRun_rest_head Char.isDigit (c4 :: t4) c4 ?_
              rw [hD2]
              show r5.head? = some c4
              rw [hr5]
              rfl
            have hc4w : pyWs c4 = false := hr4h c4 rfl
            have hRC : slFail .sC (c4 :: t4) = true := by
              show (if pyWs c4 = true then slFail .sC t4
                else if c4.isDigit = true then false else true) = true
              rw [if_neg (by simp [hc4w]), if_neg (by simp [hc4])]
            rw [hRC]
            simp
        | cons ec et =>
          have hec : ec.isDigit = true := by
            have h := takeRun_chars7 (p := Char.isDigit) (s := rest4) ec
              (by rw [hD2]; exact List.mem_cons_self ec et)
            exact h
          have hr4e : rest4 = (ec :: et) ++ r5 := by
            have h := takeRun_split Char.isDigit rest4
            rw [hD2] at h
            exact h
          have hRC : slFail .sC rest4 = false := by
            rw [hr4e, List.cons_append]
            show (if pyWs ec = true then slFail .sC (et ++ r5)
              else if ec.isDigit = true then false else true) = false
            rw [if_neg (by simp [digit_not_ws hec]), if_pos hec]
          rw [hRC]
          simp
      · have hRB : slFail .sB (r0 :: r1) = true := by
          show (if pyWs r0 = true then slFail .sB r1
            else if r0 = '/' then slFail .sC r1 else true) = true
          rw [if_neg (by simp [hr0w]), if_neg h0]
        rw [hRB]
        constructor
        · intro hx2
          rfl
        · intro hx2
          split
          · rename_i rest3 heq
            exact absurd (show r0 = '/' from by injection heq) h0
          · rfl

/-! ## Idempotence of the slash substitution pass -/

theorem mSlash_cons_none_iff {c : Char} {t : List Char} (hcd : c.isDigit = true) :
    mSlash (c :: t) = none ↔ slFail .sA t = true := by
  have h := @mSlash_prefix_none_iff [c] t (by simp)
    (by intro ch hch; rw [List.mem_singleton] at hch; rw [hch]; exact hcd)
  simpa using h

theorem sl_len : ∀ fuel s, (scanSub mSlash fuel s).length ≤ s.length := by
  intro fuel
  induction fuel with
  | zero =>
    intro s
    exact Nat.le_refl _
  | succ f ih =>
    intro s
    cases s with
    | nil => exact Nat.le_refl _
    | cons c t =>
      simp only [scanSub]
      cases hm : mSlash (c :: t) with
      | none =>
        show (c :: scanSub mSlash f t).length ≤ (c :: t).length
        simp only [List.length_cons]
        exact Nat.succ_le_succ (ih t)
      | some pr =>
        obtain ⟨k, rep⟩ := pr
        show (rep ++ scanSub mSlash f (List.drop (k - 1) t)).length ≤ (c :: t).length
        obtain ⟨d1, w1, w2, d2, r, hse, hd1ne, hd1, hw1, hw2, hd2ne, hd2, hrh, hk, hrep⟩ :=
          mSlash_some_inv hm
        have hrl : rep.length = d1.length + 1 + d2.length := by
          rw [hrep]
          simp only [List.length_append, List.length_cons]
          omega
        have h1 := ih (List.drop (k - 1) t)
        have h2 : (List.drop (k - 1) t).length = t.length - (k - 1) := List.length_drop _ _
        have hlen := congrArg List.length hse
        simp only [List.length_cons, List.length_append] at hlen
        simp only [List.length_append, List.length_cons]
        omega

theorem scanSl_head_nodigit {r : List Char}
    (hr : ∀ y, r.head? = some y → y.isDigit = false) (fuel : Nat) :
    ∀ y, (scanSub mSlash fuel r).head? = some y → y.isDigit = false := by
  cases fuel with
  | zero => exact hr
  | succ f =>
    cases r with
    | nil => exact hr
    | cons c t =>
      intro y hy
      simp only [scanSub] at hy
      rw [mSlash_no_digit (hr c rfl)] at hy
      replace hy : (c :: scanSub mSlash f t).head? = some y := hy
      injection hy with hy2
      rw [← hy2]
      exact hr c rfl

theorem mSlash_rematch {d1 d2 O : List Char} (hd1ne : d1 ≠ [])
    (hd1 : ∀ c ∈ d1, c.isDigit = true) (hd2ne : d2 ≠ [])
    (hd2 : ∀ c ∈ d2, c.isDigit = true)
    (hOh : ∀ y, O.head? = some y → y.isDigit = false) :
    mSlash ((d1 ++ '/' :: d2) ++ O) = some (d1.length + 1 + d2.length, d1 ++ '/' :: d2) := by
  have hform : (d1 ++ '/' :: d2) ++ O = d1 ++ ('/' :: (d2 ++ O)) := by
    simp [List.append_assoc]
  rw [hform]
  have hrun : takeRun Char.isDigit (d1 ++ '/' :: (d2 ++ O)) = (d1, '/' :: (d2 ++ O)) :=
    takeRun_compute hd1 (by intro y hy; injection hy with hy2; rw [← hy2]; decide)
  unfold mSlash
  rw [hrun]
  cases d1 with
  | nil => exact absurd rfl hd1ne
  | cons dc dt =>
    show (match takeRun pyWs ('/' :: (d2 ++ O)) with
      | (w1, rest2) =>
        match rest2 with
        | '/' :: rest3 =>
          match takeRun pyWs rest3 with
          | (w2, rest4) =>
            match takeRun Char.isDigit rest4 with
            | ([], _) => none
            | (d2x, _) => some ((dc :: dt).length + w1.length + 1 + w2.length + d2x.length,
                (dc :: dt) ++ '/' :: d2x)
        | _ => none) =
      some ((dc :: dt).length + 1 + d2.length, (dc :: dt) ++ '/' :: d2)
    rw [takeRun_stop (by decide)]
    show (match takeRun pyWs (d2 ++ O) with
      | (w2, rest4) =>
        match takeRun Char.isDigit rest4 with
        | ([], _) => none
        | (d2x, _) => some ((dc :: dt).length + ([] : List Char).length + 1 + w2.length +
            d2x.length, (dc :: dt) ++ '/' :: d2x)) =
      some ((dc :: dt).length + 1 + d2.length, (dc :: dt) ++ '/' :: d2)
    cases d2 with
    | nil => exact absurd rfl hd2ne
    | cons ec et =>
      have hec : ec.isDigit = true := hd2 ec (List.mem_cons_self ec et)
      rw [List.cons_append, takeRun_stop (by simp [digit_not_ws hec])]
      show (match takeRun Char.isDigit (ec :: (et ++ O)) with
        | ([], _) => none
        | (d2x, _) => some ((dc :: dt).length + ([] : List Char).length + 1 +
            ([] : List Char).length + d2x.length, (dc :: dt) ++ '/' :: d2x)) =
        some ((dc :: dt).length + 1 + (ec :: et).length, (dc :: dt) ++ '/' :: (ec :: et))
      rw [show takeRun Char.isDigit (ec :: (et ++ O)) = (ec :: et, O) from by
        rw [← List.cons_append]
        exact takeRun_compute hd2 hOh]
      simp

theorem sl_idem : ∀ fuel s, s.length ≤ fuel → ∀ fuel2,
    (scanSub mSlash fuel s).length ≤ fuel2 →
    scanSub mSlash fuel2 (scanSub mSlash fuel s) = scanSub mSlash fuel s := by
  intro fuel
  induction fuel with
  | zero =>
    intro s hs fuel2 hf2
    rw [Nat.le_zero, List.length_eq_zero] at hs
    subst hs
    cases fuel2 <;> rfl
  | succ f ih =>
    intro s hs fuel2 hf2
    cases s with
    | nil => cases fuel2 <;> rfl
    | cons c t =>
      have hlt : t.length ≤ f := by
        simp only [List.length_cons] at hs
        omega
      simp only [scanSub] at hf2 ⊢
      cases hm : mSlash (c :: t) with
      | none =>
        rw [hm] at hf2
        replace hf2 : (c :: scanSub mSlash f t).length ≤ fuel2 := hf2
        show scanSub mSlash fuel2 (c :: scanSub mSlash f t) = c :: scanSub mSlash f t
        cases fuel2 with
        | zero =>
          exfalso
          simp only [List.length_cons] at hf2
          omega
        | succ f2 =>
          simp only [scanSub]
          have hnone2 : mSlash (c :: scanSub mSlash f t) = none := by
            by_cases hcd : c.isDigit = true
            · refine (mSlash_cons_none_iff hcd).mpr ?_
              exact sl_transfer f t .sA ((mSlash_cons_none_iff hcd).mp hm)
            · exact mSlash_no_digit (by simpa using hcd)
          rw [hnone2]
          show c :: scanSub mSlash f2 (scanSub mSlash f t) = c :: scanSub mSlash f t
          have hscan : scanSub mSlash f2 (scanSub mSlash f t) = scanSub mSlash f t := by
            refine ih t hlt f2 ?_
            simp only [List.length_cons] at hf2
            omega
          rw [hscan]
      | some pr =>
        obtain ⟨k, rep⟩ := pr
        rw [hm] at hf2
        replace hf2 : (rep ++ scanSub mSlash f (List.drop (k - 1) t)).length ≤ fuel2 := hf2
        show scanSub mSlash fuel2 (rep ++ scanSub mSlash f (List.drop (k - 1) t)) =
          rep ++ scanSub mSlash f (List.drop (k - 1) t)
        obtain ⟨d1, w1, w2, d2, r, hse, hd1ne, hd1, hw1, hw2, hd2ne, hd2, hrh, hk, hrep⟩ :=
          mSlash_some_inv hm
        have hdrop : List.drop (k - 1) t = r := drop_match_slash hse hd1ne hk
        rw [hdrop] at hf2 ⊢
        have hOh : ∀ y, (scanSub mSlash f r).head? = some y → y.isDigit = false :=
          scanSl_head_nodigit hrh f
        have hrl : rep.length = d1.length + 1 + d2.length := by
          rw [hrep]
          simp only [List.length_append, List.length_cons]
          omega
        have hmatch : mSlash (rep ++ scanSub mSlash f r) =
            some (d1.length + 1 + d2.length, d1 ++ '/' :: d2) := by
          rw [hrep]
          exact mSlash_rematch hd1ne hd1 hd2ne hd2 hOh
        cases fuel2 with
        | zero =>
          exfalso
          rw [List.length_append, hrl] at hf2
          omega
        | succ f2 =>
          cases d1 with
          | nil => exact absurd rfl hd1ne
          | cons dc dt =>
            have hform : rep ++ scanSub mSlash f r =
                dc :: (dt ++ '/' :: (d2 ++ scanSub mSlash f r)) := by
              rw [hrep]
              simp [List.cons_append, List.append_assoc]
            rw [hform] at hmatch ⊢
            simp only [scanSub]
            rw [hmatch]
            show ((dc :: dt) ++ '/' :: d2) ++
                scanSub mSlash f2 (List.drop ((dc :: dt).length + 1 + d2.length - 1)
                  (dt ++ '/' :: (d2 ++ scanSub mSlash f r))) =
              dc :: (dt ++ '/' :: (d2 ++ scanSub mSlash f r))
            have hse2 : dc :: (dt ++ '/' :: (d2 ++ scanSub mSlash f r)) =
                (dc :: dt) ++ ([] ++ '/' :: ([] ++ (d2 ++ scanSub mSlash f r))) := by
              simp [List.cons_append]
            have hk2 : (dc :: dt).length + 1 + d2.length =
                (dc :: dt).length + ([] : List Char).length + 1 + ([] : List Char).length +
                  d2.length := by
              simp
            have hdropO : List.drop ((dc :: dt).length + 1 + d2.length - 1)
                (dt ++ '/' :: (d2 ++ scanSub mSlash f r)) = scanSub mSlash f r :=
              drop_match_slash hse2 (by simp) hk2
            rw [hdropO]
            have hO2 : scanSub mSlash f2 (scanSub mSlash f r) = scanSub mSlash f r := by
              refine ih r ?_ f2 ?_
              · have hlen := congrArg List.length hse
                simp only [List.length_cons, List.length_append] at hlen
                omega
              · rw [List.length_append, hrl] at hf2
                simp only [List.length_cons] at hf2 ⊢
                omega
            rw [hO2]
            simp [List.cons_append, List.append_assoc]

/-! ## End-character preservation and strip stability -/

theorem mem_of_getLast7 {α : Type} : ∀ {l : List α} {a : α}, l.getLast? = some a → a ∈ l := by
  intro l
  induction l with
  | nil =>
    intro a h
    exact absurd h (by simp)
  | cons x t ih =>
    intro a h
    cases t with
    | nil =>
      rw [List.getLast?_singleton] at h
      injection h with h2
      rw [h2]
      exact List.mem_cons_self a []
    | cons y t2 =>
      rw [List.getLast?_cons_cons] at h
      exact List.mem_cons_of_mem x (ih h)

theorem dropWhile_ends {p : Char → Bool} {h0 : Char} (hp : p h0 = false) :
    ∀ l : List Char, ∃ l2, (l ++ [h0]).dropWhile p = l2 ++ [h0] := by
  intro l
  induction l with
  | nil =>
    refine ⟨[], ?_⟩
    rw [List.nil_append, List.dropWhile_cons, if_neg (by simp [hp])]
  | cons a t ih =>
    rw [List.cons_append, List.dropWhile_cons]
    by_cases ha : p a = true
    · rw [if_pos ha]
      exact ih
    · rw [if_neg ha]
      exact ⟨a :: t, rfl⟩

theorem stripL_head {y : List Char} : ∀ x ∈ (stripL y).head?, pyWs x = false := by
  intro x hx
  unfold stripL at hx
  cases hin : y.dropWhile pyWs with
  | nil =>
    rw [hin] at hx
    exact absurd hx (by simp)
  | cons h0 t =>
    have hh0 : pyWs h0 = false := by
      have := @dropWhile_head_not pyWs y
      rw [hin] at this
      exact this h0 rfl
    rw [hin] at hx
    obtain ⟨l2, hl2⟩ := dropWhile_ends hh0 t.reverse
    rw [show (h0 :: t).reverse = t.reverse ++ [h0] from by simp, hl2] at hx
    rw [List.reverse_append] at hx
    replace hx : (h0 :: l2.reverse).head? = some x := hx
    injection hx with hx2
    rw [← hx2]
    exact hh0

theorem scanSub_ne_nil {m : List Char → Option (Nat × List Char)}
    (hne : ∀ s k rep, m s = some (k, rep) → rep ≠ []) :
    ∀ fuel s, s ≠ [] → scanSub m fuel s ≠ [] := by
  intro fuel s hs
  cases fuel with
  | zero => exact hs
  | succ f =>
    cases s with
    | nil => exact absurd rfl hs
    | cons c t =>
      simp only [scanSub]
      cases hm : m (c :: t) with
      | none => simp
      | some pr =>
        obtain ⟨k, rep⟩ := pr
        show rep ++ scanSub m f (List.drop (k - 1) t) ≠ []
        simp [hne _ k rep hm]

theorem scanSub_last {m : List Char → Option (Nat × List Char)}
    (hne : ∀ s k rep, m s = some (k, rep) → rep ≠ [])
    (hl : ∀ s k rep, m s = some (k, rep) → ∀ y, rep.getLast? = some y → pyWs y = false) :
    ∀ fuel s, (∀ y, s.getLast? = some y → pyWs y = false) →
      ∀ y, (scanSub m fuel s).getLast? = some y → pyWs y = false := by
  intro fuel
  induction fuel with
  | zero =>
    intro s hs
    exact hs
  | succ f ih =>
    intro s hs
    cases s with
    | nil =>
      intro y hy
      exact absurd hy (by simp [scanSub])
    | cons c t =>
      intro y hy
      simp only [scanSub] at hy
      cases hm : m (c :: t) with
      | none =>
        rw [hm] at hy
        replace hy : (c :: scanSub m f t).getLast? = some y := hy
        cases hsc : scanSub m f t with
        | nil =>
          have ht : t = [] := by
            by_cases ht : t = []
            · exact ht
            · exact absurd hsc (scanSub_ne_nil hne f t ht)
          subst ht
          rw [hsc] at hy
          rw [List.getLast?_singleton] at hy
          injection hy with hy2
          rw [← hy2]
          exact hs c (by rw [List.getLast?_singleton])
        | cons a l2 =>
          rw [hsc] at hy
          rw [show c :: a :: l2 = [c] ++ a :: l2 from rfl, getLast_append_cons] at hy
          rw [← hsc] at hy
          refine ih t ?_ y hy
          intro y2 hy2
          cases t with
          | nil =>
            exact absurd hy2 (by simp)
          | cons c2 t2 =>
            refine hs y2 ?_
            rw [show c :: c2 :: t2 = [c] ++ c2 :: t2 from rfl, getLast_append_cons]
            exact hy2
      | some pr =>
        obtain ⟨k, rep⟩ := pr
        rw [hm] at hy
        replace hy : (rep ++ scanSub m f (List.drop (k - 1) t)).getLast? = some y := hy
        cases hsc : scanSub m f (List.drop (k - 1) t) with
        | nil =>
          rw [hsc, List.append_nil] at hy
          exact hl _ k rep hm y hy
        | cons a l2 =>
          rw [hsc, getLast_append_cons] at hy
          rw [← hsc] at hy
          have hdne : List.drop (k - 1) t ≠ [] := by
            intro hd
            rw [hd] at hsc
            have hnil : scanSub m f ([] : List Char) = [] := by cases f <;> rfl
            rw [hnil] at hsc
            exact absurd hsc (by simp)
          refine ih (List.drop (k - 1) t) ?_ y hy
          intro y2 hy2
          cases hD : List.drop (k - 1) t with
          | nil => exact absurd hD hdne
          | cons a2 l3 =>
            have hsuf : List.drop (k - 1) t <:+ c :: t :=
              (List.drop_suffix _ _).trans (List.suffix_cons c t)
            obtain ⟨pre, hpre⟩ := hsuf
            refine hs y2 ?_
            rw [← hpre, hD, getLast_append_cons]
            rw [hD] at hy2
            exact hy2

theorem mNum_head_pres {x : Char} : ∀ c t k rep, mNum x (c :: t) = some (k, rep) →
    ∃ r2, rep = c :: r2 := by
  intro c t k rep hm
  obtain ⟨g, w, a, b, c2, r, hse, hg, hwx, hva, hvb, hvc, hk, hrep, hgne,
    d1, d2, hd1ne, hd1, hd2, hor⟩ := mNum_some_inv hm
  obtain ⟨dc, dt, hdd⟩ : ∃ dc dt, d1 = dc :: dt := by
    cases d1 with
    | nil => exact absurd rfl hd1ne
    | cons dc dt => exact ⟨dc, dt, rfl⟩
  subst hdd
  obtain ⟨gr, hgr⟩ : ∃ gr, g = dc :: gr := by
    rcases hor with hor | hor <;> subst hor
    · exact ⟨dt, rfl⟩
    · exact ⟨dt ++ '.' :: d2, by rw [List.cons_append]⟩
  rw [hgr, List.cons_append] at hse
  injection hse with h1 h2
  subst h1
  exact ⟨gr ++ ['V', ' ', uppC x, 'C'], by rw [hrep, hgr, List.cons_append]⟩

theorem mNum_rep_facts {x : Char} : ∀ s k rep, mNum x s = some (k, rep) →
    rep ≠ [] ∧ ∀ y, rep.getLast? = some y → pyWs y = false := by
  intro s k rep hm
  obtain ⟨g, w, a, b, c2, r, hse, hg, hwx, hva, hvb, hvc, hk, hrep, hgne,
    d1, d2, hd1ne, hd1, hd2, hor⟩ := mNum_some_inv hm
  constructor
  · rw [hrep]
    simp
  · intro y hy
    rw [hrep, show (['V', ' ', uppC x, 'C'] : List Char) = 'V' :: [' ', uppC x, 'C'] from rfl,
      getLast_append_cons] at hy
    replace hy : some 'C' = some y := by rw [← hy]; rfl
    injection hy with hy2
    rw [← hy2]
    decide

theorem mVws_head_pres {x : Char} : ∀ c t k rep, mVws x (c :: t) = some (k, rep) →
    ∃ r2, rep = c :: r2 := by
  intro c t k rep hm
  obtain ⟨w, r, hse, hwne, hw, hk, hrep⟩ := mVws_some_inv hm
  injection hse with h1 h2
  subst h1
  exact ⟨[' ', x, 'C'], by rw [hrep]⟩

theorem mVws_rep_facts {x : Char} : ∀ s k rep, mVws x s = some (k, rep) →
    rep ≠ [] ∧ ∀ y, rep.getLast? = some y → pyWs y = false := by
  intro s k rep hm
  obtain ⟨w, r, hse, hwne, hw, hk, hrep⟩ := mVws_some_inv hm
  constructor
  · rw [hrep]
    simp
  · intro y hy
    rw [hrep] at hy
    replace hy : some 'C' = some y := by rw [← hy]; rfl
    injection hy with hy2
    rw [← hy2]
    decide

theorem mSlash_head_pres : ∀ c t k rep, mSlash (c :: t) = some (k, rep) →
    ∃ r2, rep = c :: r2 := by
  intro c t k rep hm
  obtain ⟨d1, w1, w2, d2, r, hse, hd1ne, hd1, hw1, hw2, hd2ne, hd2, hrh, hk, hrep⟩ :=
    mSlash_some_inv hm
  obtain ⟨dc, dt, hdd⟩ : ∃ dc dt, d1 = dc :: dt := by
    cases d1 with
    | nil => exact absurd rfl hd1ne
    | cons dc dt => exact ⟨dc, dt, rfl⟩
  subst hdd
  rw [List.cons_append] at hse
  injection hse with h1 h2
  subst h1
  exact ⟨dt ++ '/' :: d2, by rw [hrep, List.cons_append]⟩

theorem mSlash_rep_facts : ∀ s k rep, mSlash s = some (k, rep) →
    rep ≠ [] ∧ ∀ y, rep.getLast? = some y → pyWs y = false := by
  intro s k rep hm
  obtain ⟨d1, w1, w2, d2, r, hse, hd1ne, hd1, hw1, hw2, hd2ne, hd2, hrh, hk, hrep⟩ :=
    mSlash_some_inv hm
  constructor
  · rw [hrep]
    simp
  · intro y hy
    rw [hrep, getLast_append_cons] at hy
    obtain ⟨ec, et, hdd⟩ : ∃ ec et, d2 = ec :: et := by
      cases d2 with
      | nil => exact absurd rfl hd2ne
      | cons ec et => exact ⟨ec, et, rfl⟩
    subst hdd
    rw [List.getLast?_cons_cons] at hy
    have hmem : y ∈ ec :: et := mem_of_getLast7 hy
    exact digit_not_ws (hd2 y hmem)

/-- C7: standardize_voltage is idempotent: applying it to its own output
returns that output unchanged. -/
theorem C7_standardize_voltage_idem (s : String) :
    standardize_voltage (standardize_voltage s) = standardize_voltage s := by
  by_cases hs : s = ""
  · subst hs
    rfl
  · have hsv : standardize_voltage s =
        ⟨runSub mSlash (runSub (mVws 'A') (runSub (mVws 'D') (runSub (mNum 'a')
          (runSub (mNum 'd') (stripL s.data)))))⟩ := by
      unfold standardize_voltage
      rw [if_neg hs]
    set L0 : List Char := stripL s.data with hL0
    set L1 : List Char := runSub (mNum 'd') L0 with hL1
    set L2 : List Char := runSub (mNum 'a') L1 with hL2
    set L3 : List Char := runSub (mVws 'D') L2 with hL3
    set L4 : List Char := runSub (mVws 'A') L3 with hL4
    set L5 : List Char := runSub mSlash L4 with hL5
    have hxd : ('d' : Char) = 'd' ∨ ('d' : Char) = 'a' := Or.inl rfl
    have hxa : ('a' : Char) = 'd' ∨ ('a' : Char) = 'a' := Or.inr rfl
    have hXD : ('D' : Char) = 'D' ∨ ('D' : Char) = 'A' := Or.inl rfl
    have hXA : ('A' : Char) = 'D' ∨ ('A' : Char) = 'A' := Or.inr rfl
    have hNd1 : NoNum 'd' L1 := np_est hxd (L0.length + 1) L0 (Nat.le_succ _)
    have hNd2 : NoNum 'd' L2 :=
      no_num_scan (np_kill_mNum hxd hxa) (np_suf_mNum hxd hxa) (L1.length + 1) L1 hNd1
    have hNd3 : NoNum 'd' L3 :=
      no_num_scan (np_kill_mVws hxd) (np_suf_mVws hxd (by decide)) (L2.length + 1) L2 hNd2
    have hNd4 : NoNum 'd' L4 :=
      no_num_scan (np_kill_mVws hxd) (np_suf_mVws hxd (by decide)) (L3.length + 1) L3 hNd3
    have hNd5 : NoNum 'd' L5 :=
      no_num_scan (np_kill_mSlash hxd) (np_suf_mSlash hxd) (L4.length + 1) L4 hNd4
    have hNa2 : NoNum 'a' L2 := np_est hxa (L1.length + 1) L1 (Nat.le_succ _)
    have hNa3 : NoNum 'a' L3 :=
      no_num_scan (np_kill_mVws hxa) (np_suf_mVws hxa (by decide)) (L2.length + 1) L2 hNa2
    have hNa4 : NoNum 'a' L4 :=
      no_num_scan (np_kill_mVws hxa) (np_suf_mVws hxa (by decide)) (L3.length + 1) L3 hNa3
    have hNa5 : NoNum 'a' L5 :=
      no_num_scan (np_kill_mSlash hxa) (np_suf_mSlash hxa) (L4.length + 1) L4 hNa4
    have hBD3 : NoBadV 'D' L3 := vb_est hXD (L2.length + 1) L2 (Nat.le_succ _)
    have hBD4 : NoBadV 'D' L4 :=
      no_badv_scan hXD (vb_kill_mVws hXD) (vb_suf_mVws hXD hXA) (L3.length + 1) L3 hBD3
    have hBD5 : NoBadV 'D' L5 :=
      no_badv_scan hXD (vb_kill_mSlash hXD) vb_suf_mSlash (L4.length + 1) L4 hBD4
    have hBA4 : NoBadV 'A' L4 := vb_est hXA (L3.length + 1) L3 (Nat.le_succ _)
    have hBA5 : NoBadV 'A' L5 :=
      no_badv_scan hXA (vb_kill_mSlash hXA) vb_suf_mSlash (L4.length + 1) L4 hBA4
    have hh0 : ∀ y, L0.head? = some y → pyWs y = false := fun y hy => stripL_head y hy
    have hl0 : ∀ y, L0.getLast? = some y → pyWs y = false := fun y hy => stripL_last y hy
    have heq1 : L1.head? = L0.head? := scanSub_head_eq mNum_head_pres (L0.length + 1) L0
    have heq2 : L2.head? = L1.head? := scanSub_head_eq mNum_head_pres (L1.length + 1) L1
    have heq3 : L3.head? = L2.head? := scanSub_head_eq mVws_head_pres (L2.length + 1) L2
    have heq4 : L4.head? = L3.head? := scanSub_head_eq mVws_head_pres (L3.length + 1) L3
    have heq5 : L5.head? = L4.head? := scanSub_head_eq mSlash_head_pres (L4.length + 1) L4
    have hhead5 : L5.head? = L0.head? := by rw [heq5, heq4, heq3, heq2, heq1]
    have hl1 : ∀ y, L1.getLast? = some y → pyWs y = false :=
      scanSub_last (fun s2 k rep hm => (mNum_rep_facts s2 k rep hm).1)
        (fun s2 k rep hm => (mNum_rep_facts s2 k rep hm).2) (L0.length + 1) L0 hl0
    have hl2 : ∀ y, L2.getLast? = some y → pyWs y = false :=
      scanSub_last (fun s2 k rep hm => (mNum_rep_facts s2 k rep hm).1)
        (fun s2 k rep hm => (mNum_rep_facts s2 k rep hm).2) (L1.length + 1) L1 hl1
    have hl3 : ∀ y, L3.getLast? = some y → pyWs y = false :=
      scanSub_last (fun s2 k rep hm => (mVws_rep_facts s2 k rep hm).1)
        (fun s2 k rep hm => (mVws_rep_facts s2 k rep hm).2) (L2.length + 1) L2 hl2
    have hl4 : ∀ y, L4.getLast? = some y → pyWs y = false :=
      scanSub_last (fun s2 k rep hm => (mVws_rep_facts s2 k rep hm).1)
        (fun s2 k rep hm => (mVws_rep_facts s2 k rep hm).2) (L3.length + 1) L3 hl3
    have hl5 : ∀ y, L5.getLast? = some y → pyWs y = false :=
      scanSub_last (fun s2 k rep hm => (mSlash_rep_facts s2 k rep hm).1)
        (fun s2 k rep hm => (mSlash_rep_facts s2 k rep hm).2) (L4.length + 1) L4 hl4
    by_cases h5nil : L5 = []
    · rw [hsv, h5nil]
      rfl
    · rw [hsv]
      have hne5 : (⟨L5⟩ : String) ≠ "" := by
        intro hc
        exact h5nil (congrArg String.data hc)
      show standardize_voltage ⟨L5⟩ = ⟨L5⟩
      unfold standardize_voltage
      rw [if_neg hne5]
      have hdata : (⟨L5⟩ : String).data = L5 := rfl
      rw [hdata]
      have hstrip : stripL L5 = L5 := by
        refine stripL_id_of_ends ?_ ?_
        · intro c hc
          refine hh0 c ?_
          rw [← hhead5]
          exact hc
        · intro c hc
          exact hl5 c hc
      rw [hstrip]
      rw [runSub_id_of_NoNum hNd5]
      rw [runSub_id_of_NoNum hNa5]
      rw [runSub_id_of_NoBadV hBD5]
      rw [runSub_id_of_NoBadV hBA5]
      have hsl : runSub mSlash L5 = L5 :=
        sl_idem (L4.length + 1) L4 (Nat.le_succ _)
          ((scanSub mSlash (L4.length + 1) L4).length + 1) (Nat.le_succ _)
      rw [hsl]

end ScrAPEM
